import Mathlib

/-!
# pkgutil, package `security`: symmetric cipher helpers

A shallow embedding of `pkg/util/security/aes.go` and `pkg/util/security/des.go`.

* A Go `byte` is a `Fin 256`; a Go `[]byte` and a Go `string` are both a list of bytes
  (a Go string is a byte sequence, and the code only converts between the two).
* A Go function that can panic returns `Except Panic _`; a Go `(value, error)` pair is
  modelled by the three-way `Res`.
* The block ciphers of `crypto/aes` and `crypto/des` are not code of this package: they
  enter as a parameter `BlockPrim` (key -> block -> block, both directions) together with
  the contract `BlockPrim.Lawful`. The chaining modes of `crypto/cipher`, and
  `encoding/hex`, `encoding/base64`, `strings.TrimSpace`, `strings.ToUpper` are modelled
  from their documented behaviour.
* The random source read by `io.ReadFull(rand.Reader, iv)` is an argument of `Encrypt`.

The first part of the file holds every definition, the second part the lemmas and theorems.
-/

namespace Security

/-! ## Part 1: definitions -/

/-- A Go `byte`. -/
abbrev Byte := Fin 256

/-- A Go `[]byte`, also used for a Go `string`. -/
abbrev Bytes := List Byte

/-- Go `byte(n)` for a non-negative `int`: truncation to eight bits. -/
def toByte (n : Nat) : Byte := ⟨n % 256, Nat.mod_lt _ (by decide)⟩

/-- Go `a ^ b` on bytes. -/
def bxor (a b : Byte) : Byte := ⟨a.val ^^^ b.val, Nat.xor_lt_two_pow (n := 8) a.isLt b.isLt⟩

/-- Run-time panics of the Go code that the claims are concerned with. -/
inductive Panic where
  /-- An index expression `s[i]` with `i` out of range. -/
  | indexOutOfRange
  /-- A slice expression `s[:n]` or `s[a:b]` with bounds out of range. -/
  | sliceBounds
  /-- The panic of `crypto/cipher`: input not full blocks. -/
  | inputNotFullBlocks
  /-- A method call on a nil interface value. -/
  | nilDereference
  /-- A failed type assertion `x.(T)`. -/
  | typeAssertion
  deriving DecidableEq, Repr

/-- The Go `error` values that occur in the package. -/
inductive GoError where
  /-- Value `base64.CorruptInputError`. -/
  | corruptInput
  /-- Value `hex.InvalidByteError`. -/
  | hexInvalidByte (b : Byte)
  /-- Value `hex.ErrLength`. -/
  | hexErrLength
  /-- Value `aes.KeySizeError(n)` or `des.KeySizeError(n)`. -/
  | keySize (n : Nat)
  /-- An error returned by the random source. -/
  | randRead
  /-- Built by `fmt.Errorf("%s : plaintext is not a multiple of the block size", pt)`. -/
  | plaintextNotMultiple (pt : Bytes)
  /-- Built by `fmt.Errorf("%s : ciphertext too short", ct)`. -/
  | ciphertextTooShort (ct : Bytes)
  /-- Built by `fmt.Errorf("%s : ciphertext is not a multiple of the block size", ct)`. -/
  | ciphertextNotMultiple (ct : Bytes)
  /-- Built by `fmt.Errorf("the ciphertext is nil")`. -/
  | ciphertextNil
  /-- Built by `fmt.Errorf("the length of the ciphertext is too short")`. -/
  | cfbTooShort
  /-- A recovered run-time panic; `runtime.Error` implements `error`. -/
  | runtime (p : Panic)
  /-- An error made by `errors.New` or `fmt.Errorf` with the given message. -/
  | text (msg : String)
  /-- An error returned by `crypto/x509` or `crypto/rsa`, identified by a number. -/
  | library (code : Nat)
  deriving DecidableEq, Repr

/-- Outcome of a Go function returning `(value, error)` that may also panic. -/
inductive Res (α : Type) where
  | val (a : α)
  | err (e : GoError)
  | panic (p : Panic)
  deriving DecidableEq, Repr

/-- Go `copy(dst, src)`: the first `min (len dst) (len src)` elements of `dst` are overwritten. -/
def copy (dst src : Bytes) : Bytes := src.take dst.length ++ dst.drop src.length

/-- Go `make([]byte, n)`. -/
def makeBytes (n : Nat) : Bytes := List.replicate n 0

/-! ### Padding (`aes.go` 164-179, `des.go` 75-88) -/

/-- Go `pkcs7Padding` of `aes.go`. The block size is a `Nat`; a block size of `0` makes the Go
code panic with a division by zero, and the callers pass the constant 16 only. -/
def pkcs7Padding (ciphertext : Bytes) (blockSize : Nat) : Bytes :=
  let padding := blockSize - ciphertext.length % blockSize
  let padtext := List.replicate padding (toByte padding)
  ciphertext ++ padtext

/-- Go `pkcs7UnPadding` of `aes.go`: `none` is the `nil` slice returned for empty input; the
slice expression `origData[:(length - unpadding)]` panics when `unpadding > length`. -/
def pkcs7UnPadding (origData : Bytes) : Except Panic (Option Bytes) :=
  let length := origData.length
  if length = 0 then .ok none
  else
    let unpadding := (origData.getD (length - 1) 0).val
    if unpadding ≤ length then .ok (some (origData.take (length - unpadding)))
    else .error .sliceBounds

/-- Go `PKCS5Padding` of `des.go`; the same remark on `blockSize = 0` applies. -/
def PKCS5Padding (ciphertext : Bytes) (blockSize : Nat) : Bytes :=
  let padding := blockSize - ciphertext.length % blockSize
  let padtext := List.replicate padding (toByte padding)
  ciphertext ++ padtext

/-- Go `PKCS5UnPadding` of `des.go`: `origData[length-1]` panics on empty input, and the slice
expression panics when `unpadding > length`. -/
def PKCS5UnPadding (origData : Bytes) : Except Panic Bytes :=
  let length := origData.length
  if length = 0 then .error .indexOutOfRange
  else
    let unpadding := (origData.getD (length - 1) 0).val
    if unpadding ≤ length then .ok (origData.take (length - unpadding))
    else .error .sliceBounds

/-! ### ECB key derivation (`aes.go` 303-312) -/

/-- The inner loop of `generateKeys`:
`for j := 0; j < 16 && i < len(key); j, i = j+1, i+1 { genKey[j] ^= key[i] }`.
It returns the final `i` and `genKey`. The loop runs at most 16 times from `j = 0`. -/
def generateKeysInner (key : Bytes) : Nat → Nat → Nat → Bytes → Nat × Bytes
  | 0, _, i, genKey => (i, genKey)
  | fuel + 1, j, i, genKey =>
    if j < 16 ∧ i < key.length then
      generateKeysInner key fuel (j + 1) (i + 1)
        (genKey.set j (bxor (genKey.getD j 0) (key.getD i 0)))
    else (i, genKey)

/-- The outer loop of `generateKeys`: `for i := 16; i < len(key); { inner loop }`. -/
def generateKeysOuter (key : Bytes) : Nat → Nat → Bytes → Bytes
  | 0, _, genKey => genKey
  | fuel + 1, i, genKey =>
    if i < key.length then
      let r := generateKeysInner key 16 0 i genKey
      generateKeysOuter key fuel r.1 r.2
    else genKey

/-- Go `generateKeys` of `aes.go`. Every pass of the outer loop advances `i`, so `len(key)`
passes are enough. -/
def generateKeys (key : Bytes) : Bytes :=
  generateKeysOuter key key.length 16 (copy (makeBytes 16) key)

/-- The XOR of all `k[i]` with `i < n` and `i mod 16 = j` (a missing byte counts as 0). -/
def xorFoldUpTo (k : Bytes) (n j : Nat) : Byte :=
  ((List.range n).filter (fun i => i % 16 = j)).foldl
    (fun acc i => bxor acc (k.getD i 0)) 0

/-- The specification side of the key derivation: the XOR of all `k[i]` with `i < len(k)`
and `i mod 16 = j`. -/
def xorFold (k : Bytes) (j : Nat) : Byte := xorFoldUpTo k k.length j

/-! ### `encoding/hex` and `strings.ToUpper` -/

/-- The table `hextable = "0123456789abcdef"` of `encoding/hex`. -/
def hextable : Bytes :=
  [48, 49, 50, 51, 52, 53, 54, 55, 56, 57, 97, 98, 99, 100, 101, 102]

/-- Go `hex.EncodeToString`: two characters per byte, `hextable[v>>4]` and `hextable[v&0x0f]`. -/
def hexEncode (src : Bytes) : Bytes :=
  src.flatMap (fun v => [hextable.getD (v.val / 16) 0, hextable.getD (v.val % 16) 0])

/-- The value of one hexadecimal character, upper or lower case (`reverseHexTable`);
`none` is the table entry `0xff`. -/
def fromHexChar (c : Byte) : Option Nat :=
  if 48 ≤ c.val ∧ c.val ≤ 57 then some (c.val - 48)
  else if 97 ≤ c.val ∧ c.val ≤ 102 then some (c.val - 97 + 10)
  else if 65 ≤ c.val ∧ c.val ≤ 70 then some (c.val - 65 + 10)
  else none

/-- Go `hex.DecodeString`: the bytes decoded before the first problem, and the error if any
(an invalid character is reported before an odd length). -/
def hexDecode : Bytes → Bytes × Option GoError
  | [] => ([], none)
  | [p] =>
    match fromHexChar p with
    | none => ([], some (.hexInvalidByte p))
    | some _ => ([], some .hexErrLength)
  | p :: q :: rest =>
    match fromHexChar p with
    | none => ([], some (.hexInvalidByte p))
    | some a =>
      match fromHexChar q with
      | none => ([], some (.hexInvalidByte q))
      | some b =>
        let r := hexDecode rest
        (toByte (a * 16 + b) :: r.1, r.2)

/-- Go `strings.ToUpper` on a string of ASCII bytes (its only use is on the output of
`hex.EncodeToString`): `a`..`z` are moved to `A`..`Z`, every other byte is kept. -/
def toUpper (s : Bytes) : Bytes :=
  s.map (fun c => if 97 ≤ c.val ∧ c.val ≤ 122 then toByte (c.val - 32) else c)

/-! ### `strings.TrimSpace` -/

/-- The UTF-8 encodings of the code points for which `unicode.IsSpace` holds: the six ASCII
spaces, U+0085, U+00A0, U+1680, U+2000..U+200A, U+2028, U+2029, U+202F, U+205F, U+3000. -/
def spaceRunes : List Bytes :=
  [[9], [10], [11], [12], [13], [32], [0xC2, 0x85], [0xC2, 0xA0], [0xE1, 0x9A, 0x80],
   [0xE2, 0x80, 0x80], [0xE2, 0x80, 0x81], [0xE2, 0x80, 0x82], [0xE2, 0x80, 0x83],
   [0xE2, 0x80, 0x84], [0xE2, 0x80, 0x85], [0xE2, 0x80, 0x86], [0xE2, 0x80, 0x87],
   [0xE2, 0x80, 0x88], [0xE2, 0x80, 0x89], [0xE2, 0x80, 0x8A], [0xE2, 0x80, 0xA8],
   [0xE2, 0x80, 0xA9], [0xE2, 0x80, 0xAF], [0xE2, 0x81, 0x9F], [0xE3, 0x80, 0x80]]

/-- Whether `s` begins with the bytes `r`. -/
def startsWith : Bytes → Bytes → Bool
  | _, [] => true
  | [], _ :: _ => false
  | c :: s, d :: r => c == d && startsWith s r

/-- Strip white-space runes from the front of `s`, one rune per step. -/
def trimLeft : Nat → Bytes → Bytes
  | 0, s => s
  | fuel + 1, s =>
    match spaceRunes.find? (fun r => startsWith s r) with
    | some r => trimLeft fuel (s.drop r.length)
    | none => s

/-- Strip white-space runes from the back of the string whose reversal is `s`. -/
def trimRightRev : Nat → Bytes → Bytes
  | 0, s => s
  | fuel + 1, s =>
    match spaceRunes.find? (fun r => startsWith s r.reverse) with
    | some r => trimRightRev fuel (s.drop r.length)
    | none => s

/-- Go `strings.TrimSpace`: all leading and trailing white space, as defined by Unicode, is
removed. Every step removes at least one byte, so `len(s)` steps are enough. -/
def trimSpace (s : Bytes) : Bytes :=
  let l := trimLeft s.length s
  (trimRightRev l.length l.reverse).reverse

/-! ### `encoding/base64` -/

/-- An `*base64.Encoding`: its 64-character alphabet and its padding character
(`none` is `NoPadding`). Both encodings used by the package are non-strict. -/
structure Encoding where
  alphabet : Bytes
  padChar : Option Byte
  deriving DecidableEq, Repr

/-- Value `base64.StdEncoding`: `A`-`Z`, `a`-`z`, `0`-`9`, `+`, `/`, padded with `=`. -/
def StdEncoding : Encoding where
  alphabet :=
    [65, 66, 67, 68, 69, 70, 71, 72, 73, 74, 75, 76, 77, 78, 79, 80, 81, 82, 83, 84, 85, 86,
     87, 88, 89, 90, 97, 98, 99, 100, 101, 102, 103, 104, 105, 106, 107, 108, 109, 110, 111,
     112, 113, 114, 115, 116, 117, 118, 119, 120, 121, 122, 48, 49, 50, 51, 52, 53, 54, 55,
     56, 57, 43, 47]
  padChar := some 61

/-- Value `base64.RawURLEncoding`: `A`-`Z`, `a`-`z`, `0`-`9`, `-`, `_`, without padding. -/
def RawURLEncoding : Encoding where
  alphabet :=
    [65, 66, 67, 68, 69, 70, 71, 72, 73, 74, 75, 76, 77, 78, 79, 80, 81, 82, 83, 84, 85, 86,
     87, 88, 89, 90, 97, 98, 99, 100, 101, 102, 103, 104, 105, 106, 107, 108, 109, 110, 111,
     112, 113, 114, 115, 116, 117, 118, 119, 120, 121, 122, 48, 49, 50, 51, 52, 53, 54, 55,
     56, 57, 45, 95]
  padChar := none

/-- The table lookup `enc.encode[i]`. -/
def Encoding.encodeChar (enc : Encoding) (i : Nat) : Byte := enc.alphabet.getD i 0

/-- The padding characters written after a final group that lacks `n` bytes. -/
def Encoding.padding (enc : Encoding) (n : Nat) : Bytes :=
  match enc.padChar with
  | some p => List.replicate n p
  | none => []

/-- Go `(*Encoding).EncodeToString`. With `val = b0<<16 | b1<<8 | b2`, the four characters of a
group are `encode[val>>18&0x3F]`, `encode[val>>12&0x3F]`, `encode[val>>6&0x3F]`,
`encode[val&0x3F]`; a final group of one or two bytes is padded. -/
def Encoding.encode (enc : Encoding) : Bytes → Bytes
  | [] => []
  | [b0] =>
    let val := b0.val * 65536
    [enc.encodeChar (val / 262144 % 64), enc.encodeChar (val / 4096 % 64)] ++ enc.padding 2
  | [b0, b1] =>
    let val := b0.val * 65536 + b1.val * 256
    [enc.encodeChar (val / 262144 % 64), enc.encodeChar (val / 4096 % 64),
     enc.encodeChar (val / 64 % 64)] ++ enc.padding 1
  | b0 :: b1 :: b2 :: rest =>
    let val := b0.val * 65536 + b1.val * 256 + b2.val
    [enc.encodeChar (val / 262144 % 64), enc.encodeChar (val / 4096 % 64),
     enc.encodeChar (val / 64 % 64), enc.encodeChar (val % 64)] ++ enc.encode rest

/-- The table lookup `enc.decodeMap[c]`; `none` is the entry `0xff` of a character outside
the alphabet. -/
def Encoding.decodeMap (enc : Encoding) (c : Byte) : Option Nat :=
  let i := enc.alphabet.indexOf c
  if i < 64 then some i else none

/-- The loops `for si < len(src) && (src[si] == '\n' || src[si] == '\r') { si++ }`. -/
def skipNewlines : Bytes → Bytes
  | [] => []
  | c :: rest => if c = 10 ∨ c = 13 then skipNewlines rest else c :: rest

/-- The end of `decodeQuantum`: the 6-bit values read so far (missing ones count as 0) are
joined into `val`, and `dlen - 1` bytes of `val>>16`, `val>>8`, `val` are written. -/
def assemble (dbuf : List Nat) (dlen : Nat) : Bytes :=
  let val := dbuf.getD 0 0 * 262144 + dbuf.getD 1 0 * 4096 + dbuf.getD 2 0 * 64 + dbuf.getD 3 0
  [toByte (val / 65536), toByte (val / 256), toByte val].take (dlen - 1)

/-- Go `(*Encoding).DecodeString` of a non-strict encoding: the loop of `Decode` over
`decodeQuantum`, with `dbuf` the 6-bit values of the group being read. The result is the
bytes decoded so far and the error, if any. Line feeds and carriage returns are skipped;
after padding only those may follow. -/
def Encoding.decodeLoop (enc : Encoding) : Bytes → List Nat → Bytes × Option GoError
  | [], dbuf =>
    if dbuf.length = 0 then ([], none)
    else if dbuf.length = 1 ∨ enc.padChar.isSome then ([], some .corruptInput)
    else (assemble dbuf dbuf.length, none)
  | c :: rest, dbuf =>
    match enc.decodeMap c with
    | some v =>
      if dbuf.length = 3 then
        let r := enc.decodeLoop rest []
        (assemble (dbuf ++ [v]) 4 ++ r.1, r.2)
      else enc.decodeLoop rest (dbuf ++ [v])
    | none =>
      if c = 10 ∨ c = 13 then enc.decodeLoop rest dbuf
      else if enc.padChar ≠ some c then ([], some .corruptInput)
      else if dbuf.length < 2 then ([], some .corruptInput)
      else if dbuf.length = 2 then
        match skipNewlines rest with
        | [] => ([], some .corruptInput)
        | c2 :: rest2 =>
          if enc.padChar ≠ some c2 then ([], some .corruptInput)
          else if skipNewlines rest2 = [] then (assemble dbuf 2, none)
          else (assemble dbuf 2, some .corruptInput)
      else if skipNewlines rest = [] then (assemble dbuf 3, none)
      else (assemble dbuf 3, some .corruptInput)

/-- Go `(*Encoding).DecodeString`. -/
def Encoding.decode (enc : Encoding) (s : Bytes) : Bytes × Option GoError :=
  enc.decodeLoop s []

/-! ### Block ciphers and the modes of `crypto/cipher` -/

/-- A block cipher primitive, as `crypto/aes` and `crypto/des` provide it: for a key, the
encryption and the decryption of one block. -/
structure BlockPrim where
  encrypt : Bytes → Bytes → Bytes
  decrypt : Bytes → Bytes → Bytes

/-- The contract of a block cipher with blocks of `blockSize` bytes, for the keys that
`NewCipher` accepts: both directions keep the block length, and decryption undoes
encryption. -/
structure BlockPrim.Lawful (P : BlockPrim) (blockSize : Nat) (validKey : Bytes → Prop) :
    Prop where
  encrypt_length : ∀ k b, validKey k → b.length = blockSize →
    (P.encrypt k b).length = blockSize
  decrypt_length : ∀ k b, validKey k → b.length = blockSize →
    (P.decrypt k b).length = blockSize
  decrypt_encrypt : ∀ k b, validKey k → b.length = blockSize →
    P.decrypt k (P.encrypt k b) = b

/-- The key lengths `aes.NewCipher` accepts. -/
def aesValidKey (key : Bytes) : Prop :=
  key.length = 16 ∨ key.length = 24 ∨ key.length = 32

instance (key : Bytes) : Decidable (aesValidKey key) := by
  unfold aesValidKey; infer_instance

/-- The key length `des.NewCipher` accepts. -/
def desValidKey (key : Bytes) : Prop := key.length = 8

instance (key : Bytes) : Decidable (desValidKey key) := by
  unfold desValidKey; infer_instance

/-- Go `aes.NewCipher`: the block is represented by its key; any other key length gives
`KeySizeError`. -/
def aesNewCipher (key : Bytes) : Except GoError Bytes :=
  if aesValidKey key then .ok key else .error (.keySize key.length)

/-- Go `des.NewCipher`. -/
def desNewCipher (key : Bytes) : Except GoError Bytes :=
  if desValidKey key then .ok key else .error (.keySize key.length)

/-- Go `subtle.XORBytes`: the XOR of the common length of the two operands. -/
def xorBytes (a b : Bytes) : Bytes := List.zipWith bxor a b

/-- The loop of `cbcEncrypter.CryptBlocks`: each block is XORed with the previous
ciphertext block (first the IV) and encrypted. -/
def cbcEncryptLoop (E : Bytes → Bytes) (blockSize : Nat) : Nat → Bytes → Bytes → Bytes
  | 0, _, _ => []
  | fuel + 1, iv, src =>
    if 0 < src.length then
      let c := E (xorBytes (src.take blockSize) iv)
      c ++ cbcEncryptLoop E blockSize fuel c (src.drop blockSize)
    else []

/-- The loop of `cbcDecrypter.CryptBlocks`: each block is decrypted and XORed with the
previous ciphertext block (first the IV). The Go code walks the blocks from the last to the
first so that it can work in place; the result is the same. -/
def cbcDecryptLoop (D : Bytes → Bytes) (blockSize : Nat) : Nat → Bytes → Bytes → Bytes
  | 0, _, _ => []
  | fuel + 1, iv, src =>
    if 0 < src.length then
      let c := src.take blockSize
      xorBytes (D c) iv ++ cbcDecryptLoop D blockSize fuel c (src.drop blockSize)
    else []

/-- Go `cbcEncrypter.CryptBlocks` with its entry check. -/
def cbcEncrypt (E : Bytes → Bytes) (blockSize : Nat) (iv src : Bytes) : Except Panic Bytes :=
  if src.length % blockSize ≠ 0 then .error .inputNotFullBlocks
  else .ok (cbcEncryptLoop E blockSize src.length iv src)

/-- Go `cbcDecrypter.CryptBlocks` with its entry check. -/
def cbcDecrypt (D : Bytes → Bytes) (blockSize : Nat) (iv src : Bytes) : Except Panic Bytes :=
  if src.length % blockSize ≠ 0 then .error .inputNotFullBlocks
  else .ok (cbcDecryptLoop D blockSize src.length iv src)

/-- Go `XORKeyStream` of a fresh CFB encrypter: the register `next` (first the IV) is
encrypted, the key stream is XORed onto the next chunk, and the ciphertext chunk is copied
into `next`. -/
def cfbEncryptLoop (E : Bytes → Bytes) (blockSize : Nat) : Nat → Bytes → Bytes → Bytes
  | 0, _, _ => []
  | fuel + 1, next, src =>
    if 0 < src.length then
      let out := E next
      let c := xorBytes (src.take blockSize) out
      c ++ cfbEncryptLoop E blockSize fuel (copy next c) (src.drop blockSize)
    else []

/-- Go `XORKeyStream` of a fresh CFB decrypter: as above, with the incoming ciphertext chunk
copied into `next`. -/
def cfbDecryptLoop (E : Bytes → Bytes) (blockSize : Nat) : Nat → Bytes → Bytes → Bytes
  | 0, _, _ => []
  | fuel + 1, next, src =>
    if 0 < src.length then
      let out := E next
      let c := src.take blockSize
      xorBytes c out ++ cfbDecryptLoop E blockSize fuel (copy next c) (src.drop blockSize)
    else []

/-- Go `io.ReadFull(rand.Reader, buf)` with `len(buf) = n`: `rnd` is the byte stream the random
source can deliver; fewer than `n` bytes is an error. -/
def readFull (rnd : Bytes) (n : Nat) : Except GoError Bytes :=
  if rnd.length < n then .error .randRead else .ok (rnd.take n)

/-- A slice expression `s[lo:hi]` on a slice whose capacity is its length. -/
def slice (s : Bytes) (lo hi : Nat) : Except Panic Bytes :=
  if lo ≤ hi ∧ hi ≤ s.length then .ok ((s.drop lo).take (hi - lo)) else .error .sliceBounds

/-- The effect on `buf` of writing the block `blk` through the slice `buf[lo:lo+len(blk)]`. -/
def setSlice (buf : Bytes) (lo : Nat) (blk : Bytes) : Bytes :=
  buf.take lo ++ blk ++ buf.drop (lo + blk.length)

/-! ### AES in CBC mode (`aes.go` 16-162) -/

/-- The field `sysAES *AESCBCMode`: `nil`, or an owned context with its own three fields. -/
inductive SysAES where
  | nil
  | ctx (Key : Bytes) (Err : Option GoError) (sysAES : SysAES)
  deriving DecidableEq, Repr

/-- The struct `AESCBCMode`. -/
structure AESCBCMode where
  Key : Bytes
  Err : Option GoError
  sysAES : SysAES
  deriving DecidableEq, Repr

/-- Go `(*AESCBCMode).Encrypt`, with `rnd` the bytes the random source can deliver. The result
is the returned string and the context after the call. The entry check of `CryptBlocks` is
the guard on `len(plaintext)%aes.BlockSize` that precedes it. -/
def AESCBCMode.Encrypt (P : BlockPrim) (a : AESCBCMode) (rnd pt : Bytes) :
    Bytes × AESCBCMode :=
  if a.Err ≠ none then (pt, a)
  else
    let plaintext := pkcs7Padding pt 16
    if plaintext.length % 16 ≠ 0 then (pt, { a with Err := some (.plaintextNotMultiple pt) })
    else
      match aesNewCipher a.Key with
      | .error err => (pt, { a with Err := some err })
      | .ok block =>
        match readFull rnd 16 with
        | .error err => (pt, { a with Err := some err })
        | .ok iv =>
          let ciphertext :=
            iv ++ cbcEncryptLoop (P.encrypt block) 16 plaintext.length iv plaintext
          (StdEncoding.encode ciphertext, a)

/-- Go `(*AESCBCMode).Decrypt`. The deferred `recover` stores a run-time panic in `Err`; the
function then returns the zero value of its unnamed result, the empty string. The entry
check of `CryptBlocks` is the guard on `len(ciphertext)%aes.BlockSize` that precedes it. -/
def AESCBCMode.Decrypt (P : BlockPrim) (a : AESCBCMode) (ct : Bytes) : Bytes × AESCBCMode :=
  if a.Err ≠ none then (ct, a)
  else
    let ct := trimSpace ct
    match StdEncoding.decode ct with
    | (_, some err) => (ct, { a with Err := some err })
    | (ciphertext, none) =>
      match aesNewCipher a.Key with
      | .error err => (ct, { a with Err := some err })
      | .ok block =>
        if ciphertext.length < 16 then (ct, { a with Err := some (.ciphertextTooShort ct) })
        else
          let iv := ciphertext.take 16
          let ciphertext := ciphertext.drop 16
          if ciphertext.length % 16 ≠ 0 then
            (ct, { a with Err := some (.ciphertextNotMultiple ct) })
          else
            let ciphertext := cbcDecryptLoop (P.decrypt block) 16 ciphertext.length iv ciphertext
            match pkcs7UnPadding ciphertext with
            | .error p => ([], { a with Err := some (.runtime p) })
            | .ok none => (ct, { a with Err := some .ciphertextNil })
            | .ok (some plain) => (plain, a)

/-! ### AES in CFB mode (`aes.go` 181-250) -/

/-- The struct `AESCFBMode`. -/
structure AESCFBMode where
  Key : Bytes
  Err : Option GoError
  deriving DecidableEq, Repr

/-- Go `NewAESCFBEncrypt`. -/
def NewAESCFBEncrypt (sKey : Bytes) : AESCFBMode := { Key := sKey, Err := none }

/-- Go `(*AESCFBMode).Encrypt`. -/
def AESCFBMode.Encrypt (P : BlockPrim) (a : AESCFBMode) (rnd pt : Bytes) :
    Bytes × AESCFBMode :=
  match aesNewCipher a.Key with
  | .error err => ([], { a with Err := some err })
  | .ok block =>
    let plaintext := pt
    match readFull rnd 16 with
    | .error err => ([], { a with Err := some err })
    | .ok iv =>
      let ciphertext :=
        iv ++ cfbEncryptLoop (P.encrypt block) 16 plaintext.length iv plaintext
      (hexEncode ciphertext, a)

/-- Go `(*AESCFBMode).Decrypt`. -/
def AESCFBMode.Decrypt (P : BlockPrim) (a : AESCFBMode) (ct : Bytes) : Bytes × AESCFBMode :=
  match aesNewCipher a.Key with
  | .error err => ([], { a with Err := some err })
  | .ok block =>
    match hexDecode ct with
    | (_, some err) => ([], { a with Err := some err })
    | (ciphertext, none) =>
      if ciphertext.length < 16 then ([], { a with Err := some .cfbTooShort })
      else
        let iv := ciphertext.take 16
        let ciphertext := ciphertext.drop 16
        (cfbDecryptLoop (P.encrypt block) 16 ciphertext.length iv ciphertext, a)

/-! ### AES in ECB mode (`aes.go` 252-301) -/

/-- The loop `for i := len(src); i < len(plain); i++ { plain[i] = pad }`. -/
def fillPad (pad : Byte) : Nat → Nat → Bytes → Bytes
  | 0, _, plain => plain
  | fuel + 1, i, plain =>
    if i < plain.length then fillPad pad fuel (i + 1) (plain.set i pad) else plain

/-- The buffer `plain` that `AESEncryptECBStr` encrypts: `length*16` bytes, the source
copied to its front, the rest filled with `pad`. -/
def ecbPlain (src : Bytes) : Bytes :=
  let length := (src.length + 16) / 16
  let plain := copy (makeBytes (length * 16)) src
  let pad := toByte (plain.length - src.length)
  fillPad pad plain.length src.length plain

/-- The block loop of `AESEncryptECBStr`:
`for bs, be := 0, 16; bs <= len(src); bs, be = bs+16, be+16 { cipher.Encrypt(encrypted[bs:be], plain[bs:be]) }`. -/
def ecbEncryptLoop (E : Bytes → Bytes) (src plain : Bytes) :
    Nat → Nat → Bytes → Except Panic Bytes
  | 0, _, encrypted => .ok encrypted
  | fuel + 1, bs, encrypted =>
    if bs ≤ src.length then
      match slice encrypted bs (bs + 16) with
      | .error p => .error p
      | .ok _ =>
        match slice plain bs (bs + 16) with
        | .error p => .error p
        | .ok blk => ecbEncryptLoop E src plain fuel (bs + 16) (setSlice encrypted bs (E blk))
    else .ok encrypted

/-- Go `AESEncryptECBStr`. The error of `aes.NewCipher` is dropped by the Go code; a nil
cipher would panic at `cipher.BlockSize()`. The loop advances by 16, so `len(src) + 1`
passes are enough. -/
def AESEncryptECBStr (P : BlockPrim) (source keys : Bytes) : Except Panic Bytes :=
  if source = [] then .ok []
  else
    let src := source
    let key := keys
    match aesNewCipher (generateKeys key) with
    | .error _ => .error .nilDereference
    | .ok cipher =>
      let plain := ecbPlain src
      let encrypted := makeBytes plain.length
      match ecbEncryptLoop (P.encrypt cipher) src plain (src.length + 1) 0 encrypted with
      | .error p => .error p
      | .ok encrypted => .ok (toUpper (hexEncode encrypted))

/-- The block loop of `AESDecryptECBStr`:
`for bs, be := 0, 16; bs < len(encrypted); bs, be = bs+16, be+16 { cipher.Decrypt(decrypted[bs:be], encrypted[bs:be]) }`. -/
def ecbDecryptLoop (D : Bytes → Bytes) (encrypted : Bytes) :
    Nat → Nat → Bytes → Except Panic Bytes
  | 0, _, decrypted => .ok decrypted
  | fuel + 1, bs, decrypted =>
    if bs < encrypted.length then
      match slice decrypted bs (bs + 16) with
      | .error p => .error p
      | .ok _ =>
        match slice encrypted bs (bs + 16) with
        | .error p => .error p
        | .ok blk =>
          ecbDecryptLoop D encrypted fuel (bs + 16) (setSlice decrypted bs (D blk))
    else .ok decrypted

/-- Go `AESDecryptECBStr`. The error of `hex.DecodeString` is dropped by the Go code, which
goes on with the bytes decoded so far; `decrypted[:trim]` panics when the last byte exceeds
the length. -/
def AESDecryptECBStr (P : BlockPrim) (encrypteds keys : Bytes) : Except Panic Bytes :=
  if encrypteds = [] then .ok []
  else
    let encrypted := (hexDecode encrypteds).1
    let key := keys
    match aesNewCipher (generateKeys key) with
    | .error _ => .error .nilDereference
    | .ok cipher =>
      let decrypted := makeBytes encrypted.length
      match ecbDecryptLoop (P.decrypt cipher) encrypted encrypted.length 0 decrypted with
      | .error p => .error p
      | .ok decrypted =>
        if 0 < decrypted.length then
          let last := (decrypted.getD (decrypted.length - 1) 0).val
          if last ≤ decrypted.length then .ok (decrypted.take (decrypted.length - last))
          else .error .sliceBounds
        else .ok (decrypted.take 0)

/-- ECB as the specification words it: each of `n` consecutive 16-byte blocks is
transformed on its own, with no chaining. -/
def ecbBlocks (f : Bytes → Bytes) : Nat → Bytes → Bytes
  | 0, _ => []
  | n + 1, s => f (s.take 16) ++ ecbBlocks f n (s.drop 16)

/-! ### DES in CBC mode (`des.go`) -/

/-- Go `DESEncrypt`: the key is also the IV. `NewCBCEncrypter` needs an IV of the block size,
which a key accepted by `des.NewCipher` has. -/
def DESEncrypt (P : BlockPrim) (origData key : Bytes) : Res Bytes :=
  match desNewCipher key with
  | .error err => .err err
  | .ok block =>
    let origData := PKCS5Padding origData 8
    match cbcEncrypt (P.encrypt block) 8 key origData with
    | .error p => .panic p
    | .ok crypted => .val crypted

/-- Go `DESDecrypt`. -/
def DESDecrypt (P : BlockPrim) (crypted key : Bytes) : Res Bytes :=
  match desNewCipher key with
  | .error err => .err err
  | .ok block =>
    match cbcDecrypt (P.decrypt block) 8 key crypted with
    | .error p => .panic p
    | .ok origData =>
      match PKCS5UnPadding origData with
      | .error p => .panic p
      | .ok origData => .val origData

/-- Go `DESEncryptString`: the empty string on an error. -/
def DESEncryptString (P : BlockPrim) (src encryptKey : Bytes) : Except Panic Bytes :=
  match DESEncrypt P src encryptKey with
  | .panic p => .error p
  | .err _ => .ok []
  | .val encrypted => .ok (StdEncoding.encode encrypted)

/-- Go `DESDecryptString`: the empty string on an error. -/
def DESDecryptString (P : BlockPrim) (src encryptKey : Bytes) : Except Panic Bytes :=
  match StdEncoding.decode src with
  | (_, some _) => .ok []
  | (encrypted, none) =>
    match DESDecrypt P encrypted encryptKey with
    | .panic p => .error p
    | .err _ => .ok []
    | .val decrypted => .ok decrypted

/-! ### A small cipher on which the development can be evaluated -/

/-- A block transformation that satisfies the block cipher contract for every block size
and every key: XOR every byte with the first key byte and reverse the block. It stands in
for AES and DES where a concrete instance is needed. -/
def demoPrim : BlockPrim where
  encrypt := fun k b => (b.map (fun x => bxor x (k.getD 0 0))).reverse
  decrypt := fun k b => (b.reverse).map (fun x => bxor x (k.getD 0 0))

/-! ### The combined operation of the CBC helper (`aes.go` 40-63) -/

/-- The context the pointer `sysAES` points to; `none` for the nil pointer. -/
def SysAES.get : SysAES → Option AESCBCMode
  | .nil => none
  | .ctx k e s => some ⟨k, e, s⟩

/-- The pointer to an owned context. -/
def AESCBCMode.ref (a : AESCBCMode) : SysAES := .ctx a.Key a.Err a.sysAES

/-- The nested context after
`if a.sysAES == nil { a.sysAES = &AESCBCMode{Key: []byte(sysKey)} }`. -/
def AESCBCMode.sysCtx (a : AESCBCMode) (sysKey : Bytes) : AESCBCMode :=
  match a.sysAES.get with
  | none => { Key := sysKey, Err := none, sysAES := .nil }
  | some s => s

/-- Go `(*AESCBCMode).DcyAndUseSysKeyEcy`. The result is the pair `(decrypted, encrypted)`
and the context after the call; `rnd` is the random source of the nested `Encrypt`. -/
def AESCBCMode.DcyAndUseSysKeyEcy (P : BlockPrim) (a : AESCBCMode) (rnd ct sysKey : Bytes) :
    (Bytes × Bytes) × AESCBCMode :=
  let sys := a.sysCtx sysKey
  let a := { a with sysAES := sys.ref }
  let r := a.Decrypt P ct
  let decrypted := r.1
  let a := r.2
  if a.Err ≠ none then ((decrypted, decrypted), a)
  else
    let e := sys.Encrypt P rnd decrypted
    let encrypted := e.1
    let a := { a with sysAES := e.2.ref }
    if e.2.Err ≠ none then ((decrypted, encrypted), { a with Err := e.2.Err })
    else ((decrypted, encrypted), a)

/-! ### Key formatting (`rsa.go` 211-247) -/

/-- The bytes of an ASCII string literal. -/
def ascii (s : String) : Bytes := s.data.map (fun c => toByte c.toNat)

/-- The five dashes that open and close a PEM boundary line. -/
def dashes : Bytes := List.replicate 5 45

/-- The loop `for i := 0; i < len(key); i++ { if (i+1)%64 == 0 { ...; break } }` of `Split`:
the first `i < n` with `(i+1) % 64 = 0`, if the loop body is ever entered. -/
def splitIndex (n : Nat) : Nat → Nat → Option Nat
  | 0, _ => none
  | fuel + 1, i =>
    if i < n then
      if (i + 1) % 64 = 0 then some i else splitIndex n fuel (i + 1)
    else none

/-- Go `Split(key, temp)`: the value of `*temp` after the call. The recursive call is on
`key[i+1:]`, which is shorter than `key`. -/
def Split : Nat → Bytes → Bytes → Bytes
  | 0, _, temp => temp
  | fuel + 1, key, temp =>
    let temp := if key.length ≤ 64 then temp ++ key ++ [10] else temp
    match splitIndex key.length key.length 0 with
    | none => temp
    | some i => Split fuel (key.drop (i + 1)) (temp ++ key.take (i + 1) ++ [10])

/-- Go `FormateKey`. -/
def FormateKey (key : Bytes) (keyType : Int) (ifPublic : Bool) : Bytes :=
  if keyType = 0 then key
  else if ifPublic then
    let publicHeader := [10] ++ dashes ++ ascii "BEGIN PUBLIC KEY" ++ dashes ++ [10]
    let publicTail := dashes ++ ascii "END PUBLIC KEY" ++ dashes ++ [10]
    let temp := Split (key.length + 1) key []
    publicHeader ++ temp ++ publicTail
  else
    let publicHeader := [10] ++ dashes ++ ascii "BEGIN RSA PRIVATE KEY" ++ dashes ++ [10]
    let publicTail := dashes ++ ascii "END RSA PRIVATE KEY" ++ dashes ++ [10]
    let temp := Split (key.length + 1) key []
    publicHeader ++ temp ++ publicTail

/-! ### `encoding/pem` -/

/-- Go `bytes.Index(s, pat)`: the index of the first occurrence of `pat` in `s`; `none` is
the result `-1`. -/
def indexOf (pat : Bytes) : Bytes → Option Nat
  | [] => if startsWith [] pat then some 0 else none
  | c :: s => if startsWith (c :: s) pat then some 0 else (indexOf pat s).map (· + 1)

/-- Go `bytes.HasSuffix`. -/
def hasSuffix (s suf : Bytes) : Bool := startsWith s.reverse suf.reverse

/-- Go `bytes.TrimRight(s, " \t")`. -/
def trimRightSpTab (s : Bytes) : Bytes :=
  (s.reverse.dropWhile (fun c => c == 32 || c == 9)).reverse

/-- Function `getLine` of `encoding/pem`: the first line of `data` without its line end
(`\n` or `\r\n`) and without trailing spaces and tabs, and what follows the line. -/
def getLine (data : Bytes) : Bytes × Bytes :=
  match indexOf [10] data with
  | none => (trimRightSpTab data, [])
  | some i =>
    let e := if 0 < i ∧ data.getD (i - 1) 0 = 13 then i - 1 else i
    (trimRightSpTab (data.take e), data.drop (i + 1))

/-- Function `removeSpacesAndTabs` of `encoding/pem`. -/
def removeSpacesAndTabs (data : Bytes) : Bytes :=
  data.filter (fun b => !(b == 32 || b == 9))

/-- The constant `pemStart = "\n-----BEGIN "`. -/
def pemStart : Bytes := [10] ++ dashes ++ ascii "BEGIN "

/-- The constant `pemEnd = "\n-----END "`. -/
def pemEnd : Bytes := [10] ++ dashes ++ ascii "END "

/-- A `pem.Block` as far as the package reads it: the type (field `Type`) and the decoded bytes. The
package encodes without headers and never reads the headers of a decoded block. -/
structure Block where
  Typ : Bytes
  Bytes : Bytes
  deriving DecidableEq, Repr

/-- The line breaker of `pem.Encode`: lines of 64 characters, each followed by a newline;
a last shorter line, if not empty, is followed by a newline too. -/
def breakLines : Nat → Bytes → Bytes
  | 0, _ => []
  | fuel + 1, s =>
    if s.length < 64 then (if s = [] then [] else s ++ [10])
    else s.take 64 ++ [10] ++ breakLines fuel (s.drop 64)

/-- Go `pem.EncodeToMemory` of a block without headers. -/
def pemEncode (b : Block) : Bytes :=
  dashes ++ ascii "BEGIN " ++ b.Typ ++ dashes ++ [10] ++
    breakLines ((StdEncoding.encode b.Bytes).length + 1) (StdEncoding.encode b.Bytes) ++
    dashes ++ ascii "END " ++ b.Typ ++ dashes ++ [10]

/-- The header loop of `pem.Decode`: lines holding a colon are consumed as headers. The
result is `none` when the input ends inside the loop (`return nil, data`), else the rest at
the first line without a colon and whether a header was read. -/
def skipHeaders : Nat → Bytes → Bool → Option (Bytes × Bool)
  | 0, _, _ => none
  | fuel + 1, rest, seen =>
    if rest.length = 0 then none
    else
      let l := getLine rest
      if (indexOf [58] l.1).isSome then skipHeaders fuel l.2 true
      else some (rest, seen)

/-- The outer loop of `pem.Decode`, started with `rest`; `continue` is the recursive
call. Every pass consumes a `BEGIN` marker, so `len(data) + 1` passes are enough. -/
def pemDecodeLoop : Nat → Bytes → Option Block
  | 0, _ => none
  | fuel + 1, rest =>
    let start : Option Bytes :=
      if startsWith rest (pemStart.drop 1) then some (rest.drop (pemStart.length - 1))
      else match indexOf pemStart rest with
        | some i => some (rest.drop (i + pemStart.length))
        | none => none
    match start with
    | none => none
    | some rest =>
      let l := getLine rest
      let typeLine := l.1
      let rest := l.2
      if !hasSuffix typeLine dashes then pemDecodeLoop fuel rest
      else
        let typeLine := typeLine.take (typeLine.length - dashes.length)
        match skipHeaders (rest.length + 1) rest false with
        | none => none
        | some (rest, seen) =>
          let ends : Option (Nat × Nat) :=
            if !seen && startsWith rest (pemEnd.drop 1) then some (0, pemEnd.length - 1)
            else match indexOf pemEnd rest with
              | some i => some (i, i + pemEnd.length)
              | none => none
          match ends with
          | none => pemDecodeLoop fuel rest
          | some (endIndex, endTrailerIndex) =>
            let endTrailer := rest.drop endTrailerIndex
            let endTrailerLen := typeLine.length + dashes.length
            if endTrailer.length < endTrailerLen then pemDecodeLoop fuel rest
            else
              let restOfEndLine := endTrailer.drop endTrailerLen
              let endTrailer := endTrailer.take endTrailerLen
              if !startsWith endTrailer typeLine || !hasSuffix endTrailer dashes then
                pemDecodeLoop fuel rest
              else if (getLine restOfEndLine).1.length ≠ 0 then pemDecodeLoop fuel rest
              else
                let base64Data := removeSpacesAndTabs (rest.take endIndex)
                match StdEncoding.decode base64Data with
                | (_, some _) => pemDecodeLoop fuel rest
                | (bytes, none) => some { Typ := typeLine, Bytes := bytes }

/-- Go `pem.Decode`: the first block of the input that parses, `none` for a nil block. -/
def pemDecode (data : Bytes) : Option Block := pemDecodeLoop (data.length + 1) data

/-! ### Key conversions (`keyPair.go` 163-189) -/

/-- Go `(*Encoding).DecodeString` with the nil-ness of its first result: `none` would be
the nil slice. The function returns `dbuf[:n]` for a buffer `dbuf` obtained from `make`,
which is not nil, whatever the input and whether or not decoding failed. -/
def Encoding.DecodeString (enc : Encoding) (s : Bytes) : Option Bytes × Option GoError :=
  (some (enc.decode s).1, (enc.decode s).2)

/-- Go `Base64KeyToPem`: the PEM text and the error. -/
def Base64KeyToPem (skType sk : Bytes) : Bytes × Option GoError :=
  match StdEncoding.DecodeString sk with
  | (none, _) => ([], some (.text "decodeString error"))
  | (some val, _) => (pemEncode { Typ := skType, Bytes := val }, none)

/-- Go `PemTobase64`. -/
def PemTobase64 (sk : Bytes) : Bytes × Option GoError :=
  match pemDecode sk with
  | none => ([], some (.text "pem.Decode error"))
  | some block => (StdEncoding.encode block.Bytes, none)

/-! ### RSA signature verification (`rsa.go` 139-167) -/

/-- An `rsa.PublicKey`: modulus and public exponent. -/
structure RSAPublicKey where
  N : Nat
  E : Int
  deriving DecidableEq, Repr

/-- The functions of `crypto/x509` and `crypto/rsa` that the verification calls; they are
not code of this package. `ParsePKIXPublicKey` returns an error, or a key that is an
`*rsa.PublicKey` (`some`) or a key of another algorithm (`none`). `VerifyPKCS1v15` takes the
key, the `crypto.Hash` number, the digest and the signature and returns nil or an error. -/
structure CryptoLib where
  ParsePKIXPublicKey : Bytes → Except GoError (Option RSAPublicKey)
  VerifyPKCS1v15 : RSAPublicKey → Nat → Bytes → Bytes → Option GoError

/-- Go `RSAVerifySign`: the returned error (`none` is nil); the unchecked type assertion
`pubInterface.(*rsa.PublicKey)` panics on a key of another algorithm. -/
def RSAVerifySign (L : CryptoLib) (text publicKey : Bytes) (hashType : Nat) (sig : Bytes) :
    Except Panic (Option GoError) :=
  match pemDecode publicKey with
  | none => .ok (some (.text "public key error"))
  | some block =>
    match L.ParsePKIXPublicKey block.Bytes with
    | .error err => .ok (some err)
    | .ok none => .error .typeAssertion
    | .ok (some pub) => .ok (L.VerifyPKCS1v15 pub hashType text sig)

/-- Go `RSAVerifySignBase64`. -/
def RSAVerifySignBase64 (L : CryptoLib) (b64Cipher publicKey : Bytes) (hashType : Nat)
    (text : Bytes) : Except Panic (Option GoError) :=
  match StdEncoding.decode b64Cipher with
  | (cipherText, none) => RSAVerifySign L text publicKey hashType cipherText
  | (_, some _) =>
    match RawURLEncoding.decode b64Cipher with
    | (_, some err) => .ok (some err)
    | (cipherText, none) => RSAVerifySign L text publicKey hashType cipherText


/-! ### The constructor and the direct encryption of the CBC helper (`aes.go` 23-38, 65-76) -/

/-- Go `NewAESCBCEncrypt`: the key is whatever `DecodeString` returned, the error is kept in
`Err`, and the nested context is always created, with the bytes of `sysKey` as its key. -/
def NewAESCBCEncrypt (b64Key sysKey : Bytes) : AESCBCMode :=
  let r := StdEncoding.decode b64Key
  { Key := r.1, Err := r.2, sysAES := .ctx sysKey none .nil }

/-- Go `(*AESCBCMode).AesCbcEncrypt`. The result is the returned string and the context
after the call; `msg` is the method `Error()` of the error values and `rnd` the random
source of the nested `Encrypt`. -/
def AESCBCMode.AesCbcEncrypt (P : BlockPrim) (msg : GoError → Bytes) (a : AESCBCMode)
    (rnd ct sysKey : Bytes) : Bytes × AESCBCMode :=
  let sys := a.sysCtx sysKey
  let e := sys.Encrypt P rnd ct
  let a := { a with sysAES := e.2.ref }
  match e.2.Err with
  | some err => (msg err, a)
  | none => (e.1, a)

/-! ### Path-prefix skippers (`middleware.go` 39-67) -/

/-- The loop of the function `AllowPathPrefixSkipper` returns over the prefixes, for the
request path `path`: the first prefix `p` with `pathLen >= len(p) && path[:len(p)] == p`
returns `true`, the end of the loop `false`. -/
def AllowPathPrefixSkipper : List Bytes → Bytes → Bool
  | [], _ => false
  | p :: rest, path =>
    if path.length ≥ p.length ∧ path.take p.length = p then true
    else AllowPathPrefixSkipper rest path

/-- The loop of the function `AllowPathPrefixNoSkipper` returns: the same test, with
`false` inside the loop and `true` at its end. -/
def AllowPathPrefixNoSkipper : List Bytes → Bytes → Bool
  | [], _ => true
  | p :: rest, path =>
    if path.length ≥ p.length ∧ path.take p.length = p then false
    else AllowPathPrefixNoSkipper rest path

/-! ### Timestamp constructors (`atime_time.go` 126-146, `atime_date.go` 121-141) -/

/-- The value an `int64` variable holds after the integer `x` is stored in it: the
representative of `x` modulo `2^64` in the range from `-2^63` to `2^63 - 1`. -/
def wrap64 (x : Int) : Int := (x + 2 ^ 63) % 2 ^ 64 - 2 ^ 63

/-- The value of `timestamp` after `n` rounds of `timestamp *= 10` on an `int64`. -/
def timesTen : Nat → Int → Int
  | 0, t => t
  | n + 1, t => timesTen n (wrap64 (t * 10))

/-- The loop `for timestamp < 1e18 { timestamp *= 10 }` with `n` multiplications done so
far: the final value and the number of multiplications, `none` when the fuel runs out
before the loop ends. -/
def scaleLoop : Nat → Int → Nat → Option (Int × Nat)
  | 0, t, n => if t < 10 ^ 18 then none else some (t, n)
  | fuel + 1, t, n =>
    if t < 10 ^ 18 then scaleLoop fuel (wrap64 (t * 10)) (n + 1) else some (t, n)

/-- What the constructors wrap: the zero value of `time.Time` (from `&DateTime{}`), or
`time.Unix(sec, nsec)`. -/
inductive Stamp where
  | zero
  | unix (sec nsec : Int)
  deriving DecidableEq, Repr

/-- The instant of a `Stamp` in nanoseconds after the Unix epoch; the zero `time.Time` is
January 1 of year 1, 62135596800 seconds before the epoch. -/
def Stamp.unixNano : Stamp → Int
  | .zero => -62135596800 * 10 ^ 9
  | .unix sec nsec => sec * 10 ^ 9 + nsec

/-- Go `NewDateTimeFromTimeStamp`, for an `int64` argument; `/` and `%` of Go truncate
toward zero. The result is `none` when the loop does not end within `fuel` rounds. -/
def NewDateTimeFromTimeStamp (fuel : Nat) (timestamp : Int) : Option Stamp :=
  if timestamp = 0 then some .zero
  else if timestamp > 10 ^ 9 then
    match scaleLoop fuel timestamp 0 with
    | none => none
    | some (t, _) => some (.unix (Int.tdiv t (10 ^ 9)) (Int.tmod t (10 ^ 9)))
  else some (.unix timestamp 0)

/-- Go `NewDateFromTimeStamp`: the same body, wrapped as a `Date`. -/
def NewDateFromTimeStamp (fuel : Nat) (timestamp : Int) : Option Stamp :=
  if timestamp = 0 then some .zero
  else if timestamp > 10 ^ 9 then
    match scaleLoop fuel timestamp 0 with
    | none => none
    | some (t, _) => some (.unix (Int.tdiv t (10 ^ 9)) (Int.tmod t (10 ^ 9)))
  else some (.unix timestamp 0)

/-- The negative `int64` value that `*= 10` sends to the even value `c`: the solution of
`10 * x = c` modulo `2^64` with the sign bit set (`5534023222112865485` is the inverse of 5
modulo `2^63`). The other solution is `preTen c + 2^63`. -/
def preTen (c : Int) : Int := ((c / 2) * 5534023222112865485) % 2 ^ 63 - 2 ^ 63

/-- The values `0`, `preTen 0`, `preTen (preTen 0)`, ...: 65 of them, the last one odd.
These are the `int64` values below `10^18` from which the loop would reach 0. -/
def zeroOrbit : List Int := (List.range 65).map (fun k => Nat.iterate preTen k 0)

/-! ### The lines `Split` is to produce (`rsa.go` 234-247) -/

/-- The first `n` consecutive 64-character chunks of `key` (the last one shorter when the
key runs out), each followed by a newline. -/
def chunkLines : Nat → Bytes → Bytes
  | 0, _ => []
  | n + 1, key => key.take 64 ++ [10] ++ chunkLines n (key.drop 64)

/-- What `Split` is to append for a key: a single newline for the empty key; the chunks of
the key, each followed by a newline, when the length is not a multiple of 64; and for a
positive multiple of 64 all chunks, the last chunk a second time, and an empty line. -/
def splitLines (key : Bytes) : Bytes :=
  if key.length = 0 then [10]
  else if key.length % 64 ≠ 0 then chunkLines (key.length / 64 + 1) key
  else chunkLines (key.length / 64) key ++ key.drop (key.length - 64) ++ [10] ++ [10]

/-! ### SHA256-with-RSA signatures (`rsa.go` 22-57, 169-209) -/

/-- An `rsa.PrivateKey`: the public key it embeds and the private exponent. -/
structure RSAPrivateKey where
  PublicKey : RSAPublicKey
  D : Nat
  deriving DecidableEq, Repr

/-- The functions of `crypto/x509`, `crypto/sha256` and `crypto/rsa` that signing calls, on
top of those of verification; they are not code of this package. `ParsePKCS8PrivateKey`
returns an error, or a key that is an `*rsa.PrivateKey` (`some`) or a key of another
algorithm (`none`). `SignPKCS1v15` takes the random source, the key, the `crypto.Hash`
number and the digest. -/
structure SignLib extends CryptoLib where
  ParsePKCS1PrivateKey : Bytes → Except GoError RSAPrivateKey
  ParsePKCS8PrivateKey : Bytes → Except GoError (Option RSAPrivateKey)
  Sum256 : Bytes → Bytes
  SignPKCS1v15 : Bytes → RSAPrivateKey → Nat → Bytes → Except GoError Bytes

/-- The contract of `crypto/rsa` that the round trip rests on: a signature that
`SignPKCS1v15` returns for a digest under a hash identifier is accepted by
`VerifyPKCS1v15` for the public key of the signing key, the same identifier and the same
digest. -/
def SignLib.Lawful (L : SignLib) : Prop :=
  ∀ (rnd : Bytes) (priv : RSAPrivateKey) (hash : Nat) (digest sig : Bytes),
    L.SignPKCS1v15 rnd priv hash digest = .ok sig →
      L.VerifyPKCS1v15 priv.PublicKey hash digest sig = none

/-- The number of `crypto.SHA256` in the enumeration `crypto.Hash`. -/
def cryptoSHA256 : Nat := 5

/-- Go `ParsePKCS1Or8PrivKey`. -/
def ParsePKCS1Or8PrivKey (L : SignLib) (key : Bytes) : Except GoError RSAPrivateKey :=
  match pemDecode key with
  | none => .error (.text "priv key error")
  | some block =>
    match L.ParsePKCS1PrivateKey block.Bytes with
    | .ok privKey => .ok privKey
    | .error _ =>
      match L.ParsePKCS8PrivateKey block.Bytes with
      | .ok (some priKey) => .ok priKey
      | _ => .error (.text "parse private key error")

/-- Go `ParsePublicKey`. -/
def ParsePublicKey (L : SignLib) (key : Bytes) : Except GoError RSAPublicKey :=
  match pemDecode key with
  | none => .error (.text "public key error")
  | some block =>
    match L.ParsePKIXPublicKey block.Bytes with
    | .error err => .error err
    | .ok (some publicKey) => .ok publicKey
    | .ok none => .error (.text "public key error")

/-- Go `SHA256WithRSA`; `rnd` stands for `rand.Reader`. -/
def SHA256WithRSA (L : SignLib) (rnd data privateKey : Bytes) (noneWithRsa : Bool) :
    Except GoError Bytes :=
  match ParsePKCS1Or8PrivKey L privateKey with
  | .error err => .error err
  | .ok priKey =>
    let hashed := L.Sum256 data
    if noneWithRsa then L.SignPKCS1v15 rnd priKey 0 hashed
    else L.SignPKCS1v15 rnd priKey cryptoSHA256 hashed

/-- Go `SHA256WithRSABase64`: the returned string and error. -/
def SHA256WithRSABase64 (L : SignLib) (rnd data privateKey : Bytes) : Bytes × Option GoError :=
  match SHA256WithRSA L rnd data privateKey false with
  | .error err => ([], some err)
  | .ok sign => (StdEncoding.encode sign, none)

/-- Go `VerifySHA256WithRSABase64`: the returned error, `none` for nil. -/
def VerifySHA256WithRSABase64 (L : SignLib) (origin b64Sign publicKey : Bytes) :
    Option GoError :=
  match ParsePublicKey L publicKey with
  | .error err => some err
  | .ok pubKey =>
    match StdEncoding.decode b64Sign with
    | (_, some err) => some err
    | (sign, none) => L.VerifyPKCS1v15 pubKey cryptoSHA256 (L.Sum256 origin) sign

/-- A toy instance of the library for concrete evaluation: a DER text is the list of the
key's numbers, a digest is the data itself, and a signature is the digest followed by the
hash number and the private exponent. -/
def demoSignLib : SignLib where
  ParsePKIXPublicKey := fun der =>
    match der with
    | [n, e] => .ok (some ⟨n.val, e.val⟩)
    | _ => .error (.library 1)
  VerifyPKCS1v15 := fun pub hash digest sig =>
    if sig = digest ++ [toByte hash, toByte (pub.N - 1)] then none else some (.library 2)
  ParsePKCS1PrivateKey := fun der =>
    match der with
    | [n, e, d] => .ok ⟨⟨n.val, e.val⟩, d.val⟩
    | _ => .error (.library 3)
  ParsePKCS8PrivateKey := fun der =>
    match der with
    | [0, n, e, d] => .ok (some ⟨⟨n.val, e.val⟩, d.val⟩)
    | _ => .error (.library 4)
  Sum256 := fun data => data
  SignPKCS1v15 := fun _ priv hash digest =>
    if priv.D + 1 = priv.PublicKey.N then .ok (digest ++ [toByte hash, toByte priv.D])
    else .error (.library 5)

/-! ### Decimal numerals (`time.Format` fields, `big.Int` text) -/

/-- The decimal digits of `n`, most significant first; `fuel` bounds the number of digits. -/
def decimalDigits : Nat → Nat → Bytes
  | 0, _ => []
  | fuel + 1, n =>
    if n < 10 then [toByte (48 + n)]
    else decimalDigits fuel (n / 10) ++ [toByte (48 + n % 10)]

/-- The decimal digits of `n`: `strconv`-style text of a non-negative number. -/
def dec (n : Nat) : Bytes := decimalDigits (n + 1) n

/-- Go `appendInt(b, x, width)` of package `time`: a minus sign for a negative `x`, then the
digits of its magnitude, padded with zeros on the left to `width` characters. -/
def appendInt (x : Int) (width : Nat) : Bytes :=
  (if x < 0 then [45] else []) ++
    List.replicate (width - (dec x.natAbs).length) 48 ++ dec x.natAbs

/-- The value of a string of decimal digits, read from the left with `acc` the value so
far; `none` when a character is not a digit. -/
def digitsValue : Bytes → Nat → Option Nat
  | [], acc => some acc
  | c :: rest, acc =>
    if 48 ≤ c.val ∧ c.val ≤ 57 then digitsValue rest (acc * 10 + (c.val - 48)) else none

/-- Go `new(big.Int).SetString(s, 10)`: an optional sign followed by at least one decimal
digit and nothing else; `none` is the nil result of a failed conversion. -/
def bigSetString (s : Bytes) : Option Int :=
  match s with
  | [] => none
  | c :: rest =>
    if c = 45 then
      (if rest = [] then none
       else match digitsValue rest 0 with
         | none => none
         | some v => some (-Int.ofNat v))
    else if c = 43 then
      (if rest = [] then none
       else match digitsValue rest 0 with
         | none => none
         | some v => some (Int.ofNat v))
    else
      match digitsValue (c :: rest) 0 with
      | none => none
      | some v => some (Int.ofNat v)

/-- Go `(*big.Int).String`: the decimal text, with a minus sign for a negative number. -/
def bigString (x : Int) : Bytes :=
  if x < 0 then 45 :: dec x.natAbs else dec x.natAbs

/-! ### Values of `time.Time` -/

/-- A value of `time.Time`, described by what its methods return: the instant `UnixNano`
in nanoseconds after the Unix epoch, and the wall-clock reading in the value's location
given by `Year`, `Month`, `Day`, `Hour`, `Minute`, `Second` and `Nanosecond`. -/
structure Time where
  UnixNano : Int
  Year : Int
  Month : Nat
  Day : Nat
  Hour : Nat
  Minute : Nat
  Second : Nat
  Nanosecond : Nat
  deriving DecidableEq, Repr

/-- The ranges of the reading that package `time` guarantees for every value. -/
def Time.wellFormed (t : Time) : Prop :=
  1 ≤ t.Month ∧ t.Month ≤ 12 ∧ 1 ≤ t.Day ∧ t.Day ≤ 31 ∧ t.Hour < 24 ∧ t.Minute < 60 ∧
    t.Second < 60 ∧ t.Nanosecond < 10 ^ 9

instance (t : Time) : Decidable t.wellFormed := by
  unfold Time.wellFormed
  infer_instance

/-- The zero value `time.Time{}`: January 1 of year 1, 00:00:00 UTC. -/
def zeroTime : Time :=
  { UnixNano := -62135596800 * 10 ^ 9, Year := 1, Month := 1, Day := 1, Hour := 0,
    Minute := 0, Second := 0, Nanosecond := 0 }

/-- Go `Time.IsZero`: the instant is that of the zero value. -/
def Time.IsZero (t : Time) : Bool := decide (t.UnixNano = -62135596800 * 10 ^ 9)

/-! ### Certificate issuance (`certificate.go` 28-57) -/

/-- Go `now.Format("20060102150405")`: year, month, day, hour, minute and second of the
reading, the year on four digits and the others on two. -/
def formatSerial (t : Time) : Bytes :=
  appendInt t.Year 4 ++ appendInt t.Month 2 ++ appendInt t.Day 2 ++ appendInt t.Hour 2 ++
    appendInt t.Minute 2 ++ appendInt t.Second 2

/-- The fields of `pkix.Name` that the template sets. -/
structure Name where
  Country : List Bytes
  Province : List Bytes
  Organization : List Bytes
  CommonName : Bytes
  deriving DecidableEq, Repr

/-- The fields of `x509.Certificate` that the template sets; `NotBefore` and `NotAfter`
are instants in nanoseconds after the Unix epoch (both values are in UTC). -/
structure Certificate where
  SerialNumber : Int
  NotBefore : Int
  NotAfter : Int
  BasicConstraintsValid : Bool
  Subject : Name
  deriving DecidableEq, Repr

/-- The functions of `crypto/rsa` and `crypto/x509` that key generation and certificate
issuance call; they are not code of this package. `CreateCertificate` takes the random
source, the template, the parent (whose subject becomes the issuer), the public key to
certify and the signing key. -/
structure KeyLib where
  GenerateKey : Bytes → Nat → Except GoError RSAPrivateKey
  Validate : RSAPrivateKey → Option GoError
  MarshalPKCS1PrivateKey : RSAPrivateKey → Bytes
  MarshalPKIXPublicKey : RSAPublicKey → Except GoError Bytes
  CreateCertificate :
    Bytes → Certificate → Certificate → RSAPublicKey → RSAPrivateKey → Except GoError Bytes

/-- The template of `CreatCertificateDer` for the serial number, the instant `now` of the
call and the expiry: `now.Add(-5 * time.Minute).UTC()` is the instant 5 minutes (300 * 10^9
nanoseconds) before `now`, and `notBefore.Add(expiry).UTC()` the instant `expiry`
nanoseconds after that. -/
def certTemplate (serialNumber : Int) (now : Time) (expiry : Int) : Certificate :=
  let notBefore := now.UnixNano + -5 * (60 * 10 ^ 9)
  { SerialNumber := serialNumber
    NotBefore := notBefore
    NotAfter := notBefore + expiry
    BasicConstraintsValid := true
    Subject :=
      { Country := [ascii "CN"], Province := [ascii "Shanghai"],
        Organization := [ascii "Cardinfolink"], CommonName := ascii "everonet.com" } }

/-- Go `CreatCertificateDer`, with `now` the value `time.Now()` returned and `rnd` the
random source: the results `certDer` (`none` for nil), `certID` and `err`. -/
def CreatCertificateDer (L : KeyLib) (now : Time) (rnd : Bytes) (priKey : RSAPrivateKey)
    (expiry : Int) : Option Bytes × Bytes × Option GoError :=
  match bigSetString (formatSerial now) with
  | none => (none, [], some (.text "big int format err"))
  | some serialNumber =>
    let template := certTemplate serialNumber now expiry
    match L.CreateCertificate rnd template template priKey.PublicKey priKey with
    | .error err => (none, [], some err)
    | .ok certDer => (some certDer, bigString serialNumber, none)

/-! ### Key generation (`keyPair.go` 70-161) -/

/-- The bytes of `n` in base 256, most significant first; `fuel` bounds their number. -/
def base256 : Nat → Nat → Bytes
  | 0, _ => []
  | fuel + 1, n => if n = 0 then [] else base256 fuel (n / 256) ++ [toByte (n % 256)]

/-- The length octets of DER: one byte below 128, otherwise the count of the length bytes
with the high bit set, followed by the length in base 256. -/
def derLength (n : Nat) : Bytes :=
  if n < 128 then [toByte n]
  else toByte (128 + (base256 (n + 1) n).length) :: base256 (n + 1) n

/-- A DER element: tag, length and content. -/
def derElement (tag : Byte) (content : Bytes) : Bytes :=
  tag :: (derLength content.length ++ content)

/-- The DER text of `[]asn1.ObjectIdentifier{{1, 2, 840, 113549, 1, 1, 1}}`: a sequence
that holds the one object identifier. -/
def rsaAlgorithm : Bytes := [0x30, 0x0B, 0x06, 0x09, 0x2A, 0x86, 0x48, 0x86, 0xF7, 0x0D, 0x01, 0x01, 0x01]

/-- Go `MarshalPKCS8PrivateKey`: `asn1.Marshal` of the structure with `Version` 0, the
algorithm list and the PKCS#1 text of the key as an octet string. `asn1.Marshal` has no
error for this structure, so the `log.Panic` branch is not taken. -/
def MarshalPKCS8PrivateKey (L : KeyLib) (key : RSAPrivateKey) : Bytes :=
  derElement 0x30 ([0x02, 0x01, 0x00] ++ rsaAlgorithm ++
    derElement 0x04 (L.MarshalPKCS1PrivateKey key))

/-- Go `GenerateRSAKeyDer`: `(privDer, pubDer)` or the error. -/
def GenerateRSAKeyDer (L : KeyLib) (rnd : Bytes) : Except GoError (Bytes × Bytes) :=
  match L.GenerateKey rnd 2048 with
  | .error err => .error err
  | .ok priv =>
    match L.Validate priv with
    | some _ => .error (.text "RSA key validation failed")
    | none =>
      let privDer := MarshalPKCS8PrivateKey L priv
      match L.MarshalPKIXPublicKey priv.PublicKey with
      | .error _ => .error (.text "failed to get der format for public key")
      | .ok pubDer => .ok (privDer, pubDer)

/-- Go `GenerateRSAKeysPem`: `(privPem, pubPem)` or the error. -/
def GenerateRSAKeysPem (L : KeyLib) (rnd : Bytes) : Except GoError (Bytes × Bytes) :=
  match GenerateRSAKeyDer L rnd with
  | .error err => .error err
  | .ok (privDer, pubDer) =>
    .ok (pemEncode { Typ := ascii "RSA PRIVATE KEY", Bytes := privDer },
      pemEncode { Typ := ascii "PUBLIC KEY", Bytes := pubDer })

/-- Go `GenerateRSACertDer`, with `now` the clock reading and `rnd`, `rnd2` the random
sources of the key and of the certificate: the named results `privDer`, `certDer`
(`none` for nil), `certID` and `err` at the `return`. -/
def GenerateRSACertDer (L : KeyLib) (now : Time) (rnd rnd2 : Bytes) (expiry : Int) :
    Option Bytes × Option Bytes × Bytes × Option GoError :=
  match L.GenerateKey rnd 2048 with
  | .error err => (none, none, [], some err)
  | .ok priv =>
    match L.Validate priv with
    | some err => (none, none, [], some err)
    | none =>
      let privDer := MarshalPKCS8PrivateKey L priv
      let r := CreatCertificateDer L now rnd2 priv expiry
      (some privDer, r.1, r.2.1, r.2.2)

/-- Go `GenerateRSACertPem`: the named results `privPem`, `certPem`, `certID` and `err`. -/
def GenerateRSACertPem (L : KeyLib) (now : Time) (rnd rnd2 : Bytes) (expiry : Int) :
    Bytes × Bytes × Bytes × Option GoError :=
  match GenerateRSACertDer L now rnd rnd2 expiry with
  | (privDer, certDer, certID, none) =>
    (pemEncode { Typ := ascii "PRIVATE KEY", Bytes := privDer.getD [] },
      pemEncode { Typ := ascii "CERTIFICATE", Bytes := certDer.getD [] }, certID, none)
  | (_, _, certID, some err) => ([], [], certID, some err)

/-- A toy instance of the key library for concrete evaluation: the key is read from the
first three random bytes, and a DER text is the list of the key's numbers. -/
def demoKeyLib : KeyLib where
  GenerateKey := fun rnd _ =>
    match rnd with
    | n :: e :: d :: _ => .ok ⟨⟨n.val, e.val⟩, d.val⟩
    | _ => .error .randRead
  Validate := fun _ => none
  MarshalPKCS1PrivateKey := fun k => [toByte k.PublicKey.N, toByte k.PublicKey.E.toNat, toByte k.D]
  MarshalPKIXPublicKey := fun p => .ok [toByte p.N, toByte p.E.toNat]
  CreateCertificate := fun _ t _ _ _ => .ok (bigString t.SerialNumber)

/-! ### Text and time (`util.go` 152-205) -/

/-- The local time zone, as far as the helpers use it: `Date` is the function
`time.Date(year, month, day, hour, min, sec, nsec, time.Local)`. It normalises values out
of range, and a wall-clock reading that the zone skips (at a change of offset) comes back
as a reading in one of the two offsets. -/
structure Zone where
  Date : Int → Nat → Nat → Nat → Nat → Nat → Nat → Time

/-- The zone returns the wall-clock reading it was given: the reading is in range and the
zone does not skip it. -/
def Zone.keeps (Z : Zone) (y : Int) (m d h mi s ns : Nat) : Prop :=
  (Z.Date y m d h mi s ns).Year = y ∧ (Z.Date y m d h mi s ns).Month = m ∧
    (Z.Date y m d h mi s ns).Day = d ∧ (Z.Date y m d h mi s ns).Hour = h ∧
    (Z.Date y m d h mi s ns).Minute = mi ∧ (Z.Date y m d h mi s ns).Second = s ∧
    (Z.Date y m d h mi s ns).Nanosecond = ns

instance (Z : Zone) (y : Int) (m d h mi s ns : Nat) : Decidable (Z.keeps y m d h mi s ns) := by
  unfold Zone.keeps
  infer_instance

/-- Go `temp.Format("2006-01-01 15:04:05")`: the layout names the year, then the
two-digit month twice, then hour, minute and second. -/
def formatShort (t : Time) : Bytes :=
  appendInt t.Year 4 ++ [45] ++ appendInt t.Month 2 ++ [45] ++ appendInt t.Month 2 ++ [32] ++
    appendInt t.Hour 2 ++ [58] ++ appendInt t.Minute 2 ++ [58] ++ appendInt t.Second 2

/-- Go `Time2Str`. -/
def Time2Str (Z : Zone) (t : Time) : Bytes :=
  let temp := Z.Date t.Year t.Month t.Day t.Hour t.Minute t.Second t.Nanosecond
  formatShort temp

/-- Go `Time2StrPointer`; `none` is the nil pointer. -/
def Time2StrPointer (Z : Zone) (t : Option Time) : Bytes :=
  match t with
  | none => []
  | some t =>
    if t.IsZero then []
    else
      let temp := Z.Date t.Year t.Month t.Day t.Hour t.Minute t.Second t.Nanosecond
      formatShort temp

/-- Go `isDigit(s, i)` of package `time`. -/
def isDigit (s : Bytes) (i : Nat) : Bool :=
  match s.get? i with
  | none => false
  | some c => decide (48 ≤ c.val ∧ c.val ≤ 57)

/-- Go `getnum(s, fixed)` of package `time`: a number of one or two digits (two when
`fixed`) and the rest of the text. -/
def getnum (s : Bytes) (fixed : Bool) : Option (Nat × Bytes) :=
  if !isDigit s 0 then none
  else if !isDigit s 1 then
    (if fixed then none else some ((s.getD 0 0).val - 48, s.drop 1))
  else some (((s.getD 0 0).val - 48) * 10 + ((s.getD 1 0).val - 48), s.drop 2)

/-- Go `skip(value, prefix)` for a one-character literal that is not a space. -/
def skipChar (value : Bytes) (c : Byte) : Option Bytes :=
  match value with
  | [] => none
  | v :: rest => if v = c then some rest else none

/-- Go `cutspace`. -/
def cutspace : Bytes → Bytes
  | [] => []
  | c :: rest => if c = 32 then cutspace rest else c :: rest

/-- Go `skip(value, " ")`: a text that starts with another character is refused; leading
spaces are cut. -/
def skipSpace (value : Bytes) : Option Bytes :=
  match value with
  | [] => some []
  | v :: rest => if v ≠ 32 then none else some (cutspace (v :: rest))

/-- The digits at the start of a text. -/
def takeDigits : Bytes → Bytes
  | [] => []
  | c :: rest => if 48 ≤ c.val ∧ c.val ≤ 57 then c :: takeDigits rest else []

/-- The fractional second that Go `parse` accepts after the seconds when the layout has
none: a period or comma followed by digits, of which `parseNanoseconds` reads the first
nine; `(nsec, rest)`. Without such a fraction the text is left as it is. -/
def parseFraction (value : Bytes) : Nat × Bytes :=
  match value with
  | c :: rest =>
    if (c = 46 ∨ c = 44) ∧ isDigit rest 0 then
      let ds := takeDigits rest
      let used := ds.take 9
      (((digitsValue used 0).getD 0) * 10 ^ (9 - used.length), rest.drop ds.length)
    else (0, value)
  | [] => (0, value)

/-- Go `daysIn(month, year)`. -/
def daysIn (month : Nat) (year : Int) : Nat :=
  if month = 2 then (if year % 4 = 0 ∧ (year % 100 ≠ 0 ∨ year % 400 = 0) then 29 else 28)
  else if month = 4 ∨ month = 6 ∨ month = 9 ∨ month = 11 then 30
  else 31

/-- Go `time.Parse` for the layout `"2006-01-02 15:04:05"`, up to the call of `Date`: the
year of four digits, the literals, the two-digit month and day, the hour of one or two
digits, the two-digit minute and second with an optional fraction, the range checks, and
the check of the day against the month. The result is the arguments of `Date`, or `none`
for a parse error. -/
def parseLayout (value : Bytes) : Option (Int × Nat × Nat × Nat × Nat × Nat × Nat) :=
  if value.length < 4 ∨ !isDigit value 0 then none
  else
    match digitsValue (value.take 4) 0 with
    | none => none
    | some year =>
      match skipChar (value.drop 4) 45 with
      | none => none
      | some value =>
        match getnum value true with
        | none => none
        | some (month, value) =>
          if month = 0 ∨ 12 < month then none
          else
            match skipChar value 45 with
            | none => none
            | some value =>
              match getnum value true with
              | none => none
              | some (day, value) =>
                match skipSpace value with
                | none => none
                | some value =>
                  match getnum value false with
                  | none => none
                  | some (hour, value) =>
                    if 24 ≤ hour then none
                    else
                      match skipChar value 58 with
                      | none => none
                      | some value =>
                        match getnum value true with
                        | none => none
                        | some (min, value) =>
                          if 60 ≤ min then none
                          else
                            match skipChar value 58 with
                            | none => none
                            | some value =>
                              match getnum value true with
                              | none => none
                              | some (sec, value) =>
                                if 60 ≤ sec then none
                                else
                                  let f := parseFraction value
                                  if f.2 ≠ [] then none
                                  else if day < 1 ∨ daysIn month (Int.ofNat year) < day then none
                                  else some (Int.ofNat year, month, day, hour, min, sec, f.1)

/-- Go `Str2Time`: the error of `time.ParseInLocation` is dropped, and with it comes the
zero `time.Time`. -/
def Str2Time (Z : Zone) (formatTimeStr : Bytes) : Time :=
  match parseLayout formatTimeStr with
  | none => zeroTime
  | some (year, month, day, hour, min, sec, nsec) => Z.Date year month day hour min sec nsec

/-! ### Two concrete zones -/

/-- The number of days from 1970-01-01 to the day `d` of month `m` (1 to 12) of year `y`
in the proleptic Gregorian calendar; `d` may run past the end of the month. -/
def daysFromCivil (y m d : Int) : Int :=
  let y1 := if m ≤ 2 then y - 1 else y
  let era := y1 / 400
  let yoe := y1 - era * 400
  let mp := (m + 9) % 12
  let doy := (153 * mp + 2) / 5 + d - 1
  era * 146097 + (yoe * 365 + yoe / 4 - yoe / 100 + doy) - 719468

/-- The year, month and day of the day that is `z` days after 1970-01-01. -/
def civilFromDays (z : Int) : Int × Int × Int :=
  let z1 := z + 719468
  let era := z1 / 146097
  let doe := z1 - era * 146097
  let yoe := (doe - doe / 1460 + doe / 36524 - doe / 146096) / 365
  let doy := doe - (365 * yoe + yoe / 4 - yoe / 100)
  let mp := (5 * doy + 2) / 153
  let m := if mp < 10 then mp + 3 else mp - 9
  (yoe + era * 400 + (if m ≤ 2 then 1 else 0), m, doy - (153 * mp + 2) / 5 + 1)

/-- The first step of Go `time.Date`: the arguments, with values out of range carried
over, as seconds after 1970-01-01 00:00:00 counted as if the reading were in UTC, and the
nanoseconds within the second. -/
def asIfUTC (y : Int) (m d h mi s ns : Nat) : Int × Nat :=
  let m0 : Int := (m : Int) - 1
  (daysFromCivil (y + m0 / 12) (m0 % 12 + 1) d * 86400 + h * 3600 + mi * 60 + s
      + ((ns / 10 ^ 9 : Nat) : Int), ns % 10 ^ 9)

/-- The `time.Time` of the instant `unix` seconds and `nsec` nanoseconds after the epoch,
in a location that is `offset` seconds east of UTC at that instant. -/
def readingAt (unix offset : Int) (nsec : Nat) : Time :=
  let c := civilFromDays ((unix + offset) / 86400)
  let r := (unix + offset) % 86400
  { UnixNano := unix * 10 ^ 9 + nsec, Year := c.1, Month := c.2.1.toNat, Day := c.2.2.toNat,
    Hour := (r / 3600).toNat, Minute := (r % 3600 / 60).toNat, Second := (r % 60).toNat,
    Nanosecond := nsec }

/-- The zone UTC. -/
def utcZone : Zone where
  Date := fun y m d h mi s ns => readingAt (asIfUTC y m d h mi s ns).1 0 (asIfUTC y m d h mi s ns).2

/-- The offset of a zone that is 5 hours west of UTC before 2024-03-10 07:00:00 UTC
(Unix time 1710054000) and 4 hours west from then on, as America/New_York is around that
change: the readings from 02:00 to 03:00 of that day do not occur. -/
def gapOffset (unix : Int) : Int := if unix < 1710054000 then -18000 else -14400

/-- Go `time.Date` in the zone of `gapOffset`: the offset is looked up at the as-if-UTC
time, and looked up again at the corrected time when that falls on the other side of the
change. -/
def gapZone : Zone where
  Date := fun y m d h mi s ns =>
    let u := (asIfUTC y m d h mi s ns).1
    let utc := u - gapOffset u
    let offset :=
      if decide (u < 1710054000) = decide (utc < 1710054000) then gapOffset u
      else gapOffset utc
    readingAt (u - offset) (gapOffset (u - offset)) (asIfUTC y m d h mi s ns).2

/-! ## Part 2: lemmas and theorems -/

/-! ### Padding -/

theorem toByte_val_of_lt {n : Nat} (h : n < 256) : (toByte n).val = n := by
  simp [toByte, Nat.mod_eq_of_lt h]

theorem padded_last (d : Bytes) (N : Nat) (b : Byte) (hN : 1 ≤ N) :
    (d ++ List.replicate N b).getD ((d ++ List.replicate N b).length - 1) 0 = b := by
  have hlen : (d ++ List.replicate N b).length - 1 = d.length + (N - 1) := by
    simp; omega
  rw [hlen, List.getD_eq_getElem?_getD, List.getElem?_append_right (by omega)]
  simp
  rw [List.getElem?_replicate]
  have hpos : 0 < N := hN
  simp [hpos]

theorem padded_take (d : Bytes) (N : Nat) (b : Byte) :
    (d ++ List.replicate N b).take ((d ++ List.replicate N b).length - N) = d := by
  simp

theorem pkcs7Padding_eq (d : Bytes) (bs : Nat) :
    pkcs7Padding d bs =
      d ++ List.replicate (bs - d.length % bs) (toByte (bs - d.length % bs)) := rfl

theorem PKCS5Padding_eq (d : Bytes) (bs : Nat) :
    PKCS5Padding d bs =
      d ++ List.replicate (bs - d.length % bs) (toByte (bs - d.length % bs)) := rfl

theorem PKCS5Padding_eq_pkcs7 (d : Bytes) (bs : Nat) : PKCS5Padding d bs = pkcs7Padding d bs := rfl

theorem pad_count_bounds (n bs : Nat) (h1 : 1 ≤ bs) :
    1 ≤ bs - n % bs ∧ bs - n % bs ≤ bs := by
  have := Nat.mod_lt n (show 0 < bs by omega)
  omega

theorem pkcs7Padding_length (d : Bytes) (bs : Nat) (h1 : 1 ≤ bs) :
    (pkcs7Padding d bs).length = (d.length / bs + 1) * bs := by
  rw [pkcs7Padding_eq]
  simp
  have hm := Nat.mod_lt d.length (show 0 < bs by omega)
  have hd := Nat.div_add_mod d.length bs
  have : (d.length / bs + 1) * bs = bs * (d.length / bs) + bs := by ring
  omega

theorem pkcs7Padding_length_mod (d : Bytes) (bs : Nat) (h1 : 1 ≤ bs) :
    (pkcs7Padding d bs).length % bs = 0 := by
  rw [pkcs7Padding_length d bs h1]
  exact Nat.mul_mod_left _ _

theorem pkcs7UnPadding_padding (d : Bytes) (bs : Nat) (h1 : 1 ≤ bs) (h2 : bs ≤ 255) :
    pkcs7UnPadding (pkcs7Padding d bs) = .ok (some d) := by
  obtain ⟨hN1, hN2⟩ := pad_count_bounds d.length bs h1
  rw [pkcs7Padding_eq]
  generalize hN : bs - d.length % bs = N at *
  unfold pkcs7UnPadding
  have hl : (d ++ List.replicate N (toByte N)).length ≠ 0 := by simp; omega
  simp only [hl, if_false]
  rw [padded_last d N _ hN1, toByte_val_of_lt (by omega)]
  have hle : N ≤ (d ++ List.replicate N (toByte N)).length := by simp
  rw [if_pos hle, padded_take]

theorem PKCS5UnPadding_padding (d : Bytes) (bs : Nat) (h1 : 1 ≤ bs) (h2 : bs ≤ 255) :
    PKCS5UnPadding (PKCS5Padding d bs) = .ok d := by
  obtain ⟨hN1, hN2⟩ := pad_count_bounds d.length bs h1
  rw [PKCS5Padding_eq]
  generalize hN : bs - d.length % bs = N at *
  unfold PKCS5UnPadding
  have hl : (d ++ List.replicate N (toByte N)).length ≠ 0 := by simp; omega
  simp only [hl, if_false]
  rw [padded_last d N _ hN1, toByte_val_of_lt (by omega)]
  have hle : N ≤ (d ++ List.replicate N (toByte N)).length := by simp
  rw [if_pos hle, padded_take]
/-! ### Bytes and XOR -/

theorem bxor_val (a b : Byte) : (bxor a b).val = a.val ^^^ b.val := rfl

theorem bxor_comm (a b : Byte) : bxor a b = bxor b a := by
  apply Fin.ext; simp [bxor_val, Nat.xor_comm]

theorem bxor_assoc (a b c : Byte) : bxor (bxor a b) c = bxor a (bxor b c) := by
  apply Fin.ext; simp [bxor_val, Nat.xor_assoc]

theorem bxor_zero (a : Byte) : bxor a 0 = a := by
  apply Fin.ext; simp [bxor_val]

theorem zero_bxor (a : Byte) : bxor 0 a = a := by
  apply Fin.ext; simp [bxor_val]

theorem bxor_self (a : Byte) : bxor a a = 0 := by
  apply Fin.ext; simp [bxor_val]

theorem bxor_cancel_right (a b : Byte) : bxor (bxor a b) b = a := by
  rw [bxor_assoc, bxor_self, bxor_zero]

theorem xorBytes_length (a b : Bytes) : (xorBytes a b).length = min a.length b.length := by
  simp [xorBytes]

theorem xorBytes_cancel (a b : Bytes) (h : a.length ≤ b.length) :
    xorBytes (xorBytes a b) b = a := by
  induction a generalizing b with
  | nil => simp [xorBytes]
  | cons x a ih =>
    cases b with
    | nil => simp at h
    | cons y b =>
      simp only [List.length_cons, Nat.add_le_add_iff_right] at h
      have := ih b h
      simp only [xorBytes, List.zipWith_cons_cons] at this ⊢
      rw [bxor_cancel_right, this]

/-! ### ECB key derivation -/

theorem xorFoldUpTo_zero (k : Bytes) (j : Nat) : xorFoldUpTo k 0 j = 0 := rfl

theorem xorFoldUpTo_succ (k : Bytes) (n j : Nat) :
    xorFoldUpTo k (n + 1) j =
      if n % 16 = j then bxor (xorFoldUpTo k n j) (k.getD n 0) else xorFoldUpTo k n j := by
  unfold xorFoldUpTo
  rw [List.range_succ, List.filter_append, List.foldl_append]
  by_cases h : n % 16 = j <;> simp [h]

theorem xorFoldUpTo_of_le (k : Bytes) (j : Nat) :
    ∀ n, k.length ≤ n → xorFoldUpTo k n j = xorFoldUpTo k k.length j := by
  intro n hn
  induction n with
  | zero =>
    have : k.length = 0 := by omega
    rw [this]
  | succ n ih =>
    by_cases h : k.length = n + 1
    · rw [h]
    · have hle : k.length ≤ n := by omega
      rw [xorFoldUpTo_succ, ih hle]
      have hz : k.getD n 0 = 0 := by
        rw [List.getD_eq_getElem?_getD, List.getElem?_eq_none hle]; rfl
      rw [hz, bxor_zero]
      split <;> rfl

/-- The loop invariant of `generateKeys`: `genKey` has 16 bytes, and byte `t` is the XOR of
the key bytes below `i` whose index is `t` modulo 16. -/
theorem generateKeysInner_spec (key : Bytes) :
    ∀ (fuel j i : Nat) (g : Bytes), j ≤ 16 → 16 - j ≤ fuel → i % 16 = j % 16 →
      g.length = 16 → (∀ t, t < 16 → g.getD t 0 = xorFoldUpTo key i t) →
      (generateKeysInner key fuel j i g).2.length = 16 ∧
      (∀ t, t < 16 → (generateKeysInner key fuel j i g).2.getD t 0 =
        xorFoldUpTo key (generateKeysInner key fuel j i g).1 t) ∧
      ((generateKeysInner key fuel j i g).1 % 16 = 0 ∨
        key.length ≤ (generateKeysInner key fuel j i g).1) ∧
      (j < 16 → i < key.length → i < (generateKeysInner key fuel j i g).1) ∧
      i ≤ (generateKeysInner key fuel j i g).1 := by
  intro fuel
  induction fuel with
  | zero =>
    intro j i g hj hf hmod hlen hinv
    have hj16 : j = 16 := by omega
    subst hj16
    simp only [generateKeysInner]
    refine ⟨hlen, hinv, Or.inl (by omega), by omega, le_refl _⟩
  | succ fuel ih =>
    intro j i g hj hf hmod hlen hinv
    unfold generateKeysInner
    by_cases hc : j < 16 ∧ i < key.length
    · rw [if_pos hc]
      have hstep := ih (j + 1) (i + 1)
        (g.set j (bxor (g.getD j 0) (key.getD i 0))) (by omega) (by omega) (by omega)
        (by simp [hlen])
        (by
          intro t ht
          rw [xorFoldUpTo_succ]
          have hij : i % 16 = j := by omega
          by_cases htj : j = t
          · subst htj
            rw [if_pos hij, ← hinv j ht]
            simp [List.getD_eq_getElem?_getD, List.getElem?_set, hlen, ht]
          · have hne : ¬ i % 16 = t := by omega
            rw [if_neg hne, ← hinv t ht]
            simp [List.getD_eq_getElem?_getD, List.getElem?_set, htj])
      refine ⟨hstep.1, hstep.2.1, hstep.2.2.1, fun _ _ => by omega, by omega⟩
    · rw [if_neg hc]
      refine ⟨hlen, hinv, ?_, fun h1 h2 => absurd ⟨h1, h2⟩ hc, le_refl _⟩
      by_cases hj16 : j < 16
      · right
        have : ¬ i < key.length := fun h => hc ⟨hj16, h⟩
        simp only; omega
      · left
        have : j = 16 := by omega
        subst this
        simp only; omega

theorem generateKeysOuter_spec (key : Bytes) :
    ∀ (fuel i : Nat) (g : Bytes), key.length ≤ i + fuel → (i % 16 = 0 ∨ key.length ≤ i) →
      g.length = 16 → (∀ t, t < 16 → g.getD t 0 = xorFoldUpTo key i t) →
      (generateKeysOuter key fuel i g).length = 16 ∧
      ∀ t, t < 16 → (generateKeysOuter key fuel i g).getD t 0 = xorFoldUpTo key key.length t := by
  intro fuel
  induction fuel with
  | zero =>
    intro i g hf _ hlen hinv
    simp only [generateKeysOuter]
    refine ⟨hlen, fun t ht => ?_⟩
    rw [hinv t ht, xorFoldUpTo_of_le key t i (by omega)]
  | succ fuel ih =>
    intro i g hf hmod hlen hinv
    unfold generateKeysOuter
    by_cases hc : i < key.length
    · rw [if_pos hc]
      have hi0 : i % 16 = 0 % 16 := by
        rcases hmod with h | h
        · simpa using h
        · omega
      obtain ⟨h1, h2, h3, h4, _⟩ :=
        generateKeysInner_spec key 16 0 i g (by omega) (by omega) hi0 hlen hinv
      have hlt := h4 (by omega) hc
      exact ih _ _ (by omega) h3 h1 h2
    · rw [if_neg hc]
      refine ⟨hlen, fun t ht => ?_⟩
      rw [hinv t ht, xorFoldUpTo_of_le key t i (by omega)]

theorem copy_zero_length (key : Bytes) : (copy (makeBytes 16) key).length = 16 := by
  simp [copy, makeBytes]
  omega

theorem copy_zero_eq (key : Bytes) :
    copy (makeBytes 16) key = key.take 16 ++ List.replicate (16 - key.length) 0 := by
  simp only [copy, makeBytes, List.length_replicate, List.drop_replicate]

theorem copy_zero_getD (key : Bytes) (t : Nat) (ht : t < 16) :
    (copy (makeBytes 16) key).getD t 0 = key.getD t 0 := by
  rw [copy_zero_eq]
  simp only [List.getD_eq_getElem?_getD]
  by_cases h : t < key.length
  · rw [List.getElem?_append_left (by simp; omega)]
    simp [List.getElem?_take, ht]
  · rw [List.getElem?_append_right (by simp; omega)]
    have hn : key[t]? = none := List.getElem?_eq_none (by omega)
    rw [hn, List.getElem?_replicate]
    split <;> rfl

theorem xorFoldUpTo_sixteen (key : Bytes) (t : Nat) (ht : t < 16) :
    xorFoldUpTo key 16 t = key.getD t 0 := by
  interval_cases t <;> simp [xorFoldUpTo_succ, xorFoldUpTo_zero, zero_bxor]

theorem generateKeys_length (key : Bytes) : (generateKeys key).length = 16 :=
  (generateKeysOuter_spec key key.length 16 _ (by omega) (Or.inl rfl)
    (copy_zero_length key)
    (fun t ht => by rw [copy_zero_getD key t ht, xorFoldUpTo_sixteen key t ht])).1

theorem generateKeys_getD (key : Bytes) (t : Nat) (ht : t < 16) :
    (generateKeys key).getD t 0 = xorFold key t :=
  (generateKeysOuter_spec key key.length 16 _ (by omega) (Or.inl rfl)
    (copy_zero_length key)
    (fun t ht => by rw [copy_zero_getD key t ht, xorFoldUpTo_sixteen key t ht])).2 t ht

theorem generateKeys_of_le (key : Bytes) (h : key.length ≤ 16) :
    generateKeys key = key ++ List.replicate (16 - key.length) 0 := by
  unfold generateKeys
  have hout : ∀ g, generateKeysOuter key key.length 16 g = g := by
    intro g
    cases hk : key.length with
    | zero => rfl
    | succ n =>
      unfold generateKeysOuter
      rw [if_neg (by omega)]
  rw [hout, copy_zero_eq, List.take_of_length_le h]

theorem generateKeys_of_length_eq (key : Bytes) (h : key.length = 16) :
    generateKeys key = key := by
  rw [generateKeys_of_le key (by omega), h]
  simp

theorem generateKeys_idem (key : Bytes) : generateKeys (generateKeys key) = generateKeys key :=
  generateKeys_of_length_eq _ (generateKeys_length key)

theorem eq_of_getD_eq {a b : Bytes} {n : Nat} (ha : a.length = n) (hb : b.length = n)
    (h : ∀ t, t < n → a.getD t 0 = b.getD t 0) : a = b := by
  apply List.ext_getElem (by rw [ha, hb])
  intro t h1 h2
  have := h t (by omega)
  simp only [List.getD_eq_getElem?_getD, List.getElem?_eq_getElem h1,
    List.getElem?_eq_getElem h2, Option.getD_some] at this
  exact this

/-- The 16-byte key obtained from a 32-byte key by XOR-ing byte `j + 16` onto byte `j`. -/
theorem generateKeys_thirtyTwo (k : Bytes) (hk : k.length = 32) :
    generateKeys k = (List.range 16).map (fun j => bxor (k.getD j 0) (k.getD (j + 16) 0)) := by
  apply eq_of_getD_eq (generateKeys_length k) (by simp)
  intro t ht
  rw [generateKeys_getD k t ht, xorFold, hk]
  interval_cases t <;> simp [xorFoldUpTo_succ, xorFoldUpTo_zero, zero_bxor, List.range_succ]

/-- C5: for every byte string `d` and block size `1 <= bs <= 255`, with
`N = bs - len(d) mod bs`: `1 <= N <= bs`, `byte(N)` is `N` itself, `PKCS5Padding` and
`pkcs7Padding` return `d` followed by `N` bytes of value `N`, the padded length is a
multiple of `bs`, and `PKCS5UnPadding` and `pkcs7UnPadding` applied to the padded string
return exactly `d` (without a panic, and not the nil slice). -/
theorem padding_roundtrip (d : Bytes) (bs : Nat) (h1 : 1 ≤ bs) (h2 : bs ≤ 255) :
    1 ≤ bs - d.length % bs ∧ bs - d.length % bs ≤ bs ∧
    (toByte (bs - d.length % bs)).val = bs - d.length % bs ∧
    PKCS5Padding d bs = d ++ List.replicate (bs - d.length % bs) (toByte (bs - d.length % bs)) ∧
    pkcs7Padding d bs = d ++ List.replicate (bs - d.length % bs) (toByte (bs - d.length % bs)) ∧
    (PKCS5Padding d bs).length % bs = 0 ∧
    (pkcs7Padding d bs).length % bs = 0 ∧
    PKCS5UnPadding (PKCS5Padding d bs) = .ok d ∧
    pkcs7UnPadding (pkcs7Padding d bs) = .ok (some d) :=
  ⟨(pad_count_bounds d.length bs h1).1, (pad_count_bounds d.length bs h1).2,
    toByte_val_of_lt (by have := (pad_count_bounds d.length bs h1).2; omega),
    rfl, rfl, pkcs7Padding_length_mod d bs h1, pkcs7Padding_length_mod d bs h1,
    PKCS5UnPadding_padding d bs h1 h2, pkcs7UnPadding_padding d bs h1 h2⟩

/-- Witness of C5: the three bytes `1, 2, 3` padded to a block size of 8. -/
theorem padding_roundtrip_witness :
    (1 ≤ 8 ∧ 8 ≤ 255) ∧
    PKCS5Padding [1, 2, 3] 8 = [1, 2, 3] ++ List.replicate (8 - 3 % 8) (toByte (8 - 3 % 8)) ∧
    PKCS5UnPadding (PKCS5Padding [1, 2, 3] 8) = .ok [1, 2, 3] ∧
    pkcs7UnPadding (pkcs7Padding [1, 2, 3] 8) = .ok (some [1, 2, 3]) :=
  have h := padding_roundtrip [1, 2, 3] 8 (by decide) (by decide)
  ⟨⟨by decide, by decide⟩, h.2.2.2.1, h.2.2.2.2.2.2.2.1, h.2.2.2.2.2.2.2.2⟩

/-- C6: for every key `k`, `generateKeys(k)` has exactly 16 bytes, and byte `j` is the XOR
of all `k[i]` with `i < len(k)` and `i mod 16 = j`; a key of at most 16 bytes is padded
with zero bytes, and a key of exactly 16 bytes is returned unchanged. -/
theorem generateKeys_spec (k : Bytes) :
    (generateKeys k).length = 16 ∧
    (∀ j : Fin 16, (generateKeys k).getD j.val 0 = xorFold k j.val) ∧
    (k.length ≤ 16 → generateKeys k = k ++ List.replicate (16 - k.length) 0) ∧
    (k.length = 16 → generateKeys k = k) :=
  ⟨generateKeys_length k, fun j => generateKeys_getD k j.val j.isLt,
    generateKeys_of_le k, generateKeys_of_length_eq k⟩

/-- Witness of C6: a 3-byte key and a 16-byte key. -/
theorem generateKeys_spec_witness :
    generateKeys [7, 8, 9] = [7, 8, 9] ++ List.replicate (16 - 3) 0 ∧
    generateKeys (List.replicate 16 5) = List.replicate 16 5 :=
  ⟨(generateKeys_spec [7, 8, 9]).2.2.1 (by decide),
    (generateKeys_spec (List.replicate 16 5)).2.2.2 (by decide)⟩

/-! ### `encoding/hex` -/

theorem fromHexChar_hextable (i : Fin 16) : fromHexChar (hextable.getD i.val 0) = some i.val := by
  revert i; decide

theorem fromHexChar_upper_hextable (i : Fin 16) :
    fromHexChar (if 97 ≤ (hextable.getD i.val 0).val ∧ (hextable.getD i.val 0).val ≤ 122
      then toByte ((hextable.getD i.val 0).val - 32) else hextable.getD i.val 0) = some i.val := by
  revert i; decide

theorem toByte_div_mod (b : Byte) : toByte (b.val / 16 * 16 + b.val % 16) = b := by
  apply Fin.ext
  simp only [toByte]
  omega

theorem hexDecode_hexEncode (x : Bytes) : hexDecode (hexEncode x) = (x, none) := by
  induction x with
  | nil => rfl
  | cons b x ih =>
    have h1 := fromHexChar_hextable ⟨b.val / 16, by omega⟩
    have h2 := fromHexChar_hextable ⟨b.val % 16, by omega⟩
    simp only at h1 h2
    simp only [hexEncode, List.flatMap_cons, List.cons_append, List.nil_append] at ih ⊢
    simp only [hexDecode, h1, h2, ih, toByte_div_mod]

theorem hexDecode_toUpper_hexEncode (x : Bytes) :
    hexDecode (toUpper (hexEncode x)) = (x, none) := by
  induction x with
  | nil => rfl
  | cons b x ih =>
    have h1 := fromHexChar_upper_hextable ⟨b.val / 16, by omega⟩
    have h2 := fromHexChar_upper_hextable ⟨b.val % 16, by omega⟩
    simp only at h1 h2
    simp only [hexEncode, toUpper, List.flatMap_cons, List.cons_append, List.nil_append,
      List.map_cons] at ih ⊢
    simp only [hexDecode, h1, h2, ih, toByte_div_mod]

theorem hexEncode_length (x : Bytes) : (hexEncode x).length = 2 * x.length := by
  induction x with
  | nil => rfl
  | cons b x ih =>
    simp only [hexEncode, List.flatMap_cons, List.length_append, List.length_cons,
      List.length_nil] at ih ⊢
    omega

theorem toUpper_length (x : Bytes) : (toUpper x).length = x.length := by
  simp [toUpper]

/-- An upper-case hexadecimal digit: `0`-`9` or `A`-`F`. -/
theorem upper_hextable_digit (i : Fin 16) :
    let c := (if 97 ≤ (hextable.getD i.val 0).val ∧ (hextable.getD i.val 0).val ≤ 122
      then toByte ((hextable.getD i.val 0).val - 32) else hextable.getD i.val 0)
    (48 ≤ c.val ∧ c.val ≤ 57) ∨ (65 ≤ c.val ∧ c.val ≤ 70) := by
  revert i; decide

theorem toUpper_hexEncode_digits (x : Bytes) :
    ∀ c ∈ toUpper (hexEncode x), (48 ≤ c.val ∧ c.val ≤ 57) ∨ (65 ≤ c.val ∧ c.val ≤ 70) := by
  induction x with
  | nil => intro c hc; simp [hexEncode, toUpper] at hc
  | cons b x ih =>
    intro c hc
    have h1 := upper_hextable_digit ⟨b.val / 16, by omega⟩
    have h2 := upper_hextable_digit ⟨b.val % 16, by omega⟩
    simp only at h1 h2
    simp only [hexEncode, toUpper, List.flatMap_cons, List.cons_append, List.nil_append,
      List.map_cons, List.mem_cons] at ih hc ⊢
    rcases hc with hc | hc | hc
    · rw [hc]; exact h1
    · rw [hc]; exact h2
    · exact ih c hc

/-! ### AES in ECB mode -/

theorem fillPad_spec (pad : Byte) :
    ∀ (fuel i : Nat) (plain : Bytes), i ≤ plain.length → plain.length - i ≤ fuel →
      fillPad pad fuel i plain = plain.take i ++ List.replicate (plain.length - i) pad := by
  intro fuel
  induction fuel with
  | zero =>
    intro i plain hi hf
    have : plain.length - i = 0 := by omega
    simp only [fillPad, this, List.replicate_zero, List.append_nil]
    rw [List.take_of_length_le (by omega)]
  | succ fuel ih =>
    intro i plain hi hf
    unfold fillPad
    by_cases hc : i < plain.length
    · rw [if_pos hc, ih (i + 1) _ (by simp; omega) (by simp; omega)]
      have hlen : plain.length - i = (plain.length - (i + 1)) + 1 := by omega
      rw [List.length_set, hlen, List.replicate_succ, List.take_succ]
      simp [List.getElem?_set, hc]
      rw [List.set_take, List.set_eq_of_length_le (by simp)]
    · rw [if_neg hc]
      have : plain.length - i = 0 := by omega
      rw [this, List.take_of_length_le (by omega)]
      simp

theorem ecbPlain_eq_pkcs7Padding (src : Bytes) : ecbPlain src = pkcs7Padding src 16 := by
  have hlen : (src.length + 16) / 16 * 16 - src.length = 16 - src.length % 16 := by omega
  have hle : src.length ≤ (src.length + 16) / 16 * 16 := by omega
  have hcopy : copy (makeBytes ((src.length + 16) / 16 * 16)) src =
      src ++ List.replicate ((src.length + 16) / 16 * 16 - src.length) 0 := by
    simp only [copy, makeBytes, List.length_replicate, List.drop_replicate]
    rw [List.take_of_length_le hle]
  have hcl : (copy (makeBytes ((src.length + 16) / 16 * 16)) src).length =
      (src.length + 16) / 16 * 16 := by
    rw [hcopy]; simp; omega
  unfold ecbPlain
  simp only
  rw [fillPad_spec _ _ _ _ (by rw [hcl]; exact hle) (by rw [hcl]; omega), hcl, hlen,
    pkcs7Padding_eq, hcopy, List.take_left' rfl]

theorem slice_ok (s : Bytes) (lo hi : Nat) (h1 : lo ≤ hi) (h2 : hi ≤ s.length) :
    slice s lo hi = .ok ((s.drop lo).take (hi - lo)) := by
  simp [slice, h1, h2]

theorem setSlice_append (pre rest blk : Bytes) :
    setSlice (pre ++ rest) pre.length blk = pre ++ blk ++ rest.drop blk.length := by
  simp [setSlice, List.take_append_eq_append_take, List.drop_append_eq_append_drop]

theorem ecbEncryptLoop_spec (E : Bytes → Bytes) (src : Bytes)
    (hE : ∀ b, b.length = 16 → (E b).length = 16) :
    ∀ (r fuel : Nat) (pre rest encPre encRest : Bytes),
      encPre.length = pre.length → encRest.length = rest.length →
      rest.length = 16 * r → pre.length + rest.length = 16 * (src.length / 16 + 1) →
      pre.length % 16 = 0 → r ≤ fuel →
      ecbEncryptLoop E src (pre ++ rest) fuel pre.length (encPre ++ encRest) =
        .ok (encPre ++ ecbBlocks E r rest) := by
  intro r
  induction r with
  | zero =>
    intro fuel pre rest encPre encRest h1 h2 h3 h4 h5 _
    have hr : rest = [] := List.length_eq_zero.mp (by omega)
    have he : encRest = [] := List.length_eq_zero.mp (by omega)
    subst hr he
    cases fuel with
    | zero => simp [ecbEncryptLoop, ecbBlocks]
    | succ fuel =>
      unfold ecbEncryptLoop
      simp only [List.length_nil, Nat.add_zero] at h4
      rw [if_neg (by omega)]
      simp [ecbBlocks]
  | succ r ih =>
    intro fuel pre rest encPre encRest h1 h2 h3 h4 h5 hf
    cases fuel with
    | zero => omega
    | succ fuel =>
      unfold ecbEncryptLoop
      rw [if_pos (by omega)]
      rw [slice_ok _ _ _ (by omega) (by simp; omega)]
      simp only
      rw [slice_ok _ _ _ (by omega) (by simp; omega)]
      simp only
      have hblk : (List.drop pre.length (pre ++ rest)).take (pre.length + 16 - pre.length) =
          rest.take 16 := by
        rw [List.drop_left']
        · congr 1; omega
        · rfl
      rw [hblk]
      have hEl : (E (rest.take 16)).length = 16 := hE _ (by simp; omega)
      have hset : setSlice (encPre ++ encRest) pre.length (E (rest.take 16)) =
          (encPre ++ E (rest.take 16)) ++ encRest.drop 16 := by
        rw [← h1, setSlice_append _ _ _, hEl]
      rw [hset]
      have hpl : pre.length + 16 = (pre ++ rest.take 16).length := by simp; omega
      have hsplit : pre ++ rest = (pre ++ rest.take 16) ++ rest.drop 16 := by
        rw [List.append_assoc, List.take_append_drop]
      rw [hpl, hsplit, ih fuel (pre ++ rest.take 16) (rest.drop 16) (encPre ++ E (rest.take 16))
        (encRest.drop 16) (by simp; omega) (by simp; omega) (by simp; omega) (by simp; omega)
        (by simp; omega) (by omega)]
      simp [ecbBlocks]

theorem ecbDecryptLoop_spec (D : Bytes → Bytes)
    (hD : ∀ b, b.length = 16 → (D b).length = 16) :
    ∀ (r fuel : Nat) (pre rest decPre decRest : Bytes),
      decPre.length = pre.length → decRest.length = rest.length →
      rest.length = 16 * r → r ≤ fuel →
      ecbDecryptLoop D (pre ++ rest) fuel pre.length (decPre ++ decRest) =
        .ok (decPre ++ ecbBlocks D r rest) := by
  intro r
  induction r with
  | zero =>
    intro fuel pre rest decPre decRest h1 h2 h3 _
    have hr : rest = [] := List.length_eq_zero.mp (by omega)
    have he : decRest = [] := List.length_eq_zero.mp (by omega)
    subst hr he
    cases fuel with
    | zero => simp [ecbDecryptLoop, ecbBlocks]
    | succ fuel =>
      unfold ecbDecryptLoop
      rw [if_neg (by simp)]
      simp [ecbBlocks]
  | succ r ih =>
    intro fuel pre rest decPre decRest h1 h2 h3 hf
    cases fuel with
    | zero => omega
    | succ fuel =>
      unfold ecbDecryptLoop
      rw [if_pos (by simp; omega)]
      rw [slice_ok _ _ _ (by omega) (by simp; omega)]
      simp only
      rw [slice_ok _ _ _ (by omega) (by simp; omega)]
      simp only
      have hblk : (List.drop pre.length (pre ++ rest)).take (pre.length + 16 - pre.length) =
          rest.take 16 := by
        rw [List.drop_left']
        · congr 1; omega
        · rfl
      rw [hblk]
      have hDl : (D (rest.take 16)).length = 16 := hD _ (by simp; omega)
      have hset : setSlice (decPre ++ decRest) pre.length (D (rest.take 16)) =
          (decPre ++ D (rest.take 16)) ++ decRest.drop 16 := by
        rw [← h1, setSlice_append _ _ _, hDl]
      rw [hset]
      have hpl : pre.length + 16 = (pre ++ rest.take 16).length := by simp; omega
      have hsplit : pre ++ rest = (pre ++ rest.take 16) ++ rest.drop 16 := by
        rw [List.append_assoc, List.take_append_drop]
      rw [hpl, hsplit, ih fuel (pre ++ rest.take 16) (rest.drop 16) (decPre ++ D (rest.take 16))
        (decRest.drop 16) (by simp; omega) (by simp; omega) (by simp; omega) (by omega)]
      simp [ecbBlocks]

theorem ecbBlocks_length (f : Bytes → Bytes) (hf : ∀ b, b.length = 16 → (f b).length = 16) :
    ∀ (n : Nat) (s : Bytes), s.length = 16 * n → (ecbBlocks f n s).length = 16 * n := by
  intro n
  induction n with
  | zero => intro s _; rfl
  | succ n ih =>
    intro s hs
    simp only [ecbBlocks, List.length_append]
    rw [hf _ (by simp; omega), ih _ (by simp; omega)]
    omega

theorem ecbBlocks_inverse (E D : Bytes → Bytes)
    (hE : ∀ b, b.length = 16 → (E b).length = 16)
    (hDE : ∀ b, b.length = 16 → D (E b) = b) :
    ∀ (n : Nat) (s : Bytes), s.length = 16 * n → ecbBlocks D n (ecbBlocks E n s) = s := by
  intro n
  induction n with
  | zero =>
    intro s hs
    have : s = [] := List.length_eq_zero.mp (by omega)
    subst this; rfl
  | succ n ih =>
    intro s hs
    have hEl : (E (s.take 16)).length = 16 := hE _ (by simp; omega)
    simp only [ecbBlocks]
    rw [List.take_left' hEl, List.drop_left' hEl, hDE _ (by simp; omega),
      ih _ (by simp; omega), List.take_append_drop]

theorem aesNewCipher_generateKeys (k : Bytes) :
    aesNewCipher (generateKeys k) = .ok (generateKeys k) := by
  unfold aesNewCipher
  rw [if_pos (show aesValidKey (generateKeys k) from Or.inl (generateKeys_length k))]

theorem aesValidKey_generateKeys (k : Bytes) : aesValidKey (generateKeys k) :=
  Or.inl (generateKeys_length k)

/-- The closed form of `AESEncryptECBStr` on a non-empty source: the upper-case hex
encoding of the PKCS#7-padded source with every block encrypted. -/
theorem AESEncryptECBStr_eq (P : BlockPrim) (hP : P.Lawful 16 aesValidKey)
    (s k : Bytes) (hs : s ≠ []) :
    AESEncryptECBStr P s k = .ok (toUpper (hexEncode
      (ecbBlocks (P.encrypt (generateKeys k)) (s.length / 16 + 1) (ecbPlain s)))) := by
  have hpl : (ecbPlain s).length = 16 * (s.length / 16 + 1) := by
    rw [ecbPlain_eq_pkcs7Padding, pkcs7Padding_length s 16 (by omega)]; ring
  have hE : ∀ b : Bytes, b.length = 16 → (P.encrypt (generateKeys k) b).length = 16 :=
    fun b hb => hP.encrypt_length _ b (aesValidKey_generateKeys k) hb
  have hloop := ecbEncryptLoop_spec (P.encrypt (generateKeys k)) s hE (s.length / 16 + 1)
    (s.length + 1) [] (ecbPlain s) [] (makeBytes (ecbPlain s).length) rfl
    (by simp [makeBytes]) hpl (by simp [hpl]) rfl (by omega)
  simp only [List.nil_append, List.length_nil] at hloop
  unfold AESEncryptECBStr
  rw [if_neg hs]
  simp only [aesNewCipher_generateKeys, hloop]

/-- The closed form of `AESDecryptECBStr` on the hex encoding of `n >= 1` blocks. -/
theorem AESDecryptECBStr_eq (P : BlockPrim) (hP : P.Lawful 16 aesValidKey)
    (x k : Bytes) (n : Nat) (hx : x.length = 16 * n) (hn : 1 ≤ n) :
    AESDecryptECBStr P (toUpper (hexEncode x)) k =
      (let decrypted := ecbBlocks (P.decrypt (generateKeys k)) n x
       if (decrypted.getD (decrypted.length - 1) 0).val ≤ decrypted.length then
         .ok (decrypted.take (decrypted.length - (decrypted.getD (decrypted.length - 1) 0).val))
       else .error .sliceBounds) := by
  have hD : ∀ b : Bytes, b.length = 16 → (P.decrypt (generateKeys k) b).length = 16 :=
    fun b hb => hP.decrypt_length _ b (aesValidKey_generateKeys k) hb
  have hloop := ecbDecryptLoop_spec (P.decrypt (generateKeys k)) hD n x.length [] x []
    (makeBytes x.length) rfl (by simp [makeBytes]) hx (by omega)
  simp only [List.nil_append, List.length_nil] at hloop
  have hne : toUpper (hexEncode x) ≠ [] := by
    intro h
    have := congrArg List.length h
    rw [toUpper_length, hexEncode_length, List.length_nil] at this
    omega
  have hdl : 0 < (ecbBlocks (P.decrypt (generateKeys k)) n x).length := by
    rw [ecbBlocks_length _ hD n x hx]; omega
  unfold AESDecryptECBStr
  rw [if_neg hne]
  simp only [hexDecode_toUpper_hexEncode, aesNewCipher_generateKeys, hloop, hdl, if_true]

theorem ecb_roundtrip_aux (P : BlockPrim) (hP : P.Lawful 16 aesValidKey) (s k : Bytes) :
    ∃ c, AESEncryptECBStr P s k = .ok c ∧ AESDecryptECBStr P c k = .ok s := by
  by_cases hs : s = []
  · subst hs
    exact ⟨[], rfl, rfl⟩
  · refine ⟨_, AESEncryptECBStr_eq P hP s k hs, ?_⟩
    have hpl : (ecbPlain s).length = 16 * (s.length / 16 + 1) := by
      rw [ecbPlain_eq_pkcs7Padding, pkcs7Padding_length s 16 (by omega)]; ring
    have hE : ∀ b : Bytes, b.length = 16 → (P.encrypt (generateKeys k) b).length = 16 :=
      fun b hb => hP.encrypt_length _ b (aesValidKey_generateKeys k) hb
    have hDE : ∀ b : Bytes, b.length = 16 →
        P.decrypt (generateKeys k) (P.encrypt (generateKeys k) b) = b :=
      fun b hb => hP.decrypt_encrypt _ b (aesValidKey_generateKeys k) hb
    rw [AESDecryptECBStr_eq P hP _ k (s.length / 16 + 1)
      (ecbBlocks_length _ hE _ _ hpl) (by omega)]
    simp only
    rw [ecbBlocks_inverse _ _ hE hDE _ _ hpl, ecbPlain_eq_pkcs7Padding, pkcs7Padding_eq]
    obtain ⟨hN1, hN2⟩ := pad_count_bounds s.length 16 (by omega)
    generalize 16 - s.length % 16 = N at *
    rw [padded_last s N _ hN1, toByte_val_of_lt (by omega), padded_take,
      if_pos (by simp)]

theorem demoPrim_lawful (bs : Nat) (valid : Bytes → Prop) : demoPrim.Lawful bs valid where
  encrypt_length := by intro k b _ hb; simp [demoPrim, hb]
  decrypt_length := by intro k b _ hb; simp [demoPrim, hb]
  decrypt_encrypt := by
    intro k b _ _
    simp only [demoPrim, List.reverse_reverse, List.map_map]
    have : ((fun x => bxor x (k.getD 0 0)) ∘ fun x => bxor x (k.getD 0 0)) = id := by
      funext x; simp [bxor_cancel_right]
    rw [this, List.map_id]

theorem AESEncryptECBStr_congr (P : BlockPrim) (s k1 k2 : Bytes)
    (h : generateKeys k1 = generateKeys k2) :
    AESEncryptECBStr P s k1 = AESEncryptECBStr P s k2 := by
  simp only [AESEncryptECBStr, h]

theorem AESDecryptECBStr_congr (P : BlockPrim) (c k1 k2 : Bytes)
    (h : generateKeys k1 = generateKeys k2) :
    AESDecryptECBStr P c k1 = AESDecryptECBStr P c k2 := by
  simp only [AESDecryptECBStr, h]

/-- C2: AES-ECB round trip. For every block cipher that meets the contract, every
plaintext `s` (the empty one and the block-aligned ones included) and every key string `k`
of any length, `AESEncryptECBStr(s, k)` returns a string without a panic, and
`AESDecryptECBStr` of that string under `k` returns `s`. -/
theorem aes_ecb_roundtrip (P : BlockPrim) (hP : P.Lawful 16 aesValidKey) (s k : Bytes) :
    ∃ c, AESEncryptECBStr P s k = .ok c ∧ AESDecryptECBStr P c k = .ok s :=
  ecb_roundtrip_aux P hP s k

/-- Witness of C2: a 16-byte plaintext under a 3-byte key. -/
theorem aes_ecb_roundtrip_witness :
    demoPrim.Lawful 16 aesValidKey ∧
    ∃ c, AESEncryptECBStr demoPrim (List.replicate 16 65) [1, 2, 3] = .ok c ∧
      AESDecryptECBStr demoPrim c [1, 2, 3] = .ok (List.replicate 16 65) :=
  ⟨demoPrim_lawful _ _,
    aes_ecb_roundtrip demoPrim (demoPrim_lawful _ _) (List.replicate 16 65) [1, 2, 3]⟩

/-- C7: key folding. A 32-byte key `k` and the 16-byte key `f` with `f[j] = k[j] XOR k[j+16]`
give the same `AESEncryptECBStr` result on every plaintext; `generateKeys` is idempotent;
for every key, the key and its folded form `generateKeys(k)` give the same encryption and
the same decryption on every input, and each decrypts what the other encrypted. -/
theorem ecb_key_folding (P : BlockPrim) (hP : P.Lawful 16 aesValidKey) (s k : Bytes) :
    (k.length = 32 → AESEncryptECBStr P s k = AESEncryptECBStr P s
      ((List.range 16).map (fun j => bxor (k.getD j 0) (k.getD (j + 16) 0)))) ∧
    generateKeys (generateKeys k) = generateKeys k ∧
    AESEncryptECBStr P s (generateKeys k) = AESEncryptECBStr P s k ∧
    (∀ c, AESDecryptECBStr P c (generateKeys k) = AESDecryptECBStr P c k) ∧
    (∃ c, AESEncryptECBStr P s k = .ok c ∧ AESDecryptECBStr P c (generateKeys k) = .ok s) ∧
    (∃ c, AESEncryptECBStr P s (generateKeys k) = .ok c ∧ AESDecryptECBStr P c k = .ok s) := by
  refine ⟨fun hk => ?_, generateKeys_idem k,
    AESEncryptECBStr_congr P s _ _ (generateKeys_idem k),
    fun c => AESDecryptECBStr_congr P c _ _ (generateKeys_idem k), ?_, ?_⟩
  · apply AESEncryptECBStr_congr
    rw [← generateKeys_thirtyTwo k hk, generateKeys_idem]
  · obtain ⟨c, h1, h2⟩ := ecb_roundtrip_aux P hP s k
    exact ⟨c, h1, by rw [AESDecryptECBStr_congr P c _ _ (generateKeys_idem k)]; exact h2⟩
  · obtain ⟨c, h1, h2⟩ := ecb_roundtrip_aux P hP s k
    exact ⟨c, by rw [AESEncryptECBStr_congr P s _ _ (generateKeys_idem k)]; exact h1, h2⟩

/-- Witness of C7: the 32-byte key `0, 1, .., 31` and the plaintext `A`. -/
theorem ecb_key_folding_witness :
    demoPrim.Lawful 16 aesValidKey ∧ ((List.range 32).map toByte).length = 32 ∧
    AESEncryptECBStr demoPrim [65] ((List.range 32).map toByte) =
      AESEncryptECBStr demoPrim [65] ((List.range 16).map (fun j =>
        bxor (((List.range 32).map toByte).getD j 0)
          (((List.range 32).map toByte).getD (j + 16) 0))) :=
  ⟨demoPrim_lawful _ _, by decide,
    (ecb_key_folding demoPrim (demoPrim_lawful _ _) [65] ((List.range 32).map toByte)).1
      (by decide)⟩

/-- C8: the ECB padding is PKCS#7. For every non-empty plaintext `src`, the buffer that
`AESEncryptECBStr` encrypts equals `pkcs7Padding(src, 16)`; when `len(src)` is a multiple
of 16 this is `src` followed by sixteen bytes `0x10`; every one of the
`floor(len(src)/16) + 1` blocks of that buffer is encrypted; and the output consists of
`32 * (floor(len(src)/16) + 1)` characters, each an upper-case hexadecimal digit. -/
theorem ecb_padding_is_pkcs7 (P : BlockPrim) (hP : P.Lawful 16 aesValidKey)
    (src k : Bytes) (hs : src ≠ []) :
    ecbPlain src = pkcs7Padding src 16 ∧
    (src.length % 16 = 0 → ecbPlain src = src ++ List.replicate 16 16) ∧
    ecbEncryptLoop (P.encrypt (generateKeys k)) src (ecbPlain src) (src.length + 1) 0
        (makeBytes (ecbPlain src).length) =
      .ok (ecbBlocks (P.encrypt (generateKeys k)) (src.length / 16 + 1)
        (pkcs7Padding src 16)) ∧
    AESEncryptECBStr P src k = .ok (toUpper (hexEncode
      (ecbBlocks (P.encrypt (generateKeys k)) (src.length / 16 + 1)
        (pkcs7Padding src 16)))) ∧
    (toUpper (hexEncode (ecbBlocks (P.encrypt (generateKeys k)) (src.length / 16 + 1)
        (pkcs7Padding src 16)))).length = 32 * (src.length / 16 + 1) ∧
    ∀ c ∈ toUpper (hexEncode (ecbBlocks (P.encrypt (generateKeys k)) (src.length / 16 + 1)
        (pkcs7Padding src 16))),
      (48 ≤ c.val ∧ c.val ≤ 57) ∨ (65 ≤ c.val ∧ c.val ≤ 70) := by
  have hpl : (ecbPlain src).length = 16 * (src.length / 16 + 1) := by
    rw [ecbPlain_eq_pkcs7Padding, pkcs7Padding_length src 16 (by omega)]; ring
  have hE : ∀ b : Bytes, b.length = 16 → (P.encrypt (generateKeys k) b).length = 16 :=
    fun b hb => hP.encrypt_length _ b (aesValidKey_generateKeys k) hb
  have hloop := ecbEncryptLoop_spec (P.encrypt (generateKeys k)) src hE (src.length / 16 + 1)
    (src.length + 1) [] (ecbPlain src) [] (makeBytes (ecbPlain src).length) rfl
    (by simp [makeBytes]) hpl (by simp [hpl]) rfl (by omega)
  simp only [List.nil_append, List.length_nil] at hloop
  refine ⟨ecbPlain_eq_pkcs7Padding src, fun hm => ?_, ?_, ?_, ?_, toUpper_hexEncode_digits _⟩
  · rw [ecbPlain_eq_pkcs7Padding, pkcs7Padding_eq, hm]; rfl
  · rw [hloop, ecbPlain_eq_pkcs7Padding]
  · rw [AESEncryptECBStr_eq P hP src k hs, ecbPlain_eq_pkcs7Padding]
  · rw [toUpper_length, hexEncode_length, ecbBlocks_length _ hE _ _
      (by rw [← ecbPlain_eq_pkcs7Padding]; exact hpl)]
    ring

/-- Witness of C8: the 16-byte plaintext of sixteen `A` under a 3-byte key. -/
theorem ecb_padding_is_pkcs7_witness :
    demoPrim.Lawful 16 aesValidKey ∧ (List.replicate 16 65 : Bytes) ≠ [] ∧
    ecbPlain (List.replicate 16 65) = List.replicate 16 65 ++ List.replicate 16 16 :=
  ⟨demoPrim_lawful _ _, by decide,
    (ecb_padding_is_pkcs7 demoPrim (demoPrim_lawful _ _) (List.replicate 16 65) [1, 2, 3]
      (by decide)).2.1 (by decide)⟩

/-! ### `encoding/base64` -/

theorem std_decodeMap_encodeChar (i : Fin 64) :
    StdEncoding.decodeMap (StdEncoding.encodeChar i.val) = some i.val := by
  revert i; decide

theorem std_decodeMap_encodeChar_mod (n : Nat) :
    StdEncoding.decodeMap (StdEncoding.encodeChar (n % 64)) = some (n % 64) :=
  std_decodeMap_encodeChar ⟨n % 64, Nat.mod_lt _ (by decide)⟩

theorem std_decodeMap_pad : StdEncoding.decodeMap 61 = none := by decide

theorem std_padChar : StdEncoding.padChar = some 61 := rfl

theorem assemble_three (a b c : Byte) :
    assemble [(a.val * 65536 + b.val * 256 + c.val) / 262144 % 64,
      (a.val * 65536 + b.val * 256 + c.val) / 4096 % 64,
      (a.val * 65536 + b.val * 256 + c.val) / 64 % 64,
      (a.val * 65536 + b.val * 256 + c.val) % 64] 4 = [a, b, c] := by
  simp only [assemble, List.getD_cons_zero, List.getD_cons_succ, toByte]
  have ha := a.isLt
  have hb := b.isLt
  have hc := c.isLt
  simp only [Nat.add_one_sub_one, List.take_succ_cons, List.take_zero, List.cons.injEq, and_true]
  refine ⟨?_, ?_, ?_⟩ <;> (apply Fin.ext; simp only; omega)

theorem assemble_two (a b : Byte) :
    assemble [(a.val * 65536 + b.val * 256) / 262144 % 64,
      (a.val * 65536 + b.val * 256) / 4096 % 64,
      (a.val * 65536 + b.val * 256) / 64 % 64] 3 = [a, b] := by
  simp only [assemble, List.getD_cons_zero, List.getD_cons_succ, List.getD_nil, toByte]
  have ha := a.isLt
  have hb := b.isLt
  simp only [Nat.add_one_sub_one, List.take_succ_cons, List.take_zero, List.cons.injEq, and_true]
  refine ⟨?_, ?_⟩ <;> (apply Fin.ext; simp only; omega)

theorem assemble_one (a : Byte) :
    assemble [(a.val * 65536) / 262144 % 64, (a.val * 65536) / 4096 % 64] 2 = [a] := by
  simp only [assemble, List.getD_cons_zero, List.getD_cons_succ, List.getD_nil, toByte]
  have ha := a.isLt
  simp only [Nat.add_one_sub_one, List.take_succ_cons, List.take_zero, List.cons.injEq, and_true]
  apply Fin.ext; simp only; omega

theorem std_decodeLoop_encode :
    ∀ (n : Nat) (x : Bytes), x.length ≤ n →
      StdEncoding.decodeLoop (StdEncoding.encode x) [] = (x, none) := by
  intro n
  induction n using Nat.strong_induction_on with
  | _ n ih =>
    intro x hx
    match x, hx with
    | [], _ => rfl
    | [a], _ =>
      simp only [Encoding.encode, Encoding.padding, std_padChar, List.replicate,
        List.cons_append, List.nil_append]
      simp only [Encoding.decodeLoop, std_decodeMap_encodeChar_mod, std_decodeMap_pad,
        std_padChar, skipNewlines, List.length_nil, List.length_cons, List.nil_append,
        List.cons_append]
      simp [assemble_one, skipNewlines]
    | [a, b], _ =>
      simp only [Encoding.encode, Encoding.padding, std_padChar, List.replicate,
        List.cons_append, List.nil_append]
      simp only [Encoding.decodeLoop, std_decodeMap_encodeChar_mod, std_decodeMap_pad,
        std_padChar, skipNewlines, List.length_nil, List.length_cons, List.nil_append,
        List.cons_append]
      simp [assemble_two]
    | a :: b :: c :: rest, hx =>
      have hrest := ih (n - 3) (by simp at hx; omega) rest (by simp at hx; omega)
      simp only [Encoding.encode, List.cons_append, List.nil_append]
      simp only [Encoding.decodeLoop, std_decodeMap_encodeChar_mod, List.length_nil,
        List.length_cons, List.nil_append, List.cons_append, hrest]
      simp [assemble_three]

theorem std_decode_encode (x : Bytes) : StdEncoding.decode (StdEncoding.encode x) = (x, none) :=
  std_decodeLoop_encode x.length x (le_refl _)

theorem std_encodeChar_range (i : Fin 64) :
    32 < (StdEncoding.encodeChar i.val).val ∧ (StdEncoding.encodeChar i.val).val < 128 := by
  revert i; decide

theorem std_encodeChar_range_mod (n : Nat) :
    32 < (StdEncoding.encodeChar (n % 64)).val ∧ (StdEncoding.encodeChar (n % 64)).val < 128 :=
  std_encodeChar_range ⟨n % 64, Nat.mod_lt _ (by decide)⟩

theorem std_encode_range :
    ∀ (n : Nat) (x : Bytes), x.length ≤ n →
      ∀ c ∈ StdEncoding.encode x, 32 < c.val ∧ c.val < 128 := by
  intro n
  induction n using Nat.strong_induction_on with
  | _ n ih =>
    intro x hx
    match x, hx with
    | [], _ => intro c hc; simp [Encoding.encode] at hc
    | [a], _ =>
      intro c hc
      simp only [Encoding.encode, Encoding.padding, std_padChar, List.replicate,
        List.cons_append, List.nil_append, List.mem_cons, List.mem_nil_iff, or_false] at hc
      rcases hc with h | h | h | h
      · rw [h]; exact std_encodeChar_range_mod _
      · rw [h]; exact std_encodeChar_range_mod _
      · rw [h]; decide
      · rw [h]; decide
    | [a, b], _ =>
      intro c hc
      simp only [Encoding.encode, Encoding.padding, std_padChar, List.replicate,
        List.cons_append, List.nil_append, List.mem_cons, List.mem_nil_iff, or_false] at hc
      rcases hc with h | h | h | h
      · rw [h]; exact std_encodeChar_range_mod _
      · rw [h]; exact std_encodeChar_range_mod _
      · rw [h]; exact std_encodeChar_range_mod _
      · rw [h]; decide
    | a :: b :: c :: rest, hx =>
      intro d hd
      have hrest := ih (n - 3) (by simp at hx; omega) rest (by simp at hx; omega)
      simp only [Encoding.encode, List.cons_append, List.nil_append, List.mem_cons] at hd
      rcases hd with h | h | h | h | h
      · rw [h]; exact std_encodeChar_range_mod _
      · rw [h]; exact std_encodeChar_range_mod _
      · rw [h]; exact std_encodeChar_range_mod _
      · rw [h]; exact std_encodeChar_range_mod _
      · exact hrest d h

theorem std_encode_ne_nil (x : Bytes) (hx : x ≠ []) : StdEncoding.encode x ≠ [] := by
  match x, hx with
  | [a], _ => simp [Encoding.encode]
  | [a, b], _ => simp [Encoding.encode]
  | a :: b :: c :: rest, _ => simp [Encoding.encode]

/-! ### `strings.TrimSpace` -/

theorem spaceRunes_head :
    ∀ r ∈ spaceRunes, r ≠ [] ∧ ((r.headD 0).val ≤ 32 ∨ 128 ≤ (r.headD 0).val) := by
  decide

theorem spaceRunes_last :
    ∀ r ∈ spaceRunes, r.reverse ≠ [] ∧
      ((r.reverse.headD 0).val ≤ 32 ∨ 128 ≤ (r.reverse.headD 0).val) := by
  decide

theorem startsWith_cons_cons (c d : Byte) (s r : Bytes) (h : startsWith (c :: s) (d :: r) = true) :
    c = d := by
  simp only [startsWith, Bool.and_eq_true, beq_iff_eq] at h
  exact h.1

theorem trimLeft_of_head (fuel : Nat) (c : Byte) (rest : Bytes)
    (hc : 32 < c.val ∧ c.val < 128) : trimLeft fuel (c :: rest) = c :: rest := by
  cases fuel with
  | zero => rfl
  | succ fuel =>
    unfold trimLeft
    have hnone : spaceRunes.find? (fun r => startsWith (c :: rest) r) = none := by
      rw [List.find?_eq_none]
      intro r hr hs
      have := spaceRunes_head r hr
      match r, this with
      | [], hd => exact hd.1 rfl
      | d :: r', hd =>
        have hcd := startsWith_cons_cons c d rest r' hs
        subst hcd
        have := hd.2
        simp only [List.headD_cons] at this
        omega
    rw [hnone]

theorem trimRightRev_of_head (fuel : Nat) (c : Byte) (rest : Bytes)
    (hc : 32 < c.val ∧ c.val < 128) : trimRightRev fuel (c :: rest) = c :: rest := by
  cases fuel with
  | zero => rfl
  | succ fuel =>
    unfold trimRightRev
    have hnone : spaceRunes.find? (fun r => startsWith (c :: rest) r.reverse) = none := by
      rw [List.find?_eq_none]
      intro r hr hs
      have := spaceRunes_last r hr
      generalize r.reverse = q at this hs
      match q, this with
      | [], hd => exact hd.1 rfl
      | d :: r', hd =>
        have hcd := startsWith_cons_cons c d rest r' hs
        subst hcd
        have := hd.2
        simp only [List.headD_cons] at this
        omega
    rw [hnone]

theorem trimSpace_of_range (s : Bytes) (h : ∀ c ∈ s, 32 < c.val ∧ c.val < 128) :
    trimSpace s = s := by
  unfold trimSpace
  cases s with
  | nil => rfl
  | cons c rest =>
    simp only
    rw [trimLeft_of_head _ c rest (h c (by simp))]
    cases hrev : (c :: rest).reverse with
    | nil => simp at hrev
    | cons d q =>
      have hd : d ∈ c :: rest := by
        rw [← List.mem_reverse, hrev]; simp
      rw [trimRightRev_of_head _ d q (h d hd), ← hrev, List.reverse_reverse]

theorem trimSpace_std_encode (x : Bytes) : trimSpace (StdEncoding.encode x) = StdEncoding.encode x :=
  trimSpace_of_range _ (std_encode_range x.length x (le_refl _))

/-! ### CBC and CFB -/

theorem cbc_roundtrip (E D : Bytes → Bytes) (bs : Nat) (hbs : 0 < bs)
    (hE : ∀ b, b.length = bs → (E b).length = bs)
    (hDE : ∀ b, b.length = bs → D (E b) = b) :
    ∀ (n fuel1 fuel2 : Nat) (iv src : Bytes), iv.length = bs → src.length = bs * n →
      n ≤ fuel1 → n ≤ fuel2 →
      (cbcEncryptLoop E bs fuel1 iv src).length = bs * n ∧
      cbcDecryptLoop D bs fuel2 iv (cbcEncryptLoop E bs fuel1 iv src) = src := by
  intro n
  induction n with
  | zero =>
    intro fuel1 fuel2 iv src _ hsrc _ _
    have hs : src = [] := List.length_eq_zero.mp (by omega)
    subst hs
    have he : cbcEncryptLoop E bs fuel1 iv [] = [] := by
      cases fuel1 <;> simp [cbcEncryptLoop]
    rw [he]
    cases fuel2 <;> simp [cbcDecryptLoop]
  | succ n ih =>
    intro fuel1 fuel2 iv src hiv hsrc h1 h2
    have hmul : bs * (n + 1) = bs * n + bs := by ring
    cases fuel1 with
    | zero => omega
    | succ fuel1 =>
      cases fuel2 with
      | zero => omega
      | succ fuel2 =>
        have hpos : 0 < src.length := by omega
        have htake : (src.take bs).length = bs := by simp; omega
        have hxl : (xorBytes (src.take bs) iv).length = bs := by
          rw [xorBytes_length, htake, hiv]; simp
        have hcl : (E (xorBytes (src.take bs) iv)).length = bs := hE _ hxl
        obtain ⟨ihl, ihd⟩ := ih fuel1 fuel2 (E (xorBytes (src.take bs) iv)) (src.drop bs) hcl
          (by simp; omega) (by omega) (by omega)
        have henc : cbcEncryptLoop E bs (fuel1 + 1) iv src =
            E (xorBytes (src.take bs) iv) ++
              cbcEncryptLoop E bs fuel1 (E (xorBytes (src.take bs) iv)) (src.drop bs) := by
          simp only [cbcEncryptLoop, hpos, if_true]
        rw [henc]
        constructor
        · rw [List.length_append, hcl, ihl]; omega
        · have hpos2 : 0 < (E (xorBytes (src.take bs) iv) ++
              cbcEncryptLoop E bs fuel1 (E (xorBytes (src.take bs) iv)) (src.drop bs)).length := by
            rw [List.length_append, hcl]; omega
          simp only [cbcDecryptLoop, hpos2, if_true]
          rw [List.take_left' hcl, List.drop_left' hcl, hDE _ hxl,
            xorBytes_cancel _ _ (by rw [htake, hiv]), ihd, List.take_append_drop]

theorem copy_length (dst src : Bytes) : (copy dst src).length = dst.length := by
  simp only [copy, List.length_append, List.length_take, List.length_drop]
  omega

theorem cfbEncryptLoop_nil (E : Bytes → Bytes) (bs fuel : Nat) (next : Bytes) :
    cfbEncryptLoop E bs fuel next [] = [] := by
  cases fuel <;> simp [cfbEncryptLoop]

theorem cfbDecryptLoop_nil (E : Bytes → Bytes) (bs fuel : Nat) (next : Bytes) :
    cfbDecryptLoop E bs fuel next [] = [] := by
  cases fuel <;> simp [cfbDecryptLoop]

theorem cfb_roundtrip (E : Bytes → Bytes) (bs : Nat) (hbs : 0 < bs)
    (hE : ∀ b, b.length = bs → (E b).length = bs) :
    ∀ (fuel1 fuel2 : Nat) (next src : Bytes), next.length = bs →
      src.length ≤ fuel1 → src.length ≤ fuel2 →
      (cfbEncryptLoop E bs fuel1 next src).length = src.length ∧
      cfbDecryptLoop E bs fuel2 next (cfbEncryptLoop E bs fuel1 next src) = src := by
  intro fuel1
  induction fuel1 with
  | zero =>
    intro fuel2 next src _ h1 _
    have hs : src = [] := List.length_eq_zero.mp (by omega)
    subst hs
    simp [cfbEncryptLoop, cfbDecryptLoop_nil]
  | succ fuel1 ih =>
    intro fuel2 next src hnext h1 h2
    by_cases hs : src = []
    · subst hs
      simp [cfbEncryptLoop, cfbDecryptLoop_nil]
    · have hpos : 0 < src.length := List.length_pos.mpr hs
      cases fuel2 with
      | zero => omega
      | succ fuel2 =>
        have hout : (E next).length = bs := hE _ hnext
        have hcl : (xorBytes (src.take bs) (E next)).length = min src.length bs := by
          rw [xorBytes_length, hout, List.length_take]; omega
        have hnl : (copy next (xorBytes (src.take bs) (E next))).length = bs := by
          rw [copy_length, hnext]
        obtain ⟨ihl, ihd⟩ := ih fuel2 (copy next (xorBytes (src.take bs) (E next)))
          (src.drop bs) hnl (by simp; omega) (by simp; omega)
        have henc : cfbEncryptLoop E bs (fuel1 + 1) next src =
            xorBytes (src.take bs) (E next) ++
              cfbEncryptLoop E bs fuel1 (copy next (xorBytes (src.take bs) (E next)))
                (src.drop bs) := by
          simp only [cfbEncryptLoop, hpos, if_true]
        rw [henc]
        constructor
        · rw [List.length_append, hcl, ihl, List.length_drop]; omega
        · have hpos2 : 0 < (xorBytes (src.take bs) (E next) ++
              cfbEncryptLoop E bs fuel1 (copy next (xorBytes (src.take bs) (E next)))
                (src.drop bs)).length := by
            rw [List.length_append, hcl]; omega
          simp only [cfbDecryptLoop, hpos2, if_true]
          have hcancel : xorBytes (xorBytes (src.take bs) (E next)) (E next) = src.take bs :=
            xorBytes_cancel _ _ (by rw [hout, List.length_take]; omega)
          by_cases hlong : bs ≤ src.length
          · have hcl2 : (xorBytes (src.take bs) (E next)).length = bs := by rw [hcl]; omega
            rw [List.take_left' hcl2, List.drop_left' hcl2, hcancel, ihd, List.take_append_drop]
          · have hdrop : src.drop bs = [] := List.drop_of_length_le (by omega)
            rw [hdrop, cfbEncryptLoop_nil, List.append_nil,
              List.take_of_length_le (by rw [hcl]; omega),
              List.drop_of_length_le (by rw [hcl]; omega), hcancel, cfbDecryptLoop_nil,
              List.append_nil, List.take_of_length_le (by omega)]

theorem cbcEncryptLoop_length (E D : Bytes → Bytes) (bs : Nat) (hbs : 0 < bs)
    (hE : ∀ b, b.length = bs → (E b).length = bs)
    (hDE : ∀ b, b.length = bs → D (E b) = b)
    (n fuel1 : Nat) (iv src : Bytes) (hiv : iv.length = bs) (hsrc : src.length = bs * n)
    (h1 : n ≤ fuel1) : (cbcEncryptLoop E bs fuel1 iv src).length = bs * n :=
  (cbc_roundtrip E D bs hbs hE hDE n fuel1 n iv src hiv hsrc h1 (le_refl _)).1

/-! ### AES in CBC mode -/

theorem aesNewCipher_ok (key : Bytes) (h : aesValidKey key) : aesNewCipher key = .ok key := by
  unfold aesNewCipher
  rw [if_pos h]

theorem readFull_ok (rnd : Bytes) (n : Nat) (h : n ≤ rnd.length) :
    readFull rnd n = .ok (rnd.take n) := by
  unfold readFull
  rw [if_neg (by omega)]

/-- The result of `Encrypt` on a context without error, with a valid key and a random source
that delivers 16 bytes: the base64 encoding of the IV followed by the CBC encryption of the
padded plaintext; the context is unchanged. -/
theorem AESCBCMode.Encrypt_ok (P : BlockPrim) (a : AESCBCMode) (rnd pt : Bytes)
    (hkey : aesValidKey a.Key) (herr : a.Err = none) (hrnd : 16 ≤ rnd.length) :
    a.Encrypt P rnd pt =
      (StdEncoding.encode (rnd.take 16 ++ cbcEncryptLoop (P.encrypt a.Key) 16
        (pkcs7Padding pt 16).length (rnd.take 16) (pkcs7Padding pt 16)), a) := by
  unfold AESCBCMode.Encrypt
  have hm : ¬ ((pkcs7Padding pt 16).length % 16 ≠ 0) := by
    rw [pkcs7Padding_length_mod pt 16 (by omega)]; simp
  simp only [herr, ne_eq, not_true_eq_false, if_false, hm, aesNewCipher_ok _ hkey,
    readFull_ok rnd 16 hrnd]

theorem AESCBCMode.Decrypt_Encrypt (P : BlockPrim) (hP : P.Lawful 16 aesValidKey)
    (a : AESCBCMode) (rnd pt : Bytes)
    (hkey : aesValidKey a.Key) (herr : a.Err = none) (hrnd : 16 ≤ rnd.length) :
    a.Decrypt P (a.Encrypt P rnd pt).1 = (pt, a) := by
  rw [AESCBCMode.Encrypt_ok P a rnd pt hkey herr hrnd]
  have hivl : (rnd.take 16).length = 16 := by simp; omega
  have hpl : (pkcs7Padding pt 16).length = 16 * (pt.length / 16 + 1) := by
    rw [pkcs7Padding_length pt 16 (by omega)]; ring
  have hcl := cbcEncryptLoop_length (P.encrypt a.Key) (P.decrypt a.Key) 16 (by omega)
    (fun b hb => hP.encrypt_length _ b hkey hb) (fun b hb => hP.decrypt_encrypt _ b hkey hb)
    (pt.length / 16 + 1) (pkcs7Padding pt 16).length (rnd.take 16) (pkcs7Padding pt 16)
    hivl hpl (by omega)
  have hcd := (cbc_roundtrip (P.encrypt a.Key) (P.decrypt a.Key) 16 (by omega)
    (fun b hb => hP.encrypt_length _ b hkey hb) (fun b hb => hP.decrypt_encrypt _ b hkey hb)
    (pt.length / 16 + 1) (pkcs7Padding pt 16).length
    (cbcEncryptLoop (P.encrypt a.Key) 16 (pkcs7Padding pt 16).length (rnd.take 16)
      (pkcs7Padding pt 16)).length
    (rnd.take 16) (pkcs7Padding pt 16) hivl hpl (by omega) (by rw [hcl]; omega)).2
  unfold AESCBCMode.Decrypt
  simp only [herr, ne_eq, not_true_eq_false, if_false, trimSpace_std_encode,
    std_decode_encode, aesNewCipher_ok _ hkey]
  have hlen : ¬ (rnd.take 16 ++ cbcEncryptLoop (P.encrypt a.Key) 16
      (pkcs7Padding pt 16).length (rnd.take 16) (pkcs7Padding pt 16)).length < 16 := by
    rw [List.length_append, hivl]; omega
  rw [if_neg hlen, List.take_left' hivl, List.drop_left' hivl]
  have hmod : ¬ ((cbcEncryptLoop (P.encrypt a.Key) 16 (pkcs7Padding pt 16).length
      (rnd.take 16) (pkcs7Padding pt 16)).length % 16 ≠ 0) := by
    rw [hcl]; simp
  rw [if_neg hmod]
  simp only [hcd, pkcs7UnPadding_padding pt 16 (by omega) (by omega)]

/-- Go `Decrypt` on a well-formed frame: the base64 encoding of a 16-byte IV followed by the
CBC encryption of `n` blocks `body`. The outcome is decided by `pkcs7UnPadding body`. -/
theorem AESCBCMode.Decrypt_frame (P : BlockPrim) (hP : P.Lawful 16 aesValidKey)
    (a : AESCBCMode) (iv body : Bytes) (n : Nat)
    (hkey : aesValidKey a.Key) (herr : a.Err = none) (hivl : iv.length = 16)
    (hbody : body.length = 16 * n) :
    a.Decrypt P (StdEncoding.encode
        (iv ++ cbcEncryptLoop (P.encrypt a.Key) 16 body.length iv body)) =
      match pkcs7UnPadding body with
      | .error p => ([], { a with Err := some (.runtime p) })
      | .ok none =>
        (StdEncoding.encode (iv ++ cbcEncryptLoop (P.encrypt a.Key) 16 body.length iv body),
          { a with Err := some .ciphertextNil })
      | .ok (some plain) => (plain, a) := by
  have hcl := cbcEncryptLoop_length (P.encrypt a.Key) (P.decrypt a.Key) 16 (by omega)
    (fun b hb => hP.encrypt_length _ b hkey hb) (fun b hb => hP.decrypt_encrypt _ b hkey hb)
    n body.length iv body hivl hbody (by omega)
  have hcd := (cbc_roundtrip (P.encrypt a.Key) (P.decrypt a.Key) 16 (by omega)
    (fun b hb => hP.encrypt_length _ b hkey hb) (fun b hb => hP.decrypt_encrypt _ b hkey hb)
    n body.length (cbcEncryptLoop (P.encrypt a.Key) 16 body.length iv body).length
    iv body hivl hbody (by omega) (by rw [hcl]; omega)).2
  unfold AESCBCMode.Decrypt
  simp only [herr, ne_eq, not_true_eq_false, if_false, trimSpace_std_encode,
    std_decode_encode, aesNewCipher_ok _ hkey]
  have hlen : ¬ (iv ++ cbcEncryptLoop (P.encrypt a.Key) 16 body.length iv body).length < 16 := by
    rw [List.length_append, hivl]; omega
  rw [if_neg hlen, List.take_left' hivl, List.drop_left' hivl]
  have hmod : ¬ ((cbcEncryptLoop (P.encrypt a.Key) 16 body.length iv body).length % 16 ≠ 0) := by
    rw [hcl]; simp
  rw [if_neg hmod]
  simp only [hcd]

/-- The recovered panic: for every lawful cipher and valid key there is an input on which
`Decrypt` records a run-time error and returns the empty string, which is neither the
input nor the trimmed input. -/
theorem AESCBCMode.Decrypt_panic_value (P : BlockPrim) (hP : P.Lawful 16 aesValidKey)
    (a : AESCBCMode) (hkey : aesValidKey a.Key) (herr : a.Err = none) :
    ∃ ct, a.Decrypt P ct = ([], { a with Err := some (.runtime .sliceBounds) }) ∧
      ct ≠ [] ∧ trimSpace ct ≠ [] := by
  refine ⟨StdEncoding.encode (List.replicate 16 0 ++ cbcEncryptLoop (P.encrypt a.Key) 16
    (List.replicate 16 (255 : Byte)).length (List.replicate 16 0) (List.replicate 16 255)),
    ?_, ?_, ?_⟩
  · rw [AESCBCMode.Decrypt_frame P hP a (List.replicate 16 0) (List.replicate 16 255) 1 hkey herr
      (by simp) (by simp)]
    rfl
  · apply std_encode_ne_nil
    simp
  · rw [trimSpace_std_encode]
    apply std_encode_ne_nil
    simp

/-- C1: AES-CBC round trip. For every block cipher that meets the contract, every context
with a key of 16, 24 or 32 bytes and no recorded error, every plaintext `pt` and every
random source that delivers 16 bytes, `Encrypt` leaves the context as it is, `Decrypt` of
the string `Encrypt` returned gives back `pt`, and `Err` is still nil afterwards. -/
theorem aes_cbc_roundtrip (P : BlockPrim) (hP : P.Lawful 16 aesValidKey)
    (a : AESCBCMode) (rnd pt : Bytes)
    (hkey : a.Key.length = 16 ∨ a.Key.length = 24 ∨ a.Key.length = 32)
    (herr : a.Err = none) (hrnd : 16 ≤ rnd.length) :
    (a.Encrypt P rnd pt).2 = a ∧
    ((a.Encrypt P rnd pt).2.Decrypt P (a.Encrypt P rnd pt).1).1 = pt ∧
    ((a.Encrypt P rnd pt).2.Decrypt P (a.Encrypt P rnd pt).1).2 = a ∧
    ((a.Encrypt P rnd pt).2.Decrypt P (a.Encrypt P rnd pt).1).2.Err = none := by
  have h1 : (a.Encrypt P rnd pt).2 = a := by
    rw [AESCBCMode.Encrypt_ok P a rnd pt hkey herr hrnd]
  have h2 := AESCBCMode.Decrypt_Encrypt P hP a rnd pt hkey herr hrnd
  rw [h1, h2]
  exact ⟨rfl, rfl, rfl, herr⟩

/-- Witness of C1: a 16-byte key, the plaintext `hello` and a random source delivering
`0, 1, .., 15`. -/
theorem aes_cbc_roundtrip_witness :
    demoPrim.Lawful 16 aesValidKey ∧
    (((⟨List.replicate 16 7, none, .nil⟩ : AESCBCMode).Encrypt demoPrim
        ((List.range 16).map toByte) [104, 101, 108, 108, 111]).2.Decrypt demoPrim
      ((⟨List.replicate 16 7, none, .nil⟩ : AESCBCMode).Encrypt demoPrim
        ((List.range 16).map toByte) [104, 101, 108, 108, 111]).1).1 =
      [104, 101, 108, 108, 111] :=
  ⟨demoPrim_lawful _ _,
    (aes_cbc_roundtrip demoPrim (demoPrim_lawful _ _) ⟨List.replicate 16 7, none, .nil⟩
      ((List.range 16).map toByte) [104, 101, 108, 108, 111] (Or.inl (by decide)) rfl
      (by decide)).2.1⟩

/-- C9: sticky error. On a context whose `Err` is non-nil, `Encrypt(x)` and `Decrypt(x)`
return `x` and leave the context (its `Key`, `Err` and `sysAES`) as it is, whatever the
cipher, the key and the random source. -/
theorem aes_cbc_sticky_error (P : BlockPrim) (a : AESCBCMode) (rnd x : Bytes)
    (h : a.Err ≠ none) :
    a.Encrypt P rnd x = (x, a) ∧ a.Decrypt P x = (x, a) ∧
    (a.Encrypt P rnd x).2.Key = a.Key ∧ (a.Encrypt P rnd x).2.Err = a.Err ∧
    (a.Decrypt P x).2.Key = a.Key ∧ (a.Decrypt P x).2.Err = a.Err := by
  have h1 : a.Encrypt P rnd x = (x, a) := by
    unfold AESCBCMode.Encrypt
    rw [if_pos h]
  have h2 : a.Decrypt P x = (x, a) := by
    unfold AESCBCMode.Decrypt
    rw [if_pos h]
  rw [h1, h2]
  exact ⟨rfl, rfl, rfl, rfl, rfl, rfl⟩

/-- Witness of C9: a context that recorded a base64 error. -/
theorem aes_cbc_sticky_error_witness :
    (⟨[], some .corruptInput, .nil⟩ : AESCBCMode).Err ≠ none ∧
    (⟨[], some .corruptInput, .nil⟩ : AESCBCMode).Encrypt demoPrim [] [65, 66] =
      ([65, 66], ⟨[], some .corruptInput, .nil⟩) :=
  ⟨by decide, (aes_cbc_sticky_error demoPrim ⟨[], some .corruptInput, .nil⟩ [] [65, 66]
    (by decide)).1⟩

/-- C10, as stated, fails: on a context with a valid 16-byte key and no recorded error,
`Decrypt(" ")` fails (the trimmed input decodes to zero bytes, fewer than one block) and
returns the empty string, not the input. -/
theorem aes_cbc_decrypt_failure_counterexample :
    (⟨List.replicate 16 0, none, .nil⟩ : AESCBCMode).Err = none ∧
    ((⟨List.replicate 16 0, none, .nil⟩ : AESCBCMode).Decrypt demoPrim [32]).2.Err ≠ none ∧
    ((⟨List.replicate 16 0, none, .nil⟩ : AESCBCMode).Decrypt demoPrim [32]).1 ≠ [32] := by
  decide

/-- C10, amended: on a context with no recorded error, a failing `Decrypt(ct)` whose error
is not a recovered run-time panic returns `strings.TrimSpace(ct)`, and a failing
`Encrypt(pt)` returns `pt` unmodified. -/
theorem aes_cbc_failure_value (P : BlockPrim) (a : AESCBCMode) (rnd ct : Bytes)
    (h : a.Err = none) :
    ((a.Decrypt P ct).2.Err ≠ none → (∀ p, (a.Decrypt P ct).2.Err ≠ some (.runtime p)) →
      (a.Decrypt P ct).1 = trimSpace ct) ∧
    ((a.Encrypt P rnd ct).2.Err ≠ none → (a.Encrypt P rnd ct).1 = ct) := by
  constructor
  · unfold AESCBCMode.Decrypt
    simp only [h, ne_eq, not_true_eq_false, if_false]
    split
    · intros; rfl
    · split
      · intros; rfl
      · split
        · intros; rfl
        · split
          · intros; rfl
          · split
            · intro _ hp
              exact absurd rfl (hp _)
            · intros; rfl
            · intro hne _
              exact absurd h hne
  · unfold AESCBCMode.Encrypt
    simp only [h, ne_eq, not_true_eq_false, if_false]
    split
    · intros; rfl
    · split
      · intros; rfl
      · split
        · intros; rfl
        · intro hne
          exact absurd h hne

/-- Witness of C10 amended: `Decrypt(" A")` on a context with an empty key fails at the
base64 decoding and returns `A`. -/
theorem aes_cbc_failure_value_witness :
    (⟨[], none, .nil⟩ : AESCBCMode).Err = none ∧
    ((⟨[], none, .nil⟩ : AESCBCMode).Decrypt demoPrim [32, 65]).2.Err ≠ none ∧
    ((⟨[], none, .nil⟩ : AESCBCMode).Decrypt demoPrim [32, 65]).1 = trimSpace [32, 65] :=
  ⟨rfl, by decide,
    (aes_cbc_failure_value demoPrim ⟨[], none, .nil⟩ [] [32, 65] rfl).1 (by decide)
      (fun p hp => by
        have hE : ((⟨[], none, .nil⟩ : AESCBCMode).Decrypt demoPrim [32, 65]).2.Err =
            some .corruptInput := by decide
        rw [hE] at hp
        cases hp)⟩

/-! ### DES in CBC mode -/

theorem desNewCipher_ok (key : Bytes) (h : desValidKey key) : desNewCipher key = .ok key := by
  unfold desNewCipher
  rw [if_pos h]

theorem des_roundtrip_aux (P : BlockPrim) (hP : P.Lawful 8 desValidKey) (d k : Bytes)
    (hk : desValidKey k) :
    DESEncrypt P d k =
      .val (cbcEncryptLoop (P.encrypt k) 8 (PKCS5Padding d 8).length k (PKCS5Padding d 8)) ∧
    DESDecrypt P
      (cbcEncryptLoop (P.encrypt k) 8 (PKCS5Padding d 8).length k (PKCS5Padding d 8)) k =
      .val d := by
  have hpl : (PKCS5Padding d 8).length = 8 * (d.length / 8 + 1) := by
    rw [PKCS5Padding_eq_pkcs7, pkcs7Padding_length d 8 (by omega)]; ring
  have hcl := cbcEncryptLoop_length (P.encrypt k) (P.decrypt k) 8 (by omega)
    (fun b hb => hP.encrypt_length _ b hk hb) (fun b hb => hP.decrypt_encrypt _ b hk hb)
    (d.length / 8 + 1) (PKCS5Padding d 8).length k (PKCS5Padding d 8) hk hpl (by omega)
  have hcd := (cbc_roundtrip (P.encrypt k) (P.decrypt k) 8 (by omega)
    (fun b hb => hP.encrypt_length _ b hk hb) (fun b hb => hP.decrypt_encrypt _ b hk hb)
    (d.length / 8 + 1) (PKCS5Padding d 8).length
    (cbcEncryptLoop (P.encrypt k) 8 (PKCS5Padding d 8).length k (PKCS5Padding d 8)).length
    k (PKCS5Padding d 8) hk hpl (by omega) (by rw [hcl]; omega)).2
  constructor
  · unfold DESEncrypt cbcEncrypt
    have hm : ¬ ((PKCS5Padding d 8).length % 8 ≠ 0) := by rw [hpl]; simp
    simp only [desNewCipher_ok k hk, hm, if_false]
  · unfold DESDecrypt cbcDecrypt
    have hm : ¬ ((cbcEncryptLoop (P.encrypt k) 8 (PKCS5Padding d 8).length k
        (PKCS5Padding d 8)).length % 8 ≠ 0) := by rw [hcl]; simp
    simp only [desNewCipher_ok k hk, hm, if_false, hcd,
      PKCS5UnPadding_padding d 8 (by omega) (by omega)]

/-- C3: DES-CBC round trip. For every block cipher that meets the contract, every byte
string `d` (the empty one included) and every 8-byte key `k`, `DESEncrypt(d, k)` returns a
ciphertext with a nil error, `DESDecrypt` of it under `k` returns `d` with a nil error, and
`DESDecryptString(DESEncryptString(d, k), k)` is `d`; none of the calls panics. -/
theorem des_cbc_roundtrip (P : BlockPrim) (hP : P.Lawful 8 desValidKey) (d k : Bytes)
    (hk : k.length = 8) :
    (∃ c, DESEncrypt P d k = .val c ∧ DESDecrypt P c k = .val d) ∧
    (∃ cs, DESEncryptString P d k = .ok cs ∧ DESDecryptString P cs k = .ok d) := by
  obtain ⟨h1, h2⟩ := des_roundtrip_aux P hP d k hk
  refine ⟨⟨_, h1, h2⟩, ⟨StdEncoding.encode (cbcEncryptLoop (P.encrypt k) 8
    (PKCS5Padding d 8).length k (PKCS5Padding d 8)), ?_, ?_⟩⟩
  · unfold DESEncryptString
    rw [h1]
  · unfold DESDecryptString
    simp only [std_decode_encode, h2]

/-- Witness of C3: the plaintext `hello` and the empty plaintext under an 8-byte key. -/
theorem des_cbc_roundtrip_witness :
    demoPrim.Lawful 8 desValidKey ∧
    (∃ c, DESEncrypt demoPrim [104, 101, 108, 108, 111] [1, 2, 3, 4, 5, 6, 7, 8] = .val c ∧
      DESDecrypt demoPrim c [1, 2, 3, 4, 5, 6, 7, 8] = .val [104, 101, 108, 108, 111]) ∧
    (∃ cs, DESEncryptString demoPrim [] [1, 2, 3, 4, 5, 6, 7, 8] = .ok cs ∧
      DESDecryptString demoPrim cs [1, 2, 3, 4, 5, 6, 7, 8] = .ok []) :=
  ⟨demoPrim_lawful _ _,
    (des_cbc_roundtrip demoPrim (demoPrim_lawful _ _) [104, 101, 108, 108, 111]
      [1, 2, 3, 4, 5, 6, 7, 8] (by decide)).1,
    (des_cbc_roundtrip demoPrim (demoPrim_lawful _ _) []
      [1, 2, 3, 4, 5, 6, 7, 8] (by decide)).2⟩

/-! ### AES in CFB mode -/

/-- C4: AES-CFB round trip. For every block cipher whose encryption keeps the block length,
every context with a key of 16, 24 or 32 bytes, every plaintext `pt` and every random
source that delivers 16 bytes, `Encrypt` leaves the context as it is, and `Decrypt` of the
string `Encrypt` returned gives back `pt` and leaves the context as it is: no error is
recorded, and an `Err` that was nil is still nil. -/
theorem aes_cfb_roundtrip (P : BlockPrim) (hP : P.Lawful 16 aesValidKey)
    (a : AESCFBMode) (rnd pt : Bytes)
    (hkey : a.Key.length = 16 ∨ a.Key.length = 24 ∨ a.Key.length = 32)
    (hrnd : 16 ≤ rnd.length) :
    (a.Encrypt P rnd pt).2 = a ∧
    (a.Encrypt P rnd pt).2.Decrypt P (a.Encrypt P rnd pt).1 = (pt, a) ∧
    (a.Err = none →
      ((a.Encrypt P rnd pt).2.Decrypt P (a.Encrypt P rnd pt).1).2.Err = none) := by
  have hivl : (rnd.take 16).length = 16 := by simp; omega
  have henc : a.Encrypt P rnd pt =
      (hexEncode (rnd.take 16 ++ cfbEncryptLoop (P.encrypt a.Key) 16 pt.length
        (rnd.take 16) pt), a) := by
    unfold AESCFBMode.Encrypt
    simp only [aesNewCipher_ok _ hkey, readFull_ok rnd 16 hrnd]
  obtain ⟨hcl, hcd⟩ := cfb_roundtrip (P.encrypt a.Key) 16 (by omega)
    (fun b hb => hP.encrypt_length _ b hkey hb) pt.length
    (cfbEncryptLoop (P.encrypt a.Key) 16 pt.length (rnd.take 16) pt).length
    (rnd.take 16) pt hivl (le_refl _)
    (by
      rw [(cfb_roundtrip (P.encrypt a.Key) 16 (by omega)
        (fun b hb => hP.encrypt_length _ b hkey hb) pt.length pt.length
        (rnd.take 16) pt hivl (le_refl _) (le_refl _)).1])
  have hdec : a.Decrypt P (hexEncode (rnd.take 16 ++ cfbEncryptLoop (P.encrypt a.Key) 16
      pt.length (rnd.take 16) pt)) = (pt, a) := by
    unfold AESCFBMode.Decrypt
    simp only [aesNewCipher_ok _ hkey, hexDecode_hexEncode]
    have hlen : ¬ (rnd.take 16 ++ cfbEncryptLoop (P.encrypt a.Key) 16 pt.length
        (rnd.take 16) pt).length < 16 := by
      rw [List.length_append, hivl]; omega
    rw [if_neg hlen, List.take_left' hivl, List.drop_left' hivl, hcd]
  rw [henc]
  simp only [hdec]
  exact ⟨trivial, trivial, fun h => h⟩

/-- Witness of C4: a 24-byte key, the plaintext `hello` and a random source delivering
`0, 1, .., 15`. -/
theorem aes_cfb_roundtrip_witness :
    demoPrim.Lawful 16 aesValidKey ∧
    ((NewAESCFBEncrypt (List.replicate 24 9)).Encrypt demoPrim ((List.range 16).map toByte)
        [104, 101, 108, 108, 111]).2.Decrypt demoPrim
      ((NewAESCFBEncrypt (List.replicate 24 9)).Encrypt demoPrim ((List.range 16).map toByte)
        [104, 101, 108, 108, 111]).1 =
      ([104, 101, 108, 108, 111], NewAESCFBEncrypt (List.replicate 24 9)) :=
  ⟨demoPrim_lawful _ _,
    (aes_cfb_roundtrip demoPrim (demoPrim_lawful _ _) (NewAESCFBEncrypt (List.replicate 24 9))
      ((List.range 16).map toByte) [104, 101, 108, 108, 111] (Or.inr (Or.inl (by decide)))
      (by decide)).2.1⟩


/-! ### Bad padding, short input and the ciphertext frame -/

theorem pkcs7UnPadding_zero_last (body : Bytes) (hpos : 0 < body.length)
    (hlast : body.getD (body.length - 1) 0 = 0) :
    pkcs7UnPadding body = .ok (some body) := by
  unfold pkcs7UnPadding
  have hne : body.length ≠ 0 := by omega
  simp only [hne, if_false, hlast]
  simp

/-- C11, the failing input: for every block cipher that meets the contract, every context
with a valid key and no recorded error and every 16-byte IV, `Decrypt` applied to the
base64 frame of a non-empty payload `body` of whole blocks whose last byte (the declared pad
length) is 0 records no error and returns the whole payload as plaintext. -/
theorem aes_cbc_decrypt_zero_pad (P : BlockPrim) (hP : P.Lawful 16 aesValidKey)
    (a : AESCBCMode) (iv body : Bytes) (n : Nat)
    (hkey : a.Key.length = 16 ∨ a.Key.length = 24 ∨ a.Key.length = 32)
    (herr : a.Err = none) (hiv : iv.length = 16)
    (hbody : body.length = 16 * n) (hn : 1 ≤ n)
    (hlast : body.getD (body.length - 1) 0 = 0) :
    a.Decrypt P (StdEncoding.encode
        (iv ++ cbcEncryptLoop (P.encrypt a.Key) 16 body.length iv body)) = (body, a) ∧
    (a.Decrypt P (StdEncoding.encode
        (iv ++ cbcEncryptLoop (P.encrypt a.Key) 16 body.length iv body))).2.Err = none := by
  have h := AESCBCMode.Decrypt_frame P hP a iv body n hkey herr hiv hbody
  rw [pkcs7UnPadding_zero_last body (by omega) hlast] at h
  simp only at h
  rw [h]
  exact ⟨rfl, herr⟩

/-- Witness of C11: a payload of sixteen zero bytes under a 16-byte key. -/
theorem aes_cbc_decrypt_zero_pad_witness :
    demoPrim.Lawful 16 aesValidKey ∧
    (⟨List.replicate 16 7, none, .nil⟩ : AESCBCMode).Decrypt demoPrim (StdEncoding.encode
        (List.replicate 16 1 ++ cbcEncryptLoop (demoPrim.encrypt (List.replicate 16 7)) 16
          (List.replicate 16 (0 : Byte)).length (List.replicate 16 1) (List.replicate 16 0))) =
      (List.replicate 16 0, ⟨List.replicate 16 7, none, .nil⟩) :=
  ⟨demoPrim_lawful _ _,
    (aes_cbc_decrypt_zero_pad demoPrim (demoPrim_lawful _ _) ⟨List.replicate 16 7, none, .nil⟩
      (List.replicate 16 1) (List.replicate 16 0) 1 (Or.inl (by decide)) rfl (by decide)
      (by decide) (by decide) (by decide)).1⟩

/-- The two bad-padding cases that `Decrypt` does reject: an empty payload gives the error
`the ciphertext is nil` and the input back; a pad byte larger than the payload gives a
recovered run-time error and the empty string. -/
theorem AESCBCMode.Decrypt_bad_padding_rejected (P : BlockPrim) (hP : P.Lawful 16 aesValidKey)
    (a : AESCBCMode) (iv body : Bytes) (n : Nat)
    (hkey : aesValidKey a.Key) (herr : a.Err = none) (hiv : iv.length = 16)
    (hbody : body.length = 16 * n) :
    a.Decrypt P (StdEncoding.encode iv) =
      (StdEncoding.encode iv, { a with Err := some .ciphertextNil }) ∧
    (body.length < (body.getD (body.length - 1) 0).val → 1 ≤ n →
      a.Decrypt P (StdEncoding.encode
        (iv ++ cbcEncryptLoop (P.encrypt a.Key) 16 body.length iv body)) =
        ([], { a with Err := some (.runtime .sliceBounds) })) := by
  constructor
  · have h := AESCBCMode.Decrypt_frame P hP a iv [] 0 hkey herr hiv rfl
    simpa [cbcEncryptLoop, pkcs7UnPadding] using h
  · intro hbig hn
    have h := AESCBCMode.Decrypt_frame P hP a iv body n hkey herr hiv hbody
    have hu : pkcs7UnPadding body = .error .sliceBounds := by
      unfold pkcs7UnPadding
      have hne : body.length ≠ 0 := by omega
      simp only [hne, if_false]
      rw [if_neg (by omega)]
    rw [hu] at h
    exact h

theorem Encoding.decodeLoop_error (enc : Encoding) :
    ∀ (s : Bytes) (dbuf : List Nat),
      (enc.decodeLoop s dbuf).2 = none ∨ (enc.decodeLoop s dbuf).2 = some .corruptInput := by
  intro s
  induction s with
  | nil =>
    intro dbuf
    simp only [Encoding.decodeLoop]
    split
    · left; rfl
    · split
      · right; rfl
      · left; rfl
  | cons c rest ih =>
    intro dbuf
    simp only [Encoding.decodeLoop]
    split
    · split
      · exact ih []
      · exact ih _
    · split
      · exact ih dbuf
      · split
        · right; rfl
        · split
          · right; rfl
          · split
            · split
              · right; rfl
              · split
                · right; rfl
                · split
                  · left; rfl
                  · right; rfl
            · split
              · left; rfl
              · right; rfl

theorem Encoding.decode_error (enc : Encoding) (s : Bytes) :
    (enc.decode s).2 = none ∨ (enc.decode s).2 = some .corruptInput :=
  enc.decodeLoop_error s []
/-- C12: short-ciphertext rejection. On a context with a valid key and no recorded error,
when the base64 decoding of the trimmed input yields fewer than 16 bytes, `Decrypt` of the
CBC helper stops at one of its two explicit checks: it returns the trimmed input and records
the decoding error or `ciphertext too short`, never a recovered panic. With a valid key,
`Decrypt` of the CFB helper returns the empty string and records an error when the hex
decoding yields fewer than 16 bytes, and also whenever the input is not valid hex. -/
theorem short_ciphertext_rejected (P : BlockPrim) (a : AESCBCMode) (c : AESCFBMode)
    (ct : Bytes) :
    (a.Err = none → aesValidKey a.Key →
      (StdEncoding.decode (trimSpace ct)).1.length < 16 →
      (a.Decrypt P ct = (trimSpace ct, { a with Err := some .corruptInput }) ∨
        a.Decrypt P ct =
          (trimSpace ct, { a with Err := some (.ciphertextTooShort (trimSpace ct)) }))) ∧
    (aesValidKey c.Key → (hexDecode ct).1.length < 16 →
      ∃ e, c.Decrypt P ct = ([], { c with Err := some e })) ∧
    (aesValidKey c.Key → (hexDecode ct).2 ≠ none →
      c.Decrypt P ct = ([], { c with Err := (hexDecode ct).2 })) := by
  refine ⟨fun herr hkey hlen => ?_, fun hkey hlen => ?_, fun hkey hbad => ?_⟩
  · unfold AESCBCMode.Decrypt
    simp only [herr, ne_eq, not_true_eq_false, if_false, aesNewCipher_ok _ hkey]
    have hde := StdEncoding.decode_error (trimSpace ct)
    rcases hd : StdEncoding.decode (trimSpace ct) with ⟨bytes, e⟩
    rw [hd] at hlen hde
    cases e with
    | some err =>
      left
      rcases hde with h | h
      · cases h
      · simp only [Option.some.injEq] at h
        subst h
        rfl
    | none =>
      right
      simp only at hlen
      simp only [hlen, if_true]
  · unfold AESCFBMode.Decrypt
    simp only [aesNewCipher_ok _ hkey]
    rcases hd : hexDecode ct with ⟨bytes, e⟩
    rw [hd] at hlen
    cases e with
    | some err => exact ⟨err, rfl⟩
    | none =>
      simp only at hlen
      exact ⟨.cfbTooShort, by simp only [hlen, if_true]⟩
  · unfold AESCFBMode.Decrypt
    simp only [aesNewCipher_ok _ hkey]
    rcases hd : hexDecode ct with ⟨bytes, e⟩
    rw [hd] at hbad
    cases e with
    | some err => rfl
    | none => exact absurd rfl hbad

/-- Witness of C12: the input `QUJD` (three bytes once decoded) on a CBC context, and the
input `zz` (not hex) on a CFB context, both with a 16-byte key. -/
theorem short_ciphertext_rejected_witness :
    ((⟨List.replicate 16 0, none, .nil⟩ : AESCBCMode).Decrypt demoPrim [81, 85, 74, 68] =
        (trimSpace [81, 85, 74, 68],
          { (⟨List.replicate 16 0, none, .nil⟩ : AESCBCMode) with
            Err := some .corruptInput }) ∨
      (⟨List.replicate 16 0, none, .nil⟩ : AESCBCMode).Decrypt demoPrim [81, 85, 74, 68] =
        (trimSpace [81, 85, 74, 68],
          { (⟨List.replicate 16 0, none, .nil⟩ : AESCBCMode) with
            Err := some (.ciphertextTooShort (trimSpace [81, 85, 74, 68])) })) ∧
    (NewAESCFBEncrypt (List.replicate 16 0)).Decrypt demoPrim [122, 122] =
      ([], { NewAESCFBEncrypt (List.replicate 16 0) with Err := (hexDecode [122, 122]).2 }) :=
  ⟨(short_ciphertext_rejected demoPrim ⟨List.replicate 16 0, none, .nil⟩
      (NewAESCFBEncrypt (List.replicate 16 0)) [81, 85, 74, 68]).1 rfl (by decide) (by decide),
    (short_ciphertext_rejected demoPrim ⟨List.replicate 16 0, none, .nil⟩
      (NewAESCFBEncrypt (List.replicate 16 0)) [122, 122]).2.2 (by decide) (by decide)⟩
theorem AESCFBMode.cfbEncrypt_ok (P : BlockPrim) (a : AESCFBMode) (rnd pt : Bytes)
    (hkey : aesValidKey a.Key) (hrnd : 16 ≤ rnd.length) :
    a.Encrypt P rnd pt =
      (hexEncode (rnd.take 16 ++ cfbEncryptLoop (P.encrypt a.Key) 16 pt.length
        (rnd.take 16) pt), a) := by
  unfold AESCFBMode.Encrypt
  simp only [aesNewCipher_ok _ hkey, readFull_ok rnd 16 hrnd]

/-- C14: the ciphertext frame. For every block cipher that meets the contract, every valid
key, every plaintext `pt` and every random source that delivers 16 bytes: base64-decoding
the result of the CBC `Encrypt` (on a context without error) succeeds and yields
`16 + 16 * (len(pt) / 16 + 1)` bytes whose first 16 are the bytes read from the random
source; hex-decoding the result of the CFB `Encrypt` succeeds and yields `16 + len(pt)`
bytes whose first 16 are the bytes read from the random source. -/
theorem ciphertext_frame (P : BlockPrim) (hP : P.Lawful 16 aesValidKey)
    (a : AESCBCMode) (c : AESCFBMode) (rnd pt : Bytes)
    (hkey : a.Key.length = 16 ∨ a.Key.length = 24 ∨ a.Key.length = 32)
    (hckey : c.Key.length = 16 ∨ c.Key.length = 24 ∨ c.Key.length = 32)
    (herr : a.Err = none) (hrnd : 16 ≤ rnd.length) :
    (∃ frame, StdEncoding.decode (a.Encrypt P rnd pt).1 = (frame, none) ∧
      frame.length = 16 + 16 * (pt.length / 16 + 1) ∧ frame.take 16 = rnd.take 16) ∧
    (∃ frame, hexDecode (c.Encrypt P rnd pt).1 = (frame, none) ∧
      frame.length = 16 + pt.length ∧ frame.take 16 = rnd.take 16) := by
  have hivl : (rnd.take 16).length = 16 := by simp; omega
  constructor
  · rw [AESCBCMode.Encrypt_ok P a rnd pt hkey herr hrnd]
    refine ⟨_, std_decode_encode _, ?_, List.take_left' hivl⟩
    have hpl : (pkcs7Padding pt 16).length = 16 * (pt.length / 16 + 1) := by
      rw [pkcs7Padding_length pt 16 (by omega)]; ring
    rw [List.length_append, hivl, cbcEncryptLoop_length (P.encrypt a.Key) (P.decrypt a.Key) 16
      (by omega) (fun b hb => hP.encrypt_length _ b hkey hb)
      (fun b hb => hP.decrypt_encrypt _ b hkey hb) (pt.length / 16 + 1)
      (pkcs7Padding pt 16).length (rnd.take 16) (pkcs7Padding pt 16) hivl hpl (by omega)]
  · rw [AESCFBMode.cfbEncrypt_ok P c rnd pt hckey hrnd]
    refine ⟨_, hexDecode_hexEncode _, ?_, List.take_left' hivl⟩
    rw [List.length_append, hivl, (cfb_roundtrip (P.encrypt c.Key) 16 (by omega)
      (fun b hb => hP.encrypt_length _ b hckey hb) pt.length pt.length (rnd.take 16) pt hivl
      (le_refl _) (le_refl _)).1]

/-- Witness of C14: the plaintext `hello` under 16-byte keys. -/
theorem ciphertext_frame_witness :
    demoPrim.Lawful 16 aesValidKey ∧
    (∃ frame, StdEncoding.decode ((⟨List.replicate 16 7, none, .nil⟩ : AESCBCMode).Encrypt
        demoPrim ((List.range 16).map toByte) [104, 101, 108, 108, 111]).1 = (frame, none) ∧
      frame.length = 16 + 16 * (5 / 16 + 1) ∧
      frame.take 16 = ((List.range 16).map toByte).take 16) :=
  ⟨demoPrim_lawful _ _,
    (ciphertext_frame demoPrim (demoPrim_lawful _ _) ⟨List.replicate 16 7, none, .nil⟩
      (NewAESCFBEncrypt (List.replicate 16 7)) ((List.range 16).map toByte)
      [104, 101, 108, 108, 111] (Or.inl (by decide)) (Or.inl (by decide)) rfl (by decide)).1⟩

/-! ### Decrypt, then encrypt under the system key -/

theorem SysAES.get_ref (a : AESCBCMode) : a.ref.get = some a := rfl

/-- Method `Decrypt` neither reads nor writes the field `sysAES`. -/
theorem AESCBCMode.Decrypt_sysAES (P : BlockPrim) (a : AESCBCMode) (s : SysAES) (ct : Bytes) :
    AESCBCMode.Decrypt P { a with sysAES := s } ct =
      ((a.Decrypt P ct).1, { (a.Decrypt P ct).2 with sysAES := s }) := by
  unfold AESCBCMode.Decrypt
  simp only
  split
  · rfl
  · split
    · rfl
    · split
      · rfl
      · split
        · rfl
        · split
          · rfl
          · split <;> rfl

/-- A call of `Encrypt` that leaves `Err` nil started without error, with a valid key and a
random source that delivered 16 bytes. -/
theorem AESCBCMode.Encrypt_no_error (P : BlockPrim) (a : AESCBCMode) (rnd pt : Bytes)
    (h : (a.Encrypt P rnd pt).2.Err = none) :
    a.Err = none ∧ aesValidKey a.Key ∧ 16 ≤ rnd.length := by
  unfold AESCBCMode.Encrypt at h
  by_cases herr : a.Err = none
  · by_cases hkey : aesValidKey a.Key
    · by_cases hrnd : 16 ≤ rnd.length
      · exact ⟨herr, hkey, hrnd⟩
      · have hr : readFull rnd 16 = .error .randRead := by
          unfold readFull; rw [if_pos (by omega)]
        have hm : ¬ ((pkcs7Padding pt 16).length % 16 ≠ 0) := by
          rw [pkcs7Padding_length_mod pt 16 (by omega)]; simp
        simp [herr, hm, aesNewCipher_ok _ hkey, hr] at h
    · have hk : aesNewCipher a.Key = .error (.keySize a.Key.length) := by
        unfold aesNewCipher; rw [if_neg hkey]
      have hm : ¬ ((pkcs7Padding pt 16).length % 16 ≠ 0) := by
        rw [pkcs7Padding_length_mod pt 16 (by omega)]; simp
      simp [herr, hm, hk] at h
  · simp [herr] at h

/-- A failing call of `Encrypt` returns its argument. -/
theorem AESCBCMode.Encrypt_error_value (P : BlockPrim) (a : AESCBCMode) (rnd pt : Bytes)
    (h : (a.Encrypt P rnd pt).2.Err ≠ none) : (a.Encrypt P rnd pt).1 = pt := by
  have hm : ¬ ((pkcs7Padding pt 16).length % 16 ≠ 0) := by
    rw [pkcs7Padding_length_mod pt 16 (by omega)]; simp
  by_cases herr : a.Err = none
  · by_cases hkey : aesValidKey a.Key
    · by_cases hrnd : 16 ≤ rnd.length
      · rw [AESCBCMode.Encrypt_ok P a rnd pt hkey herr hrnd] at h
        exact absurd herr h
      · have hr : readFull rnd 16 = .error .randRead := by
          unfold readFull; rw [if_pos (by omega)]
        unfold AESCBCMode.Encrypt
        simp [herr, hm, aesNewCipher_ok _ hkey, hr]
    · have hk : aesNewCipher a.Key = .error (.keySize a.Key.length) := by
        unfold aesNewCipher; rw [if_neg hkey]
      unfold AESCBCMode.Encrypt
      simp [herr, hm, hk]
  · unfold AESCBCMode.Encrypt
    rw [if_pos herr]

/-- C13: decrypt, then encrypt under the system key. With `dec` the decrypt phase (the
call `a.Decrypt(ct)`) and `enc` the re-encrypt phase (the call of `Encrypt` on the nested
context, created from `sysKey` when `a.sysAES` is nil, with the decrypted value): if either
phase leaves an error, `a.Err` is non-nil after the call and the two returned strings are
equal; if neither does, `a.Err` is nil, the results are the decrypted and the encrypted
value, and the nested context decrypts the second result to the first. -/
theorem dcy_and_use_sys_key (P : BlockPrim) (hP : P.Lawful 16 aesValidKey)
    (a : AESCBCMode) (rnd ct sysKey : Bytes) :
    (((a.Decrypt P ct).2.Err ≠ none ∨
        ((a.sysCtx sysKey).Encrypt P rnd (a.Decrypt P ct).1).2.Err ≠ none) →
      (a.DcyAndUseSysKeyEcy P rnd ct sysKey).2.Err ≠ none ∧
      (a.DcyAndUseSysKeyEcy P rnd ct sysKey).1.1 = (a.DcyAndUseSysKeyEcy P rnd ct sysKey).1.2 ∧
      (a.DcyAndUseSysKeyEcy P rnd ct sysKey).1.1 = (a.Decrypt P ct).1) ∧
    ((a.Decrypt P ct).2.Err = none →
      ((a.sysCtx sysKey).Encrypt P rnd (a.Decrypt P ct).1).2.Err = none →
      (a.DcyAndUseSysKeyEcy P rnd ct sysKey).2.Err = none ∧
      (a.DcyAndUseSysKeyEcy P rnd ct sysKey).1.1 = (a.Decrypt P ct).1 ∧
      (a.DcyAndUseSysKeyEcy P rnd ct sysKey).1.2 =
        ((a.sysCtx sysKey).Encrypt P rnd (a.Decrypt P ct).1).1 ∧
      (a.DcyAndUseSysKeyEcy P rnd ct sysKey).2.sysAES.get = some (a.sysCtx sysKey) ∧
      ((a.sysCtx sysKey).Decrypt P (a.DcyAndUseSysKeyEcy P rnd ct sysKey).1.2).1 =
        (a.DcyAndUseSysKeyEcy P rnd ct sysKey).1.1) := by
  have hout : a.DcyAndUseSysKeyEcy P rnd ct sysKey =
      if (a.Decrypt P ct).2.Err ≠ none then
        (((a.Decrypt P ct).1, (a.Decrypt P ct).1),
          { (a.Decrypt P ct).2 with sysAES := (a.sysCtx sysKey).ref })
      else if ((a.sysCtx sysKey).Encrypt P rnd (a.Decrypt P ct).1).2.Err ≠ none then
        (((a.Decrypt P ct).1, ((a.sysCtx sysKey).Encrypt P rnd (a.Decrypt P ct).1).1),
          { (a.Decrypt P ct).2 with
            sysAES := ((a.sysCtx sysKey).Encrypt P rnd (a.Decrypt P ct).1).2.ref,
            Err := ((a.sysCtx sysKey).Encrypt P rnd (a.Decrypt P ct).1).2.Err })
      else
        (((a.Decrypt P ct).1, ((a.sysCtx sysKey).Encrypt P rnd (a.Decrypt P ct).1).1),
          { (a.Decrypt P ct).2 with
            sysAES := ((a.sysCtx sysKey).Encrypt P rnd (a.Decrypt P ct).1).2.ref }) := by
    unfold AESCBCMode.DcyAndUseSysKeyEcy
    simp only [AESCBCMode.Decrypt_sysAES]
  constructor
  · intro hfail
    by_cases hd : (a.Decrypt P ct).2.Err ≠ none
    · rw [hout, if_pos hd]
      exact ⟨hd, rfl, rfl⟩
    · have he : ((a.sysCtx sysKey).Encrypt P rnd (a.Decrypt P ct).1).2.Err ≠ none := by
        rcases hfail with h | h
        · exact absurd h hd
        · exact h
      rw [hout, if_neg hd, if_pos he]
      exact ⟨he, (AESCBCMode.Encrypt_error_value P _ rnd _ he).symm, rfl⟩
  · intro hd he
    obtain ⟨h1, h2, h3⟩ := AESCBCMode.Encrypt_no_error P _ rnd _ he
    have hsame : ((a.sysCtx sysKey).Encrypt P rnd (a.Decrypt P ct).1).2 = a.sysCtx sysKey := by
      rw [AESCBCMode.Encrypt_ok P _ rnd _ h2 h1 h3]
    rw [hout, if_neg (by simp [hd]), if_neg (by simp [he])]
    refine ⟨hd, rfl, rfl, ?_, ?_⟩
    · simp only [hsame, SysAES.get_ref]
    · show ((a.sysCtx sysKey).Decrypt P
          ((a.sysCtx sysKey).Encrypt P rnd (a.Decrypt P ct).1).1).1 = (a.Decrypt P ct).1
      rw [AESCBCMode.Decrypt_Encrypt P hP (a.sysCtx sysKey) rnd (a.Decrypt P ct).1 h2 h1 h3]

/-- Witness of C13: the input ` ` fails in the decrypt phase. -/
theorem dcy_and_use_sys_key_witness :
    demoPrim.Lawful 16 aesValidKey ∧
    ((⟨List.replicate 16 0, none, .nil⟩ : AESCBCMode).DcyAndUseSysKeyEcy demoPrim [] [32]
        (List.replicate 16 1)).2.Err ≠ none ∧
    ((⟨List.replicate 16 0, none, .nil⟩ : AESCBCMode).DcyAndUseSysKeyEcy demoPrim [] [32]
        (List.replicate 16 1)).1.1 =
      ((⟨List.replicate 16 0, none, .nil⟩ : AESCBCMode).DcyAndUseSysKeyEcy demoPrim [] [32]
        (List.replicate 16 1)).1.2 :=
  ⟨demoPrim_lawful _ _,
    (dcy_and_use_sys_key demoPrim (demoPrim_lawful _ _) ⟨List.replicate 16 0, none, .nil⟩ []
      [32] (List.replicate 16 1)).1 (Or.inl (by decide)) |>.1,
    (dcy_and_use_sys_key demoPrim (demoPrim_lawful _ _) ⟨List.replicate 16 0, none, .nil⟩ []
      [32] (List.replicate 16 1)).1 (Or.inl (by decide)) |>.2.1⟩

/-! ### Panics of the DES and ECB decryption -/

/-- C15, the failing inputs: for every cipher and every 8-byte key, `DESDecrypt` panics on
the empty ciphertext (index out of range in `PKCS5UnPadding`) and on every ciphertext whose
length is not a multiple of 8 (input not full blocks in `CryptBlocks`); neither a plaintext
nor an error is returned. `DESDecryptString` panics on the empty string. -/
theorem des_decrypt_panics (P : BlockPrim) (k crypted : Bytes) (hk : k.length = 8) :
    DESDecrypt P [] k = .panic .indexOutOfRange ∧
    (crypted.length % 8 ≠ 0 → DESDecrypt P crypted k = .panic .inputNotFullBlocks) ∧
    DESDecryptString P [] k = .error .indexOutOfRange := by
  have hd : DESDecrypt P [] k = .panic .indexOutOfRange := by
    unfold DESDecrypt cbcDecrypt
    simp [desNewCipher_ok k hk, cbcDecryptLoop, PKCS5UnPadding]
  refine ⟨hd, fun hm => ?_, ?_⟩
  · unfold DESDecrypt cbcDecrypt
    simp [desNewCipher_ok k hk, hm]
  · unfold DESDecryptString
    have : StdEncoding.decode [] = ([], none) := rfl
    simp only [this, hd]

/-- Witness of C15: the three-byte ciphertext `1, 2, 3` under the key `1, .., 8`. -/
theorem des_decrypt_panics_witness :
    DESDecrypt demoPrim [] [1, 2, 3, 4, 5, 6, 7, 8] = .panic .indexOutOfRange ∧
    DESDecrypt demoPrim [1, 2, 3] [1, 2, 3, 4, 5, 6, 7, 8] = .panic .inputNotFullBlocks :=
  ⟨(des_decrypt_panics demoPrim [1, 2, 3, 4, 5, 6, 7, 8] [1, 2, 3] (by decide)).1,
    (des_decrypt_panics demoPrim [1, 2, 3, 4, 5, 6, 7, 8] [1, 2, 3] (by decide)).2.1
      (by decide)⟩

/-- The third panic of `DESDecrypt`: a ciphertext of whole blocks whose decrypted last byte
exceeds its length. -/
theorem DESDecrypt_pad_too_large (P : BlockPrim) (hP : P.Lawful 8 desValidKey) (k : Bytes)
    (hk : desValidKey k) :
    DESDecrypt P (cbcEncryptLoop (P.encrypt k) 8 8 k (List.replicate 8 255)) k =
      .panic .sliceBounds := by
  have hcl := cbcEncryptLoop_length (P.encrypt k) (P.decrypt k) 8 (by omega)
    (fun b hb => hP.encrypt_length _ b hk hb) (fun b hb => hP.decrypt_encrypt _ b hk hb)
    1 8 k (List.replicate 8 255) hk (by simp) (by omega)
  have hcd := (cbc_roundtrip (P.encrypt k) (P.decrypt k) 8 (by omega)
    (fun b hb => hP.encrypt_length _ b hk hb) (fun b hb => hP.decrypt_encrypt _ b hk hb)
    1 8 8 k (List.replicate 8 255) hk (by simp) (by omega) (by omega)).2
  unfold DESDecrypt cbcDecrypt
  simp only [desNewCipher_ok k hk, hcl]
  simp only [Nat.mul_one, Nat.mod_self, ne_eq, not_true_eq_false, if_false, hcd]
  rfl

/-- Closed form of `AESDecryptECBStr` on a non-empty input whose hex decoding, complete
or not, yields `n >= 1` whole blocks `x`. -/
theorem AESDecryptECBStr_of_decoded (P : BlockPrim) (hP : P.Lawful 16 aesValidKey)
    (e x k : Bytes) (n : Nat) (he : e ≠ []) (hdec : (hexDecode e).1 = x)
    (hx : x.length = 16 * n) (hn : 1 ≤ n) :
    AESDecryptECBStr P e k =
      (let decrypted := ecbBlocks (P.decrypt (generateKeys k)) n x
       if (decrypted.getD (decrypted.length - 1) 0).val ≤ decrypted.length then
         .ok (decrypted.take (decrypted.length - (decrypted.getD (decrypted.length - 1) 0).val))
       else .error .sliceBounds) := by
  have hD : ∀ b : Bytes, b.length = 16 → (P.decrypt (generateKeys k) b).length = 16 :=
    fun b hb => hP.decrypt_length _ b (aesValidKey_generateKeys k) hb
  have hloop := ecbDecryptLoop_spec (P.decrypt (generateKeys k)) hD n x.length [] x []
    (makeBytes x.length) rfl (by simp [makeBytes]) hx (by omega)
  simp only [List.nil_append, List.length_nil] at hloop
  have hdl : 0 < (ecbBlocks (P.decrypt (generateKeys k)) n x).length := by
    rw [ecbBlocks_length _ hD n x hx]; omega
  unfold AESDecryptECBStr
  rw [if_neg he]
  simp only [hdec, aesNewCipher_generateKeys, hloop, hdl, if_true]

theorem hexDecode_append_invalid (x : Bytes) :
    hexDecode (toUpper (hexEncode x) ++ [122, 122]) = (x, some (.hexInvalidByte 122)) := by
  induction x with
  | nil => rfl
  | cons b x ih =>
    have h1 := fromHexChar_upper_hextable ⟨b.val / 16, by omega⟩
    have h2 := fromHexChar_upper_hextable ⟨b.val % 16, by omega⟩
    simp only at h1 h2
    simp only [hexEncode, toUpper, List.flatMap_cons, List.cons_append, List.nil_append,
      List.map_cons] at ih ⊢
    simp only [hexDecode, h1, h2, ih, toByte_div_mod]

/-- C16, the failing inputs. For every cipher and key, `AESDecryptECBStr("AB", k)` panics:
the one decoded byte is not a whole block and `decrypted[0:16]` is out of range. For every
cipher that meets the contract and every non-empty plaintext `s`, the ciphertext of `s`
followed by the two characters `zz` is not valid hex, and `AESDecryptECBStr` still returns
`s`, recovered from the part of the input that precedes the invalid character. -/
theorem aes_ecb_decrypt_malformed (P : BlockPrim) (hP : P.Lawful 16 aesValidKey)
    (s k : Bytes) (hs : s ≠ []) :
    AESDecryptECBStr P [65, 66] k = .error .sliceBounds ∧
    ∃ c, AESEncryptECBStr P s k = .ok c ∧ (hexDecode (c ++ [122, 122])).2 ≠ none ∧
      AESDecryptECBStr P (c ++ [122, 122]) k = .ok s := by
  constructor
  · unfold AESDecryptECBStr
    have hd : hexDecode [65, 66] = ([171], none) := by decide
    simp [hd, aesNewCipher_generateKeys, makeBytes, ecbDecryptLoop, slice]
  · refine ⟨_, AESEncryptECBStr_eq P hP s k hs, ?_, ?_⟩
    · rw [hexDecode_append_invalid]; simp
    · have hpl : (ecbPlain s).length = 16 * (s.length / 16 + 1) := by
        rw [ecbPlain_eq_pkcs7Padding, pkcs7Padding_length s 16 (by omega)]; ring
      have hE : ∀ b : Bytes, b.length = 16 → (P.encrypt (generateKeys k) b).length = 16 :=
        fun b hb => hP.encrypt_length _ b (aesValidKey_generateKeys k) hb
      have hDE : ∀ b : Bytes, b.length = 16 →
          P.decrypt (generateKeys k) (P.encrypt (generateKeys k) b) = b :=
        fun b hb => hP.decrypt_encrypt _ b (aesValidKey_generateKeys k) hb
      rw [AESDecryptECBStr_of_decoded P hP _ _ k (s.length / 16 + 1) (by simp)
        (by rw [hexDecode_append_invalid]) (ecbBlocks_length _ hE _ _ hpl) (by omega)]
      simp only
      rw [ecbBlocks_inverse _ _ hE hDE _ _ hpl, ecbPlain_eq_pkcs7Padding, pkcs7Padding_eq]
      obtain ⟨hN1, hN2⟩ := pad_count_bounds s.length 16 (by omega)
      generalize 16 - s.length % 16 = N at *
      rw [padded_last s N _ hN1, toByte_val_of_lt (by omega), padded_take,
        if_pos (by simp)]

/-- Witness of C16: the plaintext `hi` under a one-byte key. -/
theorem aes_ecb_decrypt_malformed_witness :
    demoPrim.Lawful 16 aesValidKey ∧ ([104, 105] : Bytes) ≠ [] ∧
    AESDecryptECBStr demoPrim [65, 66] [1] = .error .sliceBounds ∧
    ∃ c, AESEncryptECBStr demoPrim [104, 105] [1] = .ok c ∧
      (hexDecode (c ++ [122, 122])).2 ≠ none ∧
      AESDecryptECBStr demoPrim (c ++ [122, 122]) [1] = .ok [104, 105] :=
  ⟨demoPrim_lawful _ _, by decide,
    aes_ecb_decrypt_malformed demoPrim (demoPrim_lawful _ _) [104, 105] [1] (by decide)⟩

/-! ### Key formatting -/

/-- C19, the failing input: for the key of 64 characters `A`, key type 1 and a public key,
`FormateKey` returns the header, the 64 characters and a newline, the same 64 characters and
a newline a second time, an empty line, and the footer. The body is not the key cut into
lines of 64 characters, and deleting its newlines gives 128 characters, not the key. For key
type 0 the key is returned unchanged. -/
theorem formate_key_sixty_four (key : Bytes) (ifPublic : Bool) :
    FormateKey (List.replicate 64 65) 1 true =
      ([10] ++ dashes ++ ascii "BEGIN PUBLIC KEY" ++ dashes ++ [10]) ++
        (List.replicate 64 65 ++ [10] ++ List.replicate 64 65 ++ [10] ++ [10]) ++
        (dashes ++ ascii "END PUBLIC KEY" ++ dashes ++ [10]) ∧
    (List.replicate 64 65 ++ [10] ++ List.replicate 64 (65 : Byte) ++ [10] ++
        [10]).filter (fun c => c ≠ 10) ≠ List.replicate 64 65 ∧
    FormateKey key 0 ifPublic = key := by
  refine ⟨by rfl, by decide, ?_⟩
  unfold FormateKey
  rw [if_pos rfl]

/-! ### Key conversions -/

/-- C17, the failing input: `QUJD!` is not valid standard base64 (the decoder reports an
error after the three bytes `ABC`), and `Base64KeyToPem` returns a nil error and a PEM
block that wraps the three bytes decoded so far. For every input the error is nil and the
PEM block wraps the bytes decoded before the first problem: the test `val == nil` never
holds. -/
theorem base64_key_to_pem_no_error (skType sk : Bytes) :
    (StdEncoding.decode [81, 85, 74, 68, 33]).2 ≠ none ∧
    Base64KeyToPem skType [81, 85, 74, 68, 33] =
      (pemEncode { Typ := skType, Bytes := [65, 66, 67] }, none) ∧
    Base64KeyToPem skType sk =
      (pemEncode { Typ := skType, Bytes := (StdEncoding.decode sk).1 }, none) := by
  refine ⟨by decide, ?_, rfl⟩
  have h : StdEncoding.decode [81, 85, 74, 68, 33] = ([65, 66, 67], some .corruptInput) := by
    decide
  simp only [Base64KeyToPem, Encoding.DecodeString, h]

/-! ### Signature decoding -/

theorem url_decodeMap_encodeChar (i : Fin 64) :
    RawURLEncoding.decodeMap (RawURLEncoding.encodeChar i.val) = some i.val := by
  revert i; decide

theorem url_decodeMap_encodeChar_mod (n : Nat) :
    RawURLEncoding.decodeMap (RawURLEncoding.encodeChar (n % 64)) = some (n % 64) :=
  url_decodeMap_encodeChar ⟨n % 64, Nat.mod_lt _ (by decide)⟩

theorem url_padChar : RawURLEncoding.padChar = none := rfl

theorem url_decodeLoop_encode :
    ∀ (n : Nat) (x : Bytes), x.length ≤ n →
      RawURLEncoding.decodeLoop (RawURLEncoding.encode x) [] = (x, none) := by
  intro n
  induction n using Nat.strong_induction_on with
  | _ n ih =>
    intro x hx
    match x, hx with
    | [], _ => rfl
    | [a], _ =>
      simp only [Encoding.encode, Encoding.padding, url_padChar, List.append_nil]
      simp only [Encoding.decodeLoop, url_decodeMap_encodeChar_mod, url_padChar,
        List.length_nil, List.length_cons, List.nil_append, List.cons_append]
      simp [assemble_one]
    | [a, b], _ =>
      simp only [Encoding.encode, Encoding.padding, url_padChar, List.append_nil]
      simp only [Encoding.decodeLoop, url_decodeMap_encodeChar_mod, url_padChar,
        List.length_nil, List.length_cons, List.nil_append, List.cons_append]
      simp [assemble_two]
    | a :: b :: c :: rest, hx =>
      have hrest := ih (n - 3) (by simp at hx; omega) rest (by simp at hx; omega)
      simp only [Encoding.encode, List.cons_append, List.nil_append]
      simp only [Encoding.decodeLoop, url_decodeMap_encodeChar_mod, List.length_nil,
        List.length_cons, List.nil_append, List.cons_append, hrest]
      simp [assemble_three]

theorem url_decode_encode (x : Bytes) :
    RawURLEncoding.decode (RawURLEncoding.encode x) = (x, none) :=
  url_decodeLoop_encode x.length x (le_refl _)

/-- A character of the URL alphabet either has the same value in the standard alphabet, or
is rejected by the standard decoder at once. -/
theorem std_url_char (i : Fin 64) :
    StdEncoding.decodeMap (RawURLEncoding.encodeChar i.val) = some i.val ∨
    (StdEncoding.decodeMap (RawURLEncoding.encodeChar i.val) = none ∧
      RawURLEncoding.encodeChar i.val ≠ 10 ∧ RawURLEncoding.encodeChar i.val ≠ 13 ∧
      RawURLEncoding.encodeChar i.val ≠ 61) := by
  revert i; decide

theorem std_url_step (n : Nat) :
    StdEncoding.decodeMap (RawURLEncoding.encodeChar (n % 64)) = some (n % 64) ∨
    ∀ (rest : Bytes) (dbuf : List Nat),
      (StdEncoding.decodeLoop (RawURLEncoding.encodeChar (n % 64) :: rest) dbuf).2 ≠ none := by
  rcases std_url_char ⟨n % 64, Nat.mod_lt _ (by decide)⟩ with h | ⟨h1, h2, h3, h4⟩
  · exact Or.inl h
  · right
    intro rest dbuf
    simp only at h1 h2 h3 h4
    have hp : StdEncoding.padChar ≠ some (RawURLEncoding.encodeChar (n % 64)) := by
      rw [std_padChar]
      intro h
      exact h4 (Option.some.inj h).symm
    simp [Encoding.decodeLoop, h1, h2, h3, hp]

theorem std_decodeLoop_nil_pending (dbuf : List Nat) (h : dbuf ≠ []) :
    (StdEncoding.decodeLoop [] dbuf).2 ≠ none := by
  have hl : dbuf.length ≠ 0 := by
    intro h0; exact h (List.length_eq_zero.mp h0)
  simp only [Encoding.decodeLoop, hl, if_false, std_padChar, Option.isSome_some, or_true,
    if_true]
  simp

theorem Encoding.decodeLoop_cons_some (enc : Encoding) (c : Byte) (v : Nat) (rest : Bytes)
    (dbuf : List Nat) (h : enc.decodeMap c = some v) (hl : dbuf.length ≠ 3) :
    enc.decodeLoop (c :: rest) dbuf = enc.decodeLoop rest (dbuf ++ [v]) := by
  simp only [Encoding.decodeLoop, h, hl, if_false]

theorem Encoding.decodeLoop_cons_some_full (enc : Encoding) (c : Byte) (v : Nat)
    (rest : Bytes) (dbuf : List Nat) (h : enc.decodeMap c = some v) (hl : dbuf.length = 3) :
    enc.decodeLoop (c :: rest) dbuf =
      (assemble (dbuf ++ [v]) 4 ++ (enc.decodeLoop rest []).1, (enc.decodeLoop rest []).2) := by
  simp only [Encoding.decodeLoop, h, hl, if_true]

/-- The standard decoder, applied to an unpadded URL-safe encoding, fails or yields the
encoded bytes. -/
theorem std_decodeLoop_url_encode :
    ∀ (n : Nat) (x : Bytes), x.length ≤ n →
      (StdEncoding.decodeLoop (RawURLEncoding.encode x) []).2 ≠ none ∨
      StdEncoding.decodeLoop (RawURLEncoding.encode x) [] = (x, none) := by
  intro n
  induction n using Nat.strong_induction_on with
  | _ n ih =>
    intro x hx
    match x, hx with
    | [], _ => right; rfl
    | [a], _ =>
      left
      simp only [Encoding.encode, Encoding.padding, url_padChar, List.append_nil]
      rcases std_url_step (a.val * 65536 / 262144) with h0 | h0
      · rw [StdEncoding.decodeLoop_cons_some _ _ _ _ h0 (by simp)]
        rcases std_url_step (a.val * 65536 / 4096) with h1 | h1
        · rw [StdEncoding.decodeLoop_cons_some _ _ _ _ h1 (by simp)]
          exact std_decodeLoop_nil_pending _ (by simp)
        · exact h1 _ _
      · exact h0 _ _
    | [a, b], _ =>
      left
      simp only [Encoding.encode, Encoding.padding, url_padChar, List.append_nil]
      rcases std_url_step ((a.val * 65536 + b.val * 256) / 262144) with h0 | h0
      · rw [StdEncoding.decodeLoop_cons_some _ _ _ _ h0 (by simp)]
        rcases std_url_step ((a.val * 65536 + b.val * 256) / 4096) with h1 | h1
        · rw [StdEncoding.decodeLoop_cons_some _ _ _ _ h1 (by simp)]
          rcases std_url_step ((a.val * 65536 + b.val * 256) / 64) with h2 | h2
          · rw [StdEncoding.decodeLoop_cons_some _ _ _ _ h2 (by simp)]
            exact std_decodeLoop_nil_pending _ (by simp)
          · exact h2 _ _
        · exact h1 _ _
      · exact h0 _ _
    | a :: b :: c :: rest, hx =>
      have hrest := ih (n - 3) (by simp at hx; omega) rest (by simp at hx; omega)
      simp only [Encoding.encode, List.cons_append, List.nil_append]
      rcases std_url_step ((a.val * 65536 + b.val * 256 + c.val) / 262144) with h0 | h0
      · rw [StdEncoding.decodeLoop_cons_some _ _ _ _ h0 (by simp)]
        rcases std_url_step ((a.val * 65536 + b.val * 256 + c.val) / 4096) with h1 | h1
        · rw [StdEncoding.decodeLoop_cons_some _ _ _ _ h1 (by simp)]
          rcases std_url_step ((a.val * 65536 + b.val * 256 + c.val) / 64) with h2 | h2
          · rw [StdEncoding.decodeLoop_cons_some _ _ _ _ h2 (by simp)]
            rcases std_url_step (a.val * 65536 + b.val * 256 + c.val) with h3 | h3
            · rw [StdEncoding.decodeLoop_cons_some_full _ _ _ _ h3 (by simp)]
              rcases hrest with hr | hr
              · left; exact hr
              · right
                rw [hr]
                simp only [List.nil_append, List.cons_append, assemble_three]
            · left; exact h3 _ _
          · left; exact h2 _ _
        · left; exact h1 _ _
      · left; exact h0 _ _

theorem std_decode_url_encode (x : Bytes) :
    (StdEncoding.decode (RawURLEncoding.encode x)).2 ≠ none ∨
    StdEncoding.decode (RawURLEncoding.encode x) = (x, none) :=
  std_decodeLoop_url_encode x.length x (le_refl _)

/-- C20: signature decoding. Whatever the library functions do, for every signature `sig`,
public key, hash type and text: `RSAVerifySignBase64` called with the standard base64
encoding of `sig`, and called with the unpadded URL-safe encoding of `sig`, returns what
`RSAVerifySign` returns for `sig`; the standard decoder applied to the URL-safe encoding
either fails or yields `sig`; and an input that both decoders reject returns a non-nil
error without calling `RSAVerifySign`. -/
theorem rsa_verify_sign_base64 (L : CryptoLib) (sig publicKey text s : Bytes)
    (hashType : Nat) :
    RSAVerifySignBase64 L (StdEncoding.encode sig) publicKey hashType text =
      RSAVerifySign L text publicKey hashType sig ∧
    RSAVerifySignBase64 L (RawURLEncoding.encode sig) publicKey hashType text =
      RSAVerifySign L text publicKey hashType sig ∧
    ((StdEncoding.decode (RawURLEncoding.encode sig)).2 ≠ none ∨
      StdEncoding.decode (RawURLEncoding.encode sig) = (sig, none)) ∧
    ((StdEncoding.decode s).2 ≠ none → (RawURLEncoding.decode s).2 ≠ none →
      ∃ e, RSAVerifySignBase64 L s publicKey hashType text = .ok (some e)) := by
  refine ⟨?_, ?_, std_decode_url_encode sig, ?_⟩
  · unfold RSAVerifySignBase64
    simp only [std_decode_encode]
  · unfold RSAVerifySignBase64
    rcases std_decode_url_encode sig with h | h
    · rcases hd : StdEncoding.decode (RawURLEncoding.encode sig) with ⟨v, e⟩
      rw [hd] at h
      cases e with
      | none => exact absurd rfl h
      | some err => simp only [url_decode_encode]
    · simp only [h]
  · intro h1 h2
    unfold RSAVerifySignBase64
    rcases hd : StdEncoding.decode s with ⟨v, e⟩
    rw [hd] at h1
    cases e with
    | none => exact absurd rfl h1
    | some err =>
      rcases hu : RawURLEncoding.decode s with ⟨w, e2⟩
      rw [hu] at h2
      cases e2 with
      | none => exact absurd rfl h2
      | some err2 => exact ⟨err2, rfl⟩

/-- Witness of C20: the input `!` is rejected by both decoders. -/
theorem rsa_verify_sign_base64_witness :
    ∃ e, RSAVerifySignBase64 ⟨fun _ => .ok none, fun _ _ _ _ => none⟩ [33] [] 5 [] =
      .ok (some e) :=
  (rsa_verify_sign_base64 ⟨fun _ => .ok none, fun _ _ _ _ => none⟩ [] [] [] [33] 5).2.2.2
    (by decide) (by decide)

/-! ### `encoding/pem` -/

theorem startsWith_nil (s : Bytes) : startsWith s [] = true := by
  cases s <;> rfl

theorem startsWith_append (p s : Bytes) : startsWith (p ++ s) p = true := by
  induction p with
  | nil => exact startsWith_nil s
  | cons c p ih => simp [startsWith, ih]

theorem startsWith_head_ne (c d : Byte) (s r : Bytes) (h : c ≠ d) :
    startsWith (c :: s) (d :: r) = false := by
  simp [startsWith, h]

theorem indexOf_cons (pat : Bytes) (c : Byte) (s : Bytes) :
    indexOf pat (c :: s) =
      if startsWith (c :: s) pat then some 0 else (indexOf pat s).map (· + 1) := rfl

theorem indexOf_skip (p0 : Byte) (pat : Bytes) :
    ∀ (A W : Bytes), (∀ c ∈ A, c ≠ p0) →
      indexOf (p0 :: pat) (A ++ W) = (indexOf (p0 :: pat) W).map (· + A.length) := by
  intro A
  induction A with
  | nil => intro W _; simp
  | cons a A ih =>
    intro W h
    have ha : a ≠ p0 := h a (by simp)
    rw [List.cons_append, indexOf_cons, startsWith_head_ne a p0 _ _ ha,
      ih W (fun c hc => h c (by simp [hc]))]
    cases indexOf (p0 :: pat) W <;> simp
    omega

theorem indexOf_none (p0 : Byte) (pat : Bytes) (A : Bytes) (h : ∀ c ∈ A, c ≠ p0) :
    indexOf (p0 :: pat) A = none := by
  have := indexOf_skip p0 pat A [] h
  simpa [indexOf, startsWith] using this

theorem indexOf_of_startsWith (pat : Bytes) (c : Byte) (s : Bytes)
    (h : startsWith (c :: s) pat = true) : indexOf pat (c :: s) = some 0 := by
  rw [indexOf_cons, h]
  rfl

theorem mem_trimRightSpTab (A : Bytes) (c : Byte) (h : c ∈ trimRightSpTab A) : c ∈ A := by
  unfold trimRightSpTab at h
  rw [List.mem_reverse] at h
  have := (List.dropWhile_sublist _).mem h
  exact List.mem_reverse.mp this

theorem trimRightSpTab_append_dashes (A : Bytes) :
    trimRightSpTab (A ++ dashes) = A ++ dashes := by
  unfold trimRightSpTab
  have : (A ++ dashes).reverse = 45 :: (List.replicate 4 45 ++ A.reverse) := by
    simp [dashes, List.replicate]
  rw [this, List.dropWhile_cons_of_neg (by decide), ← this, List.reverse_reverse]

/-- The line read by `getLine` when the input starts with `A` and a newline, and `A` holds
neither a newline nor a carriage return. -/
theorem getLine_line (A W : Bytes) (h : ∀ c ∈ A, c ≠ 10 ∧ c ≠ 13) :
    getLine (A ++ 10 :: W) = (trimRightSpTab A, W) := by
  unfold getLine
  have hi : indexOf [10] (A ++ 10 :: W) = some A.length := by
    rw [indexOf_skip 10 [] A _ (fun c hc => (h c hc).1)]
    rw [indexOf_of_startsWith [10] 10 W (by simp [startsWith, startsWith_nil])]
    simp
  rw [hi]
  simp only
  have he : ¬ (0 < A.length ∧ (A ++ 10 :: W).getD (A.length - 1) 0 = 13) := by
    rintro ⟨hpos, h13⟩
    rw [List.getD_eq_getElem?_getD, List.getElem?_append_left (by omega),
      List.getElem?_eq_getElem (by omega)] at h13
    simp only [Option.getD_some] at h13
    exact (h _ (List.getElem_mem _)).2 h13
  rw [if_neg he, List.take_left' rfl]
  congr 1
  rw [show A.length + 1 = (A ++ [10]).length by simp,
    show A ++ 10 :: W = (A ++ [10]) ++ W by simp, List.drop_left' rfl]

/-- No character of a standard base64 text is a line end, a dash, a colon, a space or a
tab. -/
theorem std_encode_chars :
    ∀ (n : Nat) (x : Bytes), x.length ≤ n →
      ∀ c ∈ StdEncoding.encode x,
        c ≠ 10 ∧ c ≠ 13 ∧ c ≠ 45 ∧ c ≠ 58 ∧ c ≠ 32 ∧ c ≠ 9 := by
  have hch : ∀ i : Fin 64,
      StdEncoding.encodeChar i.val ≠ 10 ∧ StdEncoding.encodeChar i.val ≠ 13 ∧
      StdEncoding.encodeChar i.val ≠ 45 ∧ StdEncoding.encodeChar i.val ≠ 58 ∧
      StdEncoding.encodeChar i.val ≠ 32 ∧ StdEncoding.encodeChar i.val ≠ 9 := by decide
  have hm : ∀ k : Nat,
      StdEncoding.encodeChar (k % 64) ≠ 10 ∧ StdEncoding.encodeChar (k % 64) ≠ 13 ∧
      StdEncoding.encodeChar (k % 64) ≠ 45 ∧ StdEncoding.encodeChar (k % 64) ≠ 58 ∧
      StdEncoding.encodeChar (k % 64) ≠ 32 ∧ StdEncoding.encodeChar (k % 64) ≠ 9 :=
    fun k => hch ⟨k % 64, Nat.mod_lt _ (by decide)⟩
  have hp : (61 : Byte) ≠ 10 ∧ (61 : Byte) ≠ 13 ∧ (61 : Byte) ≠ 45 ∧ (61 : Byte) ≠ 58 ∧
      (61 : Byte) ≠ 32 ∧ (61 : Byte) ≠ 9 := by decide
  intro n
  induction n using Nat.strong_induction_on with
  | _ n ih =>
    intro x hx
    match x, hx with
    | [], _ => intro c hc; simp [Encoding.encode] at hc
    | [a], _ =>
      intro c hc
      simp only [Encoding.encode, Encoding.padding, std_padChar, List.replicate,
        List.cons_append, List.nil_append, List.mem_cons, List.mem_nil_iff, or_false] at hc
      rcases hc with h | h | h | h
      · rw [h]; exact hm _
      · rw [h]; exact hm _
      · rw [h]; exact hp
      · rw [h]; exact hp
    | [a, b], _ =>
      intro c hc
      simp only [Encoding.encode, Encoding.padding, std_padChar, List.replicate,
        List.cons_append, List.nil_append, List.mem_cons, List.mem_nil_iff, or_false] at hc
      rcases hc with h | h | h | h
      · rw [h]; exact hm _
      · rw [h]; exact hm _
      · rw [h]; exact hm _
      · rw [h]; exact hp
    | a :: b :: c :: rest, hx =>
      intro d hd
      have hrest := ih (n - 3) (by simp at hx; omega) rest (by simp at hx; omega)
      simp only [Encoding.encode, List.cons_append, List.nil_append, List.mem_cons] at hd
      rcases hd with h | h | h | h | h
      · rw [h]; exact hm _
      · rw [h]; exact hm _
      · rw [h]; exact hm _
      · rw [h]; exact hm _
      · exact hrest d h

theorem std_encode_char_props (x : Bytes) (c : Byte) (hc : c ∈ StdEncoding.encode x) :
    c ≠ 10 ∧ c ≠ 13 ∧ c ≠ 45 ∧ c ≠ 58 ∧ c ≠ 32 ∧ c ≠ 9 :=
  std_encode_chars x.length x (le_refl _) c hc

theorem std_encode_length :
    ∀ (n : Nat) (x : Bytes), x.length ≤ n →
      (StdEncoding.encode x).length = 4 * ((x.length + 2) / 3) := by
  intro n
  induction n using Nat.strong_induction_on with
  | _ n ih =>
    intro x hx
    match x, hx with
    | [], _ => rfl
    | [a], _ => simp [Encoding.encode, Encoding.padding, std_padChar]
    | [a, b], _ => simp [Encoding.encode, Encoding.padding, std_padChar]
    | a :: b :: c :: rest, hx =>
      have hrest := ih (n - 3) (by simp at hx; omega) rest (by simp at hx; omega)
      simp only [Encoding.encode, List.cons_append, List.nil_append, List.length_cons, hrest]
      omega

theorem std_encode_append :
    ∀ (n : Nat) (y z : Bytes), y.length ≤ n → y.length % 3 = 0 →
      StdEncoding.encode (y ++ z) = StdEncoding.encode y ++ StdEncoding.encode z := by
  intro n
  induction n using Nat.strong_induction_on with
  | _ n ih =>
    intro y z hy hm
    match y, hy, hm with
    | [], _, _ => rfl
    | [a], _, hm => simp at hm
    | [a, b], _, hm => simp at hm
    | a :: b :: c :: rest, hy, hm =>
      have hrest := ih (n - 3) (by simp at hy; omega) rest z (by simp at hy; omega)
        (by simp at hm; omega)
      simp only [List.cons_append]
      simp only [Encoding.encode, hrest, List.nil_append, List.cons_append]

/-- The decoder reads the encoding of whole 3-byte groups and goes on with what follows. -/
theorem std_decodeLoop_encode_append :
    ∀ (n : Nat) (y W : Bytes), y.length ≤ n → y.length % 3 = 0 →
      StdEncoding.decodeLoop (StdEncoding.encode y ++ W) [] =
        (y ++ (StdEncoding.decodeLoop W []).1, (StdEncoding.decodeLoop W []).2) := by
  intro n
  induction n using Nat.strong_induction_on with
  | _ n ih =>
    intro y W hy hm
    match y, hy, hm with
    | [], _, _ => rfl
    | [a], _, hm => simp at hm
    | [a, b], _, hm => simp at hm
    | a :: b :: c :: rest, hy, hm =>
      have hrest := ih (n - 3) (by simp at hy; omega) rest W (by simp at hy; omega)
        (by simp at hm; omega)
      simp only [Encoding.encode, List.cons_append, List.nil_append]
      rw [StdEncoding.decodeLoop_cons_some _ _ _ _ (std_decodeMap_encodeChar_mod _) (by simp),
        StdEncoding.decodeLoop_cons_some _ _ _ _ (std_decodeMap_encodeChar_mod _) (by simp),
        StdEncoding.decodeLoop_cons_some _ _ _ _ (std_decodeMap_encodeChar_mod _) (by simp),
        StdEncoding.decodeLoop_cons_some_full _ _ _ _ (std_decodeMap_encodeChar_mod _)
          (by simp),
        hrest]
      simp only [List.nil_append, List.cons_append, assemble_three]

theorem std_decodeLoop_newline (W : Bytes) (dbuf : List Nat) :
    StdEncoding.decodeLoop (10 :: W) dbuf = StdEncoding.decodeLoop W dbuf := by
  have h : StdEncoding.decodeMap 10 = none := by decide
  simp [Encoding.decodeLoop, h]

theorem breakLines_nil (fuel : Nat) : breakLines fuel [] = [] := by
  cases fuel <;> simp [breakLines]

theorem removeSpacesAndTabs_id (s : Bytes) (h : ∀ c ∈ s, c ≠ 32 ∧ c ≠ 9) :
    removeSpacesAndTabs s = s := by
  unfold removeSpacesAndTabs
  rw [List.filter_eq_self]
  intro c hc
  have := h c hc
  simp [this.1, this.2]

theorem pemEnd_eq : pemEnd = 10 :: (dashes ++ ascii "END ") := rfl

theorem pemEnd_dash : ∃ r, pemEnd = 10 :: 45 :: r := ⟨_, rfl⟩

theorem startsWith_pemEnd (X : Bytes) :
    startsWith (10 :: (dashes ++ ascii "END " ++ X)) pemEnd = true := by
  have := startsWith_append pemEnd X
  rw [pemEnd_eq] at this ⊢
  simpa using this

/-- The body that `pem.Encode` writes for a non-empty byte string: it is a text `J` followed
by a newline, where `J` starts with a base64 character, holds no space and no tab, has no
colon on its first line, meets the `END` marker first at its end, and decodes to the byte
string. -/
theorem pem_body :
    ∀ (n : Nat) (x : Bytes), x.length ≤ n → x ≠ [] →
      ∀ fuel, (StdEncoding.encode x).length < fuel →
      ∃ J, breakLines fuel (StdEncoding.encode x) = J ++ [10] ∧
        (∃ c J', J = c :: J' ∧ c ≠ 45) ∧
        (∀ c ∈ J, c ≠ 32 ∧ c ≠ 9) ∧
        (∀ Z, ∀ c ∈ (getLine (J ++ 10 :: Z)).1, c ≠ 58) ∧
        (∀ X, indexOf pemEnd (J ++ 10 :: (dashes ++ ascii "END " ++ X)) = some J.length) ∧
        StdEncoding.decodeLoop J [] = (x, none) := by
  intro n
  induction n using Nat.strong_induction_on with
  | _ n ih =>
    intro x hx hne fuel hfuel
    have hprops := std_encode_char_props x
    have henl := std_encode_length x.length x (le_refl _)
    have hxpos : 0 < x.length := List.length_pos.mpr hne
    cases fuel with
    | zero => omega
    | succ f =>
    by_cases hlen : x.length ≤ 48
    · -- at most one line
      have hne' : StdEncoding.encode x ≠ [] := std_encode_ne_nil x hne
      refine ⟨StdEncoding.encode x, ?_, ?_, ?_, ?_, ?_, std_decodeLoop_encode _ x (le_refl _)⟩
      · unfold breakLines
        by_cases h64 : (StdEncoding.encode x).length < 64
        · rw [if_pos h64, if_neg hne']
        · have he : (StdEncoding.encode x).length = 64 := by omega
          rw [if_neg h64, List.take_of_length_le (by omega),
            List.drop_of_length_le (by omega), breakLines_nil, List.append_nil]
      · cases he : StdEncoding.encode x with
        | nil => exact absurd he hne'
        | cons c J' =>
          exact ⟨c, J', rfl, (hprops c (by rw [he]; simp)).2.2.1⟩
      · intro c hc
        exact ⟨(hprops c hc).2.2.2.2.1, (hprops c hc).2.2.2.2.2⟩
      · intro Z c hc
        rw [getLine_line _ _ (fun d hd => ⟨(hprops d hd).1, (hprops d hd).2.1⟩)] at hc
        exact (hprops c (mem_trimRightSpTab _ _ hc)).2.2.2.1
      · intro X
        obtain ⟨r, hr⟩ := pemEnd_dash
        rw [hr, indexOf_skip 10 _ _ _ (fun d hd => (hprops d hd).1), ← hr,
          indexOf_of_startsWith _ _ _ (startsWith_pemEnd X)]
        simp
    · -- a full line, then the rest
      have hsplit : x = x.take 48 ++ x.drop 48 := (List.take_append_drop 48 x).symm
      have hyl : (x.take 48).length = 48 := by simp; omega
      have hzl : (x.drop 48).length = x.length - 48 := by simp
      have hzne : x.drop 48 ≠ [] := by
        intro h; have := congrArg List.length h; simp at this; omega
      have henc : StdEncoding.encode x =
          StdEncoding.encode (x.take 48) ++ StdEncoding.encode (x.drop 48) := by
        conv_lhs => rw [hsplit]
        exact std_encode_append _ _ _ (le_refl _) (by rw [hyl])
      have hyel : (StdEncoding.encode (x.take 48)).length = 64 := by
        rw [std_encode_length _ _ (le_refl _), hyl]
      have hyprops := std_encode_char_props (x.take 48)
      obtain ⟨Jz, hb, ⟨cz, Jz', hJz, hcz⟩, hsp, _, hidx, hdec⟩ :=
        ih (x.length - 48) (by omega) (x.drop 48) (by rw [hzl]) hzne f
          (by rw [henc, List.length_append, hyel] at hfuel; omega)
      refine ⟨StdEncoding.encode (x.take 48) ++ 10 :: Jz, ?_, ?_, ?_, ?_, ?_, ?_⟩
      · unfold breakLines
        rw [if_neg (by rw [henc, List.length_append, hyel]; omega), henc,
          List.take_left' hyel, List.drop_left' hyel, hb]
        simp
      · cases he : StdEncoding.encode (x.take 48) with
        | nil => rw [he] at hyel; simp at hyel
        | cons c J' =>
          exact ⟨c, J' ++ 10 :: Jz, rfl, (hyprops c (by rw [he]; simp)).2.2.1⟩
      · intro c hc
        rw [List.mem_append, List.mem_cons] at hc
        rcases hc with h | h | h
        · exact ⟨(hyprops c h).2.2.2.2.1, (hyprops c h).2.2.2.2.2⟩
        · rw [h]; decide
        · exact hsp c h
      · intro Z c hc
        rw [List.append_assoc, List.cons_append, getLine_line _ _
          (fun d hd => ⟨(hyprops d hd).1, (hyprops d hd).2.1⟩)] at hc
        exact (hyprops c (mem_trimRightSpTab _ _ hc)).2.2.2.1
      · intro X
        obtain ⟨r, hr⟩ := pemEnd_dash
        rw [List.append_assoc, List.cons_append, hr,
          indexOf_skip 10 _ _ _ (fun d hd => (hyprops d hd).1),
          indexOf_cons, hJz, List.cons_append]
        have hsw : startsWith (10 :: cz :: (Jz' ++ 10 :: (dashes ++ ascii "END " ++ X)))
            (10 :: 45 :: r) = false := by
          simp [startsWith, hcz]
        rw [hsw, ← hr, ← List.cons_append, ← hJz, hidx X, hyel]
        simp
        omega
      · conv_rhs => rw [hsplit]
        rw [std_decodeLoop_encode_append _ _ _ (le_refl _) (by rw [hyl]),
          std_decodeLoop_newline, hdec]

theorem hasSuffix_append (A S : Bytes) : hasSuffix (A ++ S) S = true := by
  unfold hasSuffix
  rw [List.reverse_append]
  exact startsWith_append _ _

theorem getLine_newline : getLine [10] = ([], []) := by decide

theorem pemStart_length : pemStart.length = 12 := rfl

theorem pemEnd_length : pemEnd.length = 10 := rfl

theorem dashes_length : dashes.length = 5 := rfl

/-- One pass of `pem.Decode` over a well-formed block: the `BEGIN` line of type `T`, then
`R`, in which the header loop consumes nothing, the `END` marker is found at `endIndex`, the
`END` line names `T`, and the text before the marker decodes to `bytes`. -/
theorem pemDecodeLoop_block (fuel : Nat) (T R bytes : Bytes) (endIndex endTrailerIndex : Nat)
    (hT : ∀ c ∈ T, c ≠ 10 ∧ c ≠ 13)
    (hh : skipHeaders (R.length + 1) R false = some (R, false))
    (he : (if !false && startsWith R (pemEnd.drop 1) then some (0, pemEnd.length - 1)
        else match indexOf pemEnd R with
          | some i => some (i, i + pemEnd.length)
          | none => none) = some (endIndex, endTrailerIndex))
    (ht : R.drop endTrailerIndex = T ++ dashes ++ [10])
    (hd : StdEncoding.decode (removeSpacesAndTabs (R.take endIndex)) = (bytes, none)) :
    pemDecodeLoop (fuel + 1) (pemStart.drop 1 ++ ((T ++ dashes) ++ 10 :: R)) =
      some { Typ := T, Bytes := bytes } := by
  have hline : getLine ((T ++ dashes) ++ 10 :: R) = (T ++ dashes, R) := by
    rw [getLine_line _ _ (by
      intro c hc
      rw [List.mem_append] at hc
      rcases hc with h | h
      · exact hT c h
      · simp only [dashes, List.mem_replicate] at h
        rw [h.2]; decide), trimRightSpTab_append_dashes]
  have hdrop : (pemStart.drop 1 ++ ((T ++ dashes) ++ 10 :: R)).drop (pemStart.length - 1) =
      (T ++ dashes) ++ 10 :: R := List.drop_left' rfl
  have htake : (T ++ dashes).take ((T ++ dashes).length - dashes.length) = T := by
    rw [List.length_append, Nat.add_sub_cancel, List.take_left' rfl]
  have hlen : ¬ ((T ++ dashes ++ [10]).length < T.length + dashes.length) := by
    simp only [List.length_append, List.length_cons, List.length_nil]; omega
  have hdrop2 : (T ++ dashes ++ [10]).drop (T.length + dashes.length) = [10] := by
    rw [← List.length_append]; exact List.drop_left' rfl
  have htake2 : (T ++ dashes ++ [10]).take (T.length + dashes.length) = T ++ dashes := by
    rw [← List.length_append]; exact List.take_left' rfl
  rw [pemDecodeLoop]
  simp only [startsWith_append, if_true, hdrop, hline, hasSuffix_append, Bool.not_true,
    Bool.false_eq_true, if_false, htake, hh]
  simp only [Bool.not_false, Bool.true_and] at he
  simp only [Bool.not_false, Bool.true_and, he, ht, hlen, if_false, hdrop2, htake2,
    startsWith_append, hasSuffix_append, Bool.not_true, Bool.or_self, Bool.false_eq_true,
    getLine_newline, List.length_nil, ne_eq, not_true_eq_false, hd]

theorem skipHeaders_none_seen (R : Bytes) (hne : R ≠ [])
    (hc : ∀ c ∈ (getLine R).1, c ≠ 58) :
    skipHeaders (R.length + 1) R false = some (R, false) := by
  rw [skipHeaders]
  have hl : R.length ≠ 0 := fun h => hne (List.length_eq_zero.mp h)
  simp only [hl, if_false, indexOf_none 58 [] _ hc, Option.isSome_none, Bool.false_eq_true]

/-- Decoding undoes encoding: `pem.Decode` applied to what `pem.EncodeToMemory` writes for a
block without headers returns the block, provided the type holds no line end and no
colon. -/
theorem pemDecode_pemEncode (T x : Bytes) (hT : ∀ c ∈ T, c ≠ 10 ∧ c ≠ 13 ∧ c ≠ 58) :
    pemDecode (pemEncode { Typ := T, Bytes := x }) = some { Typ := T, Bytes := x } := by
  have hT' : ∀ c ∈ T, c ≠ 10 ∧ c ≠ 13 := fun c hc => ⟨(hT c hc).1, (hT c hc).2.1⟩
  have hpre : ∀ B : Bytes,
      dashes ++ ascii "BEGIN " ++ T ++ dashes ++ [10] ++ B ++ dashes ++ ascii "END " ++ T ++
        dashes ++ [10] =
      pemStart.drop 1 ++ ((T ++ dashes) ++
        10 :: (B ++ (dashes ++ ascii "END " ++ (T ++ dashes ++ [10])))) := by
    intro B
    have : pemStart.drop 1 = dashes ++ ascii "BEGIN " := rfl
    rw [this]
    simp only [List.append_assoc, List.cons_append, List.nil_append]
  unfold pemDecode pemEncode
  simp only
  rw [hpre]
  cases hx : x with
  | nil =>
    have hb : breakLines ((StdEncoding.encode ([] : Bytes)).length + 1)
        (StdEncoding.encode []) = [] := rfl
    rw [hb, List.nil_append]
    have hR : dashes ++ ascii "END " ++ (T ++ dashes ++ [10]) =
        (dashes ++ ascii "END " ++ T ++ dashes) ++ 10 :: [] := by
      simp only [List.append_assoc, List.cons_append, List.nil_append]
    have hline : ∀ c ∈ (getLine (dashes ++ ascii "END " ++ (T ++ dashes ++ [10]))).1,
        c ≠ 58 := by
      intro c hc
      have hall : ∀ d ∈ dashes ++ ascii "END " ++ T ++ dashes, d ≠ 10 ∧ d ≠ 13 ∧ d ≠ 58 := by
        intro d hd
        simp only [List.mem_append] at hd
        rcases hd with ((h | h) | h) | h
        · simp only [dashes, List.mem_replicate] at h
          rw [h.2]; decide
        · have hasc : ascii "END " = [69, 78, 68, 32] := rfl
          rw [hasc] at h
          simp only [List.mem_cons, List.mem_nil_iff, or_false] at h
          rcases h with h | h | h | h <;> (rw [h]; decide)
        · exact hT d h
        · simp only [dashes, List.mem_replicate] at h
          rw [h.2]; decide
      rw [hR, getLine_line _ _ (fun d hd => ⟨(hall d hd).1, (hall d hd).2.1⟩)] at hc
      exact (hall c (mem_trimRightSpTab _ _ hc)).2.2
    refine pemDecodeLoop_block _ T _ [] 0 9 hT' (skipHeaders_none_seen _ (by simp [dashes]) hline)
      ?_ ?_ rfl
    · have hs : startsWith (dashes ++ ascii "END " ++ (T ++ dashes ++ [10])) (pemEnd.drop 1)
          = true := by
        have : pemEnd.drop 1 = dashes ++ ascii "END " := rfl
        rw [this]
        exact startsWith_append _ _
      simp only [hs, Bool.not_false, Bool.and_self, if_true, pemEnd_length]
    · have : (9 : Nat) = (dashes ++ ascii "END ").length := rfl
      rw [this]
      exact List.drop_left' rfl
  | cons x0 xs =>
    obtain ⟨J, hb, ⟨c, J', hJ, hcd⟩, hsp, hcol, hidx, hdec⟩ :=
      pem_body (x0 :: xs).length (x0 :: xs) (le_refl _) (by simp)
        ((StdEncoding.encode (x0 :: xs)).length + 1) (by omega)
    rw [hb]
    have hR : J ++ [10] ++ (dashes ++ ascii "END " ++ (T ++ dashes ++ [10])) =
        J ++ 10 :: (dashes ++ ascii "END " ++ (T ++ dashes ++ [10])) := by
      simp only [List.append_assoc, List.cons_append, List.nil_append]
    rw [hR]
    refine pemDecodeLoop_block _ T _ (x0 :: xs) J.length (J.length + 10) hT'
      (skipHeaders_none_seen _ (by simp) (hcol _)) ?_ ?_ ?_
    · have hs : startsWith (J ++ 10 :: (dashes ++ ascii "END " ++ (T ++ dashes ++ [10])))
          (pemEnd.drop 1) = false := by
        have : pemEnd.drop 1 = 45 :: (List.replicate 4 45 ++ ascii "END ") := rfl
        rw [this, hJ, List.cons_append]
        exact startsWith_head_ne _ _ _ _ hcd
      simp only [hs, Bool.and_false, Bool.false_eq_true, if_false, hidx, pemEnd_length]
    · have : J ++ 10 :: (dashes ++ ascii "END " ++ (T ++ dashes ++ [10])) =
          (J ++ 10 :: (dashes ++ ascii "END ")) ++ (T ++ dashes ++ [10]) := by
        simp only [List.append_assoc, List.cons_append, List.nil_append]
      rw [this]
      exact List.drop_left' (by simp [dashes, ascii])
    · rw [List.take_left' rfl, removeSpacesAndTabs_id J hsp]
      exact hdec

theorem pem_type_ok (T : Bytes)
    (h : T.all (fun c => c != 10 && c != 13 && c != 58) = true) :
    ∀ c ∈ T, c ≠ 10 ∧ c ≠ 13 ∧ c ≠ 58 := by
  intro c hc
  have := List.all_eq_true.mp h c hc
  simpa [and_assoc] using this

/-- C18: PEM and base64 conversions are inverse to each other. For every byte string `b`
and every block type `T` among `CERTIFICATE`, `PRIVATE KEY`, `RSA PRIVATE KEY` and
`PUBLIC KEY`: `Base64KeyToPem(T, base64(b))` is the PEM encoding of the block `(T, b)` with
a nil error, `PemTobase64` of it is `base64(b)` with a nil error, and for the PEM text `p`
that `pem.EncodeToMemory` writes for the block `(T, b)`, `Base64KeyToPem(T, PemTobase64(p))`
is `p` again. -/
theorem pem_base64_inverse (T b : Bytes)
    (hT : T = ascii "CERTIFICATE" ∨ T = ascii "PRIVATE KEY" ∨ T = ascii "RSA PRIVATE KEY" ∨
      T = ascii "PUBLIC KEY") :
    Base64KeyToPem T (StdEncoding.encode b) = (pemEncode { Typ := T, Bytes := b }, none) ∧
    PemTobase64 (Base64KeyToPem T (StdEncoding.encode b)).1 = (StdEncoding.encode b, none) ∧
    PemTobase64 (pemEncode { Typ := T, Bytes := b }) = (StdEncoding.encode b, none) ∧
    Base64KeyToPem T (PemTobase64 (pemEncode { Typ := T, Bytes := b })).1 =
      (pemEncode { Typ := T, Bytes := b }, none) := by
  have hok : ∀ c ∈ T, c ≠ 10 ∧ c ≠ 13 ∧ c ≠ 58 := by
    rcases hT with h | h | h | h <;> (rw [h]; exact pem_type_ok _ rfl)
  have h1 : Base64KeyToPem T (StdEncoding.encode b) =
      (pemEncode { Typ := T, Bytes := b }, none) := by
    simp only [Base64KeyToPem, Encoding.DecodeString, std_decode_encode]
  have h2 : PemTobase64 (pemEncode { Typ := T, Bytes := b }) = (StdEncoding.encode b, none) := by
    simp only [PemTobase64, pemDecode_pemEncode T b hok]
  refine ⟨h1, ?_, h2, ?_⟩
  · rw [h1]; exact h2
  · rw [h2]; exact h1

/-- Witness of C18: the type `PUBLIC KEY` and the bytes `0, 1, .., 99`. -/
theorem pem_base64_inverse_witness :
    PemTobase64 (Base64KeyToPem (ascii "PUBLIC KEY")
        (StdEncoding.encode ((List.range 100).map toByte))).1 =
      (StdEncoding.encode ((List.range 100).map toByte), none) :=
  (pem_base64_inverse (ascii "PUBLIC KEY") ((List.range 100).map toByte)
    (Or.inr (Or.inr (Or.inr rfl)))).2.1

/-- The nested context of a constructed context is the one made from the constructor's
`sysKey`, whatever key a later call passes. -/
theorem NewAESCBCEncrypt_sysCtx (b64Key k1 k : Bytes) :
    (NewAESCBCEncrypt b64Key k1).sysCtx k = { Key := k1, Err := none, sysAES := .nil } := rfl

/-- With a nested context in place, `DcyAndUseSysKeyEcy` is `Decrypt` followed, when it left
no error, by the nested `Encrypt`. -/
theorem AESCBCMode.DcyAndUseSysKeyEcy_value (P : BlockPrim) (a s : AESCBCMode)
    (rnd ct k : Bytes) (hs : a.sysAES = s.ref) :
    (a.DcyAndUseSysKeyEcy P rnd ct k).1
      = if (a.Decrypt P ct).2.Err ≠ none then ((a.Decrypt P ct).1, (a.Decrypt P ct).1)
        else ((a.Decrypt P ct).1, (s.Encrypt P rnd (a.Decrypt P ct).1).1) := by
  have h1 : a.sysCtx k = s := by
    cases s
    simp [AESCBCMode.sysCtx, hs, AESCBCMode.ref, SysAES.get]
  have h2 : ({ a with sysAES := s.ref } : AESCBCMode) = a := by
    cases a
    simp only [AESCBCMode.mk.injEq, true_and]
    exact hs.symm
  simp only [AESCBCMode.DcyAndUseSysKeyEcy, h1, h2]
  by_cases hd : (a.Decrypt P ct).2.Err ≠ none
  · rw [if_pos hd, if_pos hd]
  · rw [if_neg hd, if_neg hd]
    by_cases he : (s.Encrypt P rnd (a.Decrypt P ct).1).2.Err ≠ none
    · rw [if_pos he]
    · rw [if_neg he]

/-- C26: For a context built by `NewAESCBCEncrypt b64Key k1`, the `sysKey` argument of the
combined operations has no effect: `DcyAndUseSysKeyEcy` returns the same pair (and leaves the
same context) for every two keys `k2`, `k3`, so does `AesCbcEncrypt`, and what they encrypt
is encrypted by the nested context whose key is `k1`, the key given to the constructor. -/
theorem sys_key_argument_unused (P : BlockPrim) (msg : GoError → Bytes)
    (b64Key k1 k2 k3 rnd ct pt : Bytes) :
    (NewAESCBCEncrypt b64Key k1).DcyAndUseSysKeyEcy P rnd ct k2
        = (NewAESCBCEncrypt b64Key k1).DcyAndUseSysKeyEcy P rnd ct k3
      ∧ (NewAESCBCEncrypt b64Key k1).AesCbcEncrypt P msg rnd pt k2
        = (NewAESCBCEncrypt b64Key k1).AesCbcEncrypt P msg rnd pt k3
      ∧ ((NewAESCBCEncrypt b64Key k1).DcyAndUseSysKeyEcy P rnd ct k2).1
        = (if ((NewAESCBCEncrypt b64Key k1).Decrypt P ct).2.Err ≠ none then
            (((NewAESCBCEncrypt b64Key k1).Decrypt P ct).1,
              ((NewAESCBCEncrypt b64Key k1).Decrypt P ct).1)
          else
            (((NewAESCBCEncrypt b64Key k1).Decrypt P ct).1,
              (AESCBCMode.Encrypt P { Key := k1, Err := none, sysAES := .nil } rnd
                ((NewAESCBCEncrypt b64Key k1).Decrypt P ct).1).1))
      ∧ ((NewAESCBCEncrypt b64Key k1).AesCbcEncrypt P msg rnd pt k2).1
        = (match (AESCBCMode.Encrypt P { Key := k1, Err := none, sysAES := .nil } rnd pt).2.Err with
          | some err => msg err
          | none => (AESCBCMode.Encrypt P { Key := k1, Err := none, sysAES := .nil } rnd pt).1) := by
  refine ⟨rfl, rfl, ?_, ?_⟩
  · exact AESCBCMode.DcyAndUseSysKeyEcy_value P _ _ rnd ct k2 rfl
  · simp only [AESCBCMode.AesCbcEncrypt, NewAESCBCEncrypt_sysCtx]
    cases (AESCBCMode.Encrypt P { Key := k1, Err := none, sysAES := .nil } rnd pt).2.Err <;> rfl

/-- Witness of C26: a context with a 16-byte key, called with the keys `x` and `y`. -/
theorem sys_key_argument_unused_witness :
    (NewAESCBCEncrypt (ascii "MDEyMzQ1Njc4OWFiY2RlZg==")
        (ascii "0123456789abcdef")).DcyAndUseSysKeyEcy demoPrim (List.replicate 16 7) []
        (ascii "x")
      = (NewAESCBCEncrypt (ascii "MDEyMzQ1Njc4OWFiY2RlZg==")
        (ascii "0123456789abcdef")).DcyAndUseSysKeyEcy demoPrim (List.replicate 16 7) []
        (ascii "y") :=
  (sys_key_argument_unused demoPrim (fun _ => []) (ascii "MDEyMzQ1Njc4OWFiY2RlZg==")
    (ascii "0123456789abcdef") (ascii "x") (ascii "y") (List.replicate 16 7) [] []).1

/-- The context of a rejected key: `Err` is set by the constructor. -/
theorem NewAESCBCEncrypt_bad_key (b64Key sysKey : Bytes)
    (h : (StdEncoding.decode b64Key).2 ≠ none) :
    (NewAESCBCEncrypt b64Key sysKey).Err ≠ none := h

/-- C27: When `b64Key` is not valid standard base64 (`DecodeString` returns an error), the
context `NewAESCBCEncrypt b64Key sysKey` has a non-nil `Err`; its `Encrypt` returns the
plaintext `x` itself, its `Decrypt` returns `x`, and `DcyAndUseSysKeyEcy x k` returns
`(x, x)`; none of the calls changes the context. -/
theorem bad_key_identity (P : BlockPrim) (b64Key sysKey rnd x k : Bytes)
    (h : (StdEncoding.decode b64Key).2 ≠ none) :
    (NewAESCBCEncrypt b64Key sysKey).Err ≠ none
      ∧ (NewAESCBCEncrypt b64Key sysKey).Encrypt P rnd x = (x, NewAESCBCEncrypt b64Key sysKey)
      ∧ (NewAESCBCEncrypt b64Key sysKey).Decrypt P x = (x, NewAESCBCEncrypt b64Key sysKey)
      ∧ (NewAESCBCEncrypt b64Key sysKey).DcyAndUseSysKeyEcy P rnd x k
          = ((x, x), NewAESCBCEncrypt b64Key sysKey) := by
  have he : (NewAESCBCEncrypt b64Key sysKey).Err ≠ none := h
  have hE : (NewAESCBCEncrypt b64Key sysKey).Encrypt P rnd x
      = (x, NewAESCBCEncrypt b64Key sysKey) := by
    simp only [AESCBCMode.Encrypt]
    rw [if_pos he]
  have hD : (NewAESCBCEncrypt b64Key sysKey).Decrypt P x
      = (x, NewAESCBCEncrypt b64Key sysKey) := by
    simp only [AESCBCMode.Decrypt]
    rw [if_pos he]
  refine ⟨he, hE, hD, ?_⟩
  have h2 : ({ NewAESCBCEncrypt b64Key sysKey with
      sysAES := (AESCBCMode.sysCtx (NewAESCBCEncrypt b64Key sysKey) k).ref } : AESCBCMode)
      = NewAESCBCEncrypt b64Key sysKey := rfl
  simp only [AESCBCMode.DcyAndUseSysKeyEcy, h2, hD]
  rw [if_pos he]

/-- Witness of `bad_key_identity`: the key `"a!"` is not base64. -/
theorem bad_key_identity_witness :
    (StdEncoding.decode (ascii "a!")).2 ≠ none
      ∧ (NewAESCBCEncrypt (ascii "a!") (ascii "k")).DcyAndUseSysKeyEcy demoPrim [] (ascii "secret")
            (ascii "k2")
          = ((ascii "secret", ascii "secret"), NewAESCBCEncrypt (ascii "a!") (ascii "k")) :=
  ⟨by decide, (bad_key_identity demoPrim (ascii "a!") (ascii "k") [] (ascii "secret") (ascii "k2")
    (by decide)).2.2.2⟩

/-- The test of the skippers, `pathLen >= len(p) && path[:len(p)] == p`, holds exactly when
the path is `p` followed by something. -/
theorem path_test_iff (path p : Bytes) :
    (path.length ≥ p.length ∧ path.take p.length = p) ↔ ∃ t, path = p ++ t := by
  constructor
  · rintro ⟨_, h⟩
    refine ⟨path.drop p.length, ?_⟩
    have h2 := List.take_append_drop p.length path
    rw [h] at h2
    exact h2.symm
  · rintro ⟨t, rfl⟩
    exact ⟨by simp, by simp⟩

/-- C24: For every list of prefixes and every request path, `AllowPathPrefixSkipper`
returns `true` exactly when the path starts with at least one of the prefixes (so `false`
for the empty list), and `AllowPathPrefixNoSkipper` returns the negation of that. -/
theorem path_skippers (prefixes : List Bytes) (path : Bytes) :
    (AllowPathPrefixSkipper prefixes path = true ↔ ∃ p ∈ prefixes, ∃ t, path = p ++ t)
      ∧ AllowPathPrefixSkipper [] path = false
      ∧ AllowPathPrefixNoSkipper prefixes path = !AllowPathPrefixSkipper prefixes path := by
  refine ⟨?_, rfl, ?_⟩
  · induction prefixes with
    | nil => simp [AllowPathPrefixSkipper]
    | cons p rest ih =>
      by_cases h : path.length ≥ p.length ∧ path.take p.length = p
      · have h2 := (path_test_iff path p).1 h
        simp only [AllowPathPrefixSkipper, if_pos h, true_iff]
        exact ⟨p, List.mem_cons_self _ _, h2⟩
      · have h2 : ¬ ∃ t, path = p ++ t := fun hh => h ((path_test_iff path p).2 hh)
        simp only [AllowPathPrefixSkipper, if_neg h, ih, List.mem_cons]
        constructor
        · rintro ⟨q, hq, ht⟩
          exact ⟨q, Or.inr hq, ht⟩
        · rintro ⟨q, hq | hq, ht⟩
          · exact absurd (hq ▸ ht) h2
          · exact ⟨q, hq, ht⟩
  · induction prefixes with
    | nil => rfl
    | cons p rest ih =>
      by_cases h : path.length ≥ p.length ∧ path.take p.length = p
      · simp only [AllowPathPrefixSkipper, AllowPathPrefixNoSkipper, if_pos h, Bool.not_true]
      · simp only [AllowPathPrefixSkipper, AllowPathPrefixNoSkipper, if_neg h, ih]

/-- Witness of C24: the path `/static/x.js` under the prefixes `/api` and `/static`. -/
theorem path_skippers_witness :
    AllowPathPrefixNoSkipper [ascii "/api", ascii "/static"] (ascii "/static/x.js")
      = !AllowPathPrefixSkipper [ascii "/api", ascii "/static"] (ascii "/static/x.js") :=
  (path_skippers [ascii "/api", ascii "/static"] (ascii "/static/x.js")).2.2

theorem wrap64_of_range (x : Int) (h1 : -2 ^ 63 ≤ x) (h2 : x < 2 ^ 63) : wrap64 x = x := by
  unfold wrap64; omega

theorem wrap64_range (x : Int) : -2 ^ 63 ≤ wrap64 x ∧ wrap64 x < 2 ^ 63 := by
  unfold wrap64; omega

theorem wrap64_mul_ten (x : Int) : wrap64 (wrap64 x * 10) = wrap64 (x * 10) := by
  unfold wrap64; omega

/-- The residues that `x * 10` can come from. -/
theorem wrap64_pre (x c : Int) (h1 : -2 ^ 63 ≤ x) (h2 : x < 10 ^ 18) (h : wrap64 (x * 10) = c) :
    x = ((c / 2) * 5534023222112865485) % 2 ^ 63 ∨ x = ((c / 2) * 5534023222112865485) % 2 ^ 63 - 2 ^ 63 := by
  unfold wrap64 at h; omega

theorem zeroOrbit_nonpos : ∀ c ∈ zeroOrbit, c ≤ 0 := by decide

theorem zeroOrbit_closed_check : ∀ c ∈ zeroOrbit, c % 2 = 0 →
    (preTen c + 2 ^ 63 < 10 ^ 18 → preTen c + 2 ^ 63 ∈ zeroOrbit) ∧ preTen c ∈ zeroOrbit := by
  decide

/-- An `int64` value below `10^18` that `*= 10` sends into the orbit is in the orbit. -/
theorem zeroOrbit_closed (x : Int) (h1 : -2 ^ 63 ≤ x) (h2 : x < 10 ^ 18)
    (h : wrap64 (x * 10) ∈ zeroOrbit) : x ∈ zeroOrbit := by
  have hpar : wrap64 (x * 10) % 2 = 0 := by unfold wrap64; omega
  have hc := zeroOrbit_closed_check _ h hpar
  rcases wrap64_pre x _ h1 h2 rfl with hx | hx
  · have e : preTen (wrap64 (x * 10)) + 2 ^ 63 = x := by
      unfold preTen; omega
    rw [e] at hc
    exact hc.1 h2
  · have e : preTen (wrap64 (x * 10)) = x := by
      unfold preTen; omega
    rw [e] at hc
    exact hc.2

theorem timesTen_succ (n : Nat) (t : Int) : timesTen (n + 1) t = wrap64 (timesTen n t * 10) := by
  induction n generalizing t with
  | zero => rfl
  | succ n ih =>
    show timesTen (n + 1) (wrap64 (t * 10)) = _
    rw [ih]
    rfl

theorem timesTen_range (n : Nat) (t : Int) (h1 : -2 ^ 63 ≤ t) (h2 : t < 2 ^ 63) :
    -2 ^ 63 ≤ timesTen n t ∧ timesTen n t < 2 ^ 63 := by
  cases n with
  | zero => exact ⟨h1, h2⟩
  | succ n => rw [timesTen_succ]; exact wrap64_range _

theorem timesTen_eq_wrap (n : Nat) (t : Int) (h1 : -2 ^ 63 ≤ t) (h2 : t < 2 ^ 63) :
    timesTen n t = wrap64 (t * 10 ^ n) := by
  induction n with
  | zero => rw [pow_zero, mul_one, wrap64_of_range t h1 h2]; rfl
  | succ n ih =>
    rw [timesTen_succ, ih, wrap64_mul_ten, pow_succ, mul_assoc]

theorem timesTen_sixty_four (t : Int) (h1 : -2 ^ 63 ≤ t) (h2 : t < 2 ^ 63) :
    timesTen 64 t = 0 := by
  rw [timesTen_eq_wrap 64 t h1 h2]
  unfold wrap64
  omega

/-- When every one of the first 64 values stays below `10^18`, the start is in the orbit. -/
theorem timesTen_back (t : Int) (h1 : -2 ^ 63 ≤ t) (h2 : t < 2 ^ 63)
    (h : ∀ n, n < 64 → timesTen n t < 10 ^ 18) :
    ∀ k, k ≤ 64 → timesTen (64 - k) t ∈ zeroOrbit := by
  intro k
  induction k with
  | zero =>
    intro _
    rw [Nat.sub_zero, timesTen_sixty_four t h1 h2]
    decide
  | succ k ih =>
    intro hk
    have hk2 : 64 - k = (64 - (k + 1)) + 1 := by omega
    have ih2 := ih (by omega)
    rw [hk2, timesTen_succ] at ih2
    exact zeroOrbit_closed _ (timesTen_range _ t h1 h2).1 (h _ (by omega)) ih2

/-- A positive `int64` reaches `10^18` within 63 rounds of `*= 10`. -/
theorem timesTen_reaches (t : Int) (h0 : 0 < t) (h2 : t < 2 ^ 63) :
    ∃ n, n < 64 ∧ 10 ^ 18 ≤ timesTen n t := by
  by_contra hne
  have h : ∀ n, n < 64 → timesTen n t < 10 ^ 18 := by
    intro n hn
    by_contra hge
    exact hne ⟨n, hn, not_lt.1 hge⟩
  have hmem := timesTen_back t (by omega) h2 h 64 (le_refl _)
  have := zeroOrbit_nonpos _ hmem
  simp only [Nat.sub_self, timesTen] at this
  omega

theorem timesTen_zero_stays (n : Nat) : timesTen n 0 = 0 := by
  induction n with
  | zero => rfl
  | succ n ih => rw [timesTen_succ, ih]; decide

theorem timesTen_add (m n : Nat) (t : Int) : timesTen (m + n) t = timesTen n (timesTen m t) := by
  induction m generalizing t with
  | zero => rw [Nat.zero_add]; rfl
  | succ m ih =>
    rw [Nat.succ_add]
    show timesTen (m + n) (wrap64 (t * 10)) = timesTen n (timesTen m (wrap64 (t * 10)))
    exact ih _

/-- The loop returns the first value that is at least `10^18`, given fuel for the rounds
before it. -/
theorem scaleLoop_eq (n : Nat) : ∀ (fuel : Nat) (t : Int) (m : Nat),
    (∀ j, j < n → timesTen j t < 10 ^ 18) → 10 ^ 18 ≤ timesTen n t → n ≤ fuel →
    scaleLoop fuel t m = some (timesTen n t, m + n) := by
  induction n with
  | zero =>
    intro fuel t m _ hge _
    have hge2 : ¬ t < 10 ^ 18 := not_lt.2 hge
    cases fuel with
    | zero => simp only [scaleLoop, if_neg hge2, timesTen, Nat.add_zero]
    | succ f => simp only [scaleLoop, if_neg hge2, timesTen, Nat.add_zero]
  | succ n ih =>
    intro fuel t m hlt hge hf
    have h0 : t < 10 ^ 18 := hlt 0 (Nat.succ_pos _)
    cases fuel with
    | zero => omega
    | succ f =>
      simp only [scaleLoop, if_pos h0]
      rw [ih f (wrap64 (t * 10)) (m + 1) (fun j hj => hlt (j + 1) (by omega)) hge (by omega)]
      simp only [timesTen, Nat.add_assoc, Nat.add_comm 1 n]
/-- Without overflow the rounds of `*= 10` multiply by a power of ten. -/
theorem timesTen_exact (j : Nat) : ∀ t : Int, 0 ≤ t → t * 10 ^ j < 2 ^ 63 →
    timesTen j t = t * 10 ^ j := by
  induction j with
  | zero => intro t _ _; simp [timesTen]
  | succ j ih =>
    intro t h0 h
    have hp : (1 : Int) ≤ 10 ^ j := one_le_pow₀ (by norm_num)
    have e : t * 10 ^ (j + 1) = t * 10 * 10 ^ j := by ring
    have h10 : t * 10 ≤ t * 10 * 10 ^ j := le_mul_of_one_le_right (by omega) hp
    rw [e] at h
    show timesTen j (wrap64 (t * 10)) = _
    rw [wrap64_of_range (t * 10) (by omega) (by omega), ih (t * 10) (by omega) h, e]

/-- The loop on a positive value that `j` exact multiplications bring to `10^18`. -/
theorem scaleLoop_exact (j fuel : Nat) (t : Int) (h0 : 0 ≤ t)
    (hlt : j = 0 ∨ t * 10 ^ (j - 1) < 10 ^ 18) (hge : 10 ^ 18 ≤ t * 10 ^ j)
    (hmax : t * 10 ^ j < 2 ^ 63) (hf : j ≤ fuel) :
    scaleLoop fuel t 0 = some (t * 10 ^ j, j) ∧ ∀ i, i ≤ j → timesTen i t = t * 10 ^ i := by
  have hall : ∀ i, i ≤ j → timesTen i t = t * 10 ^ i := by
    intro i hi
    apply timesTen_exact i t h0
    have : (10 : Int) ^ i ≤ 10 ^ j := pow_le_pow_right₀ (by norm_num) hi
    have := mul_le_mul_of_nonneg_left this h0
    omega
  refine ⟨?_, hall⟩
  have h := scaleLoop_eq j fuel t 0 ?_ ?_ hf
  · rw [h, hall j (le_refl _), Nat.zero_add]
  · intro i hi
    rw [hall i (by omega)]
    rcases hlt with hj | hlt
    · omega
    · have : (10 : Int) ^ i ≤ 10 ^ (j - 1) := pow_le_pow_right₀ (by norm_num) (by omega)
      have := mul_le_mul_of_nonneg_left this h0
      omega
  · rw [hall j (le_refl _)]
    exact hge

/-- C29: The scaling loop of `NewDateTimeFromTimeStamp` and `NewDateFromTimeStamp` ends for
every `int64` timestamp under wrap-around multiplication: with fuel for 63 rounds both
constructors return, and for every input above `10^9` there is a number `n < 64` of
multiplications by 10 after which the value is at least `10^18`, the loop returning exactly
then; before that the value, which may have overflowed to a negative number, is never 0. -/
theorem scaling_loop_terminates (t : Int) (fuel : Nat) (h1 : -2 ^ 63 ≤ t) (h2 : t < 2 ^ 63)
    (hf : 63 ≤ fuel) :
    (NewDateTimeFromTimeStamp fuel t).isSome = true
      ∧ (NewDateFromTimeStamp fuel t).isSome = true
      ∧ (10 ^ 9 < t → ∃ n, n < 64
          ∧ (∀ j, j < n → timesTen j t < 10 ^ 18 ∧ timesTen j t ≠ 0)
          ∧ 10 ^ 18 ≤ timesTen n t
          ∧ scaleLoop fuel t 0 = some (timesTen n t, n)) := by
  have key : 10 ^ 9 < t → ∃ n, n < 64
      ∧ (∀ j, j < n → timesTen j t < 10 ^ 18 ∧ timesTen j t ≠ 0)
      ∧ 10 ^ 18 ≤ timesTen n t
      ∧ scaleLoop fuel t 0 = some (timesTen n t, n) := by
    intro hbig
    have hex : ∃ n, n < 64 ∧ 10 ^ 18 ≤ timesTen n t := timesTen_reaches t (by omega) h2
    have hmin : ∀ j, j < Nat.find hex → timesTen j t < 10 ^ 18 := by
      intro j hj
      by_contra hge
      exact Nat.find_min hex hj ⟨lt_trans hj (Nat.find_spec hex).1, not_lt.1 hge⟩
    refine ⟨Nat.find hex, (Nat.find_spec hex).1, ?_, (Nat.find_spec hex).2, ?_⟩
    · intro j hj
      refine ⟨hmin j hj, ?_⟩
      intro hz
      have e : Nat.find hex = j + (Nat.find hex - j) := by omega
      have h3 := (Nat.find_spec hex).2
      rw [e, timesTen_add, hz, timesTen_zero_stays] at h3
      omega
    · have h := scaleLoop_eq (Nat.find hex) fuel t 0 hmin (Nat.find_spec hex).2
        (by have := (Nat.find_spec hex).1; omega)
      rw [h, Nat.zero_add]
  refine ⟨?_, ?_, key⟩
  · unfold NewDateTimeFromTimeStamp
    by_cases hz : t = 0
    · rw [if_pos hz]; rfl
    · rw [if_neg hz]
      by_cases hb : t > 10 ^ 9
      · obtain ⟨n, _, _, _, hs⟩ := key hb
        rw [if_pos hb, hs]; rfl
      · rw [if_neg hb]; rfl
  · unfold NewDateFromTimeStamp
    by_cases hz : t = 0
    · rw [if_pos hz]; rfl
    · rw [if_neg hz]
      by_cases hb : t > 10 ^ 9
      · obtain ⟨n, _, _, _, hs⟩ := key hb
        rw [if_pos hb, hs]; rfl
      · rw [if_neg hb]; rfl
/-- Witness of `scaling_loop_terminates`: the input `922337203685477581`, whose first
product overflows. -/
theorem scaling_loop_terminates_witness :
    (10 : Int) ^ 9 < 922337203685477581 ∧ (922337203685477581 : Int) < 2 ^ 63
      ∧ wrap64 (922337203685477581 * 10) < 0
      ∧ ∃ n, n < 64
          ∧ (∀ j, j < n → timesTen j 922337203685477581 < 10 ^ 18
              ∧ timesTen j 922337203685477581 ≠ 0)
          ∧ 10 ^ 18 ≤ timesTen n 922337203685477581
          ∧ scaleLoop 63 922337203685477581 0 = some (timesTen n 922337203685477581, n) :=
  ⟨by decide, by decide, by decide,
    (scaling_loop_terminates 922337203685477581 63 (by decide) (by decide) (by decide)).2.2
      (by decide)⟩

/-- The constructors on a value above `10^9` that `j` exact multiplications bring to
`sec * 10^9 + nsec`. -/
theorem stamp_of_exact (j fuel : Nat) (t sec nsec : Int) (hb : 10 ^ 9 < t)
    (hlt : j = 0 ∨ t * 10 ^ (j - 1) < 10 ^ 18) (hge : 10 ^ 18 ≤ t * 10 ^ j)
    (hmax : t * 10 ^ j < 2 ^ 63) (hf : j ≤ fuel)
    (he : t * 10 ^ j = sec * 10 ^ 9 + nsec) (hn0 : 0 ≤ nsec) (hn1 : nsec < 10 ^ 9) :
    NewDateTimeFromTimeStamp fuel t = some (.unix sec nsec)
      ∧ NewDateFromTimeStamp fuel t = some (.unix sec nsec) := by
  have hs := (scaleLoop_exact j fuel t (by omega) hlt hge hmax hf).1
  have hz : ¬ t = 0 := by omega
  have hpos : 0 ≤ t * 10 ^ j := by omega
  have hd : Int.tdiv (t * 10 ^ j) (10 ^ 9) = sec := by
    rw [Int.tdiv_eq_ediv hpos (by norm_num), he]; omega
  have hm : Int.tmod (t * 10 ^ j) (10 ^ 9) = nsec := by
    rw [Int.tmod_eq_emod hpos (by norm_num), he]; omega
  constructor
  · unfold NewDateTimeFromTimeStamp
    rw [if_neg hz, if_pos hb, hs]
    simp only [hd, hm]
  · unfold NewDateFromTimeStamp
    rw [if_neg hz, if_pos hb, hs]
    simp only [hd, hm]

/-- C25: For every second count `s` with `10^9 ≤ s ≤ 9223372035`, every `k` in
`{0, 3, 6, 9}` and every fraction `0 ≤ f < 10^k`, the constructors
`NewDateTimeFromTimeStamp` and `NewDateFromTimeStamp` applied to `s * 10^k + f` return
(given fuel for 9 rounds) `time.Unix(s, f * 10^(9-k))`, the instant `s` seconds and
`f * 10^(9-k)` nanoseconds after the epoch, and none of the at most `9 - k`
multiplications of the scaling loop overflows. -/
theorem timestamp_precision (s f : Int) (k fuel : Nat) (hs1 : 10 ^ 9 ≤ s)
    (hs2 : s ≤ 9223372035) (hk : k = 0 ∨ k = 3 ∨ k = 6 ∨ k = 9) (hf0 : 0 ≤ f)
    (hf1 : f < 10 ^ k) (hfuel : 9 ≤ fuel) :
    NewDateTimeFromTimeStamp fuel (s * 10 ^ k + f) = some (.unix s (f * 10 ^ (9 - k)))
      ∧ NewDateFromTimeStamp fuel (s * 10 ^ k + f) = some (.unix s (f * 10 ^ (9 - k)))
      ∧ Stamp.unixNano (.unix s (f * 10 ^ (9 - k))) = s * 10 ^ 9 + f * 10 ^ (9 - k)
      ∧ 0 ≤ f * 10 ^ (9 - k) ∧ f * 10 ^ (9 - k) < 10 ^ 9
      ∧ ∀ i, i ≤ 9 - k → timesTen i (s * 10 ^ k + f) = (s * 10 ^ k + f) * 10 ^ i := by
  have hno : ∀ i, i ≤ 9 - k → timesTen i (s * 10 ^ k + f) = (s * 10 ^ k + f) * 10 ^ i := by
    intro i hi
    apply timesTen_exact
    · rcases hk with rfl | rfl | rfl | rfl <;> norm_num at hf1 ⊢ <;> omega
    · have hp : (10 : Int) ^ i ≤ 10 ^ (9 - k) := pow_le_pow_right₀ (by norm_num) hi
      have h0 : 0 ≤ s * 10 ^ k + f := by
        rcases hk with rfl | rfl | rfl | rfl <;> norm_num at hf1 ⊢ <;> omega
      have := mul_le_mul_of_nonneg_left hp h0
      have hm : (s * 10 ^ k + f) * 10 ^ (9 - k) < 2 ^ 63 := by
        rcases hk with rfl | rfl | rfl | rfl <;> norm_num at hf1 ⊢ <;> omega
      omega
  refine ⟨?_, ?_, rfl, ?_, ?_, hno⟩
  · by_cases hb : 10 ^ 9 < s * 10 ^ k + f
    · refine (stamp_of_exact (9 - k) fuel _ s (f * 10 ^ (9 - k)) hb ?_ ?_ ?_ (by omega) ?_ ?_ ?_).1
      all_goals (rcases hk with rfl | rfl | rfl | rfl <;> norm_num at hf1 hb ⊢ <;> omega)
    · have hk0 : k = 0 := by
        rcases hk with rfl | rfl | rfl | rfl <;> norm_num at hf1 hb ⊢ <;> omega
      subst hk0
      norm_num at hf1 hb ⊢
      have hs : s = 10 ^ 9 := by omega
      have hf : f = 0 := by omega
      subst hs hf
      unfold NewDateTimeFromTimeStamp
      rw [if_neg (by decide), if_neg (by decide)]
      decide
  · by_cases hb : 10 ^ 9 < s * 10 ^ k + f
    · refine (stamp_of_exact (9 - k) fuel _ s (f * 10 ^ (9 - k)) hb ?_ ?_ ?_ (by omega) ?_ ?_ ?_).2
      all_goals (rcases hk with rfl | rfl | rfl | rfl <;> norm_num at hf1 hb ⊢ <;> omega)
    · have hk0 : k = 0 := by
        rcases hk with rfl | rfl | rfl | rfl <;> norm_num at hf1 hb ⊢ <;> omega
      subst hk0
      norm_num at hf1 hb ⊢
      have hs : s = 10 ^ 9 := by omega
      have hf : f = 0 := by omega
      subst hs hf
      unfold NewDateFromTimeStamp
      rw [if_neg (by decide), if_neg (by decide)]
      decide
  · rcases hk with rfl | rfl | rfl | rfl <;> norm_num at hf1 ⊢ <;> omega
  · rcases hk with rfl | rfl | rfl | rfl <;> norm_num at hf1 ⊢ <;> omega

/-- Witness of `timestamp_precision`: `1600443866199266` microseconds. -/
theorem timestamp_precision_witness :
    NewDateTimeFromTimeStamp 9 (1600443866 * 10 ^ 6 + 199266) = some (.unix 1600443866 (199266 * 10 ^ (9 - 6)))
      ∧ NewDateTimeFromTimeStamp 9 1600443866 = some (.unix 1600443866 0)
      ∧ NewDateTimeFromTimeStamp 9 1600443866199266000 = some (.unix 1600443866 199266000) :=
  ⟨(timestamp_precision 1600443866 199266 6 9 (by decide) (by decide) (by decide) (by decide)
      (by decide) (by decide)).1, by decide, by decide⟩

/-- The loop of `Split` stops at index 63 when the key has at least 64 characters, and is
left without a hit otherwise. -/
theorem splitIndex_eq (n : Nat) : ∀ (fuel i : Nat), i ≤ 63 → n ≤ fuel + i →
    splitIndex n fuel i = if 64 ≤ n then some 63 else none := by
  intro fuel
  induction fuel with
  | zero =>
    intro i hi hn
    have : ¬ 64 ≤ n := by omega
    simp only [splitIndex, if_neg this]
  | succ f ih =>
    intro i hi hn
    by_cases h1 : i < n
    · by_cases h2 : (i + 1) % 64 = 0
      · have hi63 : i = 63 := by omega
        have : 64 ≤ n := by omega
        subst hi63
        simp only [splitIndex]
        rw [if_pos h1, if_pos trivial, if_pos this]
      · simp only [splitIndex, if_pos h1, if_neg h2]
        exact ih (i + 1) (by omega) (by omega)
    · have : ¬ 64 ≤ n := by omega
      simp only [splitIndex, if_neg h1, if_neg this]

theorem splitIndex_start (n : Nat) :
    splitIndex n n 0 = if 64 ≤ n then some 63 else none :=
  splitIndex_eq n n 0 (by omega) (by omega)

theorem chunkLines_length (n : Nat) : ∀ key : Bytes, n * 64 ≤ key.length →
    (chunkLines n key).length = n * 65 := by
  induction n with
  | zero => intro key _; simp [chunkLines]
  | succ n ih =>
    intro key h
    simp only [chunkLines, List.length_append, List.length_take, List.length_cons,
      List.length_nil]
    rw [ih (key.drop 64) (by rw [List.length_drop]; omega)]
    omega

/-- The output of `Split`, for every key and enough fuel for its `len(key)/64 + 1` calls. -/
theorem Split_eq (m : Nat) : ∀ (key temp : Bytes) (fuel : Nat), key.length / 64 = m →
    m + 1 ≤ fuel → Split fuel key temp = temp ++ splitLines key := by
  induction m with
  | zero =>
    intro key temp fuel hm hf
    have hlen : key.length < 64 := by omega
    obtain ⟨f, rfl⟩ : ∃ f, fuel = f + 1 := ⟨fuel - 1, by omega⟩
    have h64 : ¬ 64 ≤ key.length := by omega
    have hle : key.length ≤ 64 := by omega
    simp only [Split, splitIndex_start, if_neg h64, if_pos hle]
    unfold splitLines
    by_cases h0 : key.length = 0
    · have : key = [] := List.length_eq_zero.1 h0
      subst this
      simp
    · have hmod : key.length % 64 ≠ 0 := by omega
      have hdiv : key.length / 64 = 0 := by omega
      rw [if_neg h0, if_pos hmod, hdiv]
      simp only [chunkLines, Nat.zero_add, List.append_nil]
      rw [List.take_of_length_le (by omega), List.append_assoc]
  | succ m ih =>
    intro key temp fuel hm hf
    have hlen : 64 ≤ key.length := by omega
    obtain ⟨f, rfl⟩ : ∃ f, fuel = f + 1 := ⟨fuel - 1, by omega⟩
    have hrest : (key.drop 64).length = key.length - 64 := List.length_drop _ _
    have hrm : (key.drop 64).length / 64 = m := by omega
    simp only [Split, splitIndex_start, if_pos hlen]
    rw [ih (key.drop 64) _ f hrm (by omega)]
    have h0 : ¬ key.length = 0 := by omega
    by_cases h64 : key.length = 64
    · have hle : key.length ≤ 64 := by omega
      have hr0 : (key.drop 64).length = 0 := by omega
      have hmod : ¬ key.length % 64 ≠ 0 := by omega
      rw [if_pos hle]
      unfold splitLines
      rw [if_pos hr0, if_neg h0, if_neg hmod, h64]
      simp only [chunkLines, Nat.sub_self, List.drop_zero, List.append_nil, List.append_assoc]
      rw [List.take_of_length_le (by omega)]
    · have hle : ¬ key.length ≤ 64 := by omega
      have hr0 : ¬ (key.drop 64).length = 0 := by omega
      rw [if_neg hle]
      unfold splitLines
      rw [if_neg hr0, if_neg h0]
      by_cases hmod : key.length % 64 ≠ 0
      · have hmod2 : (key.drop 64).length % 64 ≠ 0 := by omega
        have e : key.length / 64 + 1 = ((key.drop 64).length / 64 + 1) + 1 := by omega
        rw [if_pos hmod, if_pos hmod2, e]
        simp only [chunkLines, List.append_assoc]
      · have hmod2 : ¬ (key.drop 64).length % 64 ≠ 0 := by omega
        have e : key.length / 64 = (key.drop 64).length / 64 + 1 := by omega
        have e2 : key.length - 64 = 64 + ((key.drop 64).length - 64) := by omega
        rw [if_neg hmod, if_neg hmod2, e, e2, ← List.drop_drop]
        simp only [chunkLines, List.append_assoc]
/-- C28: Function `Split` ends for every key: with fuel for its `len(key)/64 + 1` calls it
returns, and what it appends to `*temp` is a single newline for the empty key, the key's
consecutive 64-character chunks, each followed by a newline, when `len(key)` is not a
multiple of 64, and for a positive multiple of 64 all chunks, then the last 64-character
chunk a second time, then an empty line, so that `len(key) + 64` key characters and
`len(key)/64 + 2` newlines are appended. -/
theorem split_exact_output (key temp : Bytes) (fuel : Nat)
    (hf : key.length / 64 + 1 ≤ fuel) :
    Split fuel key temp = temp ++ splitLines key
      ∧ (key.length = 0 → Split fuel key temp = temp ++ [10])
      ∧ (key.length % 64 ≠ 0 →
          Split fuel key temp = temp ++ chunkLines (key.length / 64 + 1) key)
      ∧ (0 < key.length → key.length % 64 = 0 →
          Split fuel key temp
              = temp ++ chunkLines (key.length / 64) key ++ key.drop (key.length - 64)
                  ++ [10] ++ [10]
            ∧ (Split fuel key temp).length
              = temp.length + (key.length + 64) + (key.length / 64 + 2)) := by
  have h := Split_eq (key.length / 64) key temp fuel rfl hf
  refine ⟨h, ?_, ?_, ?_⟩
  · intro h0
    rw [h]
    unfold splitLines
    rw [if_pos h0]
  · intro hm
    have h0 : ¬ key.length = 0 := by omega
    rw [h]
    unfold splitLines
    rw [if_neg h0, if_pos hm]
  · intro hpos hm
    have h0 : ¬ key.length = 0 := by omega
    have hm2 : ¬ key.length % 64 ≠ 0 := by omega
    have e : Split fuel key temp
        = temp ++ chunkLines (key.length / 64) key ++ key.drop (key.length - 64)
            ++ [10] ++ [10] := by
      rw [h]
      unfold splitLines
      rw [if_neg h0, if_neg hm2]
      simp only [List.append_assoc]
    refine ⟨e, ?_⟩
    rw [e]
    simp only [List.length_append, List.length_drop, List.length_cons, List.length_nil]
    rw [chunkLines_length _ key (by omega)]
    omega

/-- Witness of `split_exact_output`: a key of 64 characters, with the fuel `FormateKey`
passes. -/
theorem split_exact_output_witness :
    (List.replicate 64 (65 : Byte)).length / 64 + 1 ≤ 65
      ∧ Split 65 (List.replicate 64 65) []
          = [] ++ chunkLines ((List.replicate 64 (65 : Byte)).length / 64) (List.replicate 64 65)
              ++ (List.replicate 64 (65 : Byte)).drop ((List.replicate 64 (65 : Byte)).length - 64)
              ++ [10] ++ [10] :=
  ⟨by decide, ((split_exact_output (List.replicate 64 65) [] 65 (by decide)).2.2.2
    (by decide) (by decide)).1⟩

theorem demoSignLib_lawful : demoSignLib.Lawful := by
  intro rnd priv hash digest sig h
  simp only [demoSignLib] at h ⊢
  by_cases hk : priv.D + 1 = priv.PublicKey.N
  · rw [if_pos hk] at h
    injection h with h
    subst h
    have : priv.PublicKey.N - 1 = priv.D := by omega
    rw [this, if_pos rfl]
  · rw [if_neg hk] at h
    cases h

/-- C21: For every key pair given as a private-key PEM whose DER body parses as PKCS#1, or
fails to and parses as PKCS#8, to the RSA key `priv`, and a public-key PEM whose PKIX body
parses to the public key of `priv`, and for every library: `SHA256WithRSABase64 data
privPem` is the standard base64 text of what `SignPKCS1v15` returns for `priv`, the
identifier `crypto.SHA256` and the `Sum256` digest of `data` (or its error);
`VerifySHA256WithRSABase64 origin s pubPem`, for `s` the base64 text of any signature
`sig`, is what `VerifyPKCS1v15` returns for the public key of `priv`, the identifier
`crypto.SHA256`, the `Sum256` digest of `origin` and `sig`; so when the library meets its
sign-then-verify contract `SignLib.Lawful` and `SHA256WithRSABase64 data privPem` returns
the signature `s` (and no error), `VerifySHA256WithRSABase64 data s pubPem` returns nil. -/
theorem sign_verify_roundtrip (L : SignLib) (rnd data privPem pubPem : Bytes)
    (bp bq : Block) (priv : RSAPrivateKey)
    (hp : pemDecode privPem = some bp)
    (hkey : L.ParsePKCS1PrivateKey bp.Bytes = .ok priv
      ∨ ((∃ e, L.ParsePKCS1PrivateKey bp.Bytes = .error e)
          ∧ L.ParsePKCS8PrivateKey bp.Bytes = .ok (some priv)))
    (hq : pemDecode pubPem = some bq)
    (hpub : L.ParsePKIXPublicKey bq.Bytes = .ok (some priv.PublicKey)) :
    SHA256WithRSABase64 L rnd data privPem
        = (match L.SignPKCS1v15 rnd priv 5 (L.Sum256 data) with
          | .error err => ([], some err)
          | .ok sig => (StdEncoding.encode sig, none))
      ∧ (∀ origin sig : Bytes,
          VerifySHA256WithRSABase64 L origin (StdEncoding.encode sig) pubPem
            = L.VerifyPKCS1v15 priv.PublicKey 5 (L.Sum256 origin) sig)
      ∧ (∀ origin s : Bytes, (StdEncoding.decode s).2 ≠ none →
          VerifySHA256WithRSABase64 L origin s pubPem = (StdEncoding.decode s).2)
      ∧ (L.Lawful → ∀ s, SHA256WithRSABase64 L rnd data privPem = (s, none) →
          VerifySHA256WithRSABase64 L data s pubPem = none) := by
  have hpriv : ParsePKCS1Or8PrivKey L privPem = .ok priv := by
    unfold ParsePKCS1Or8PrivKey
    rw [hp]
    rcases hkey with h1 | ⟨⟨e, h1⟩, h8⟩
    · simp only [h1]
    · simp only [h1, h8]
  have hpubk : ParsePublicKey L pubPem = .ok priv.PublicKey := by
    unfold ParsePublicKey
    rw [hq]
    simp only [hpub]
  have hsign : SHA256WithRSABase64 L rnd data privPem
      = (match L.SignPKCS1v15 rnd priv 5 (L.Sum256 data) with
        | .error err => ([], some err)
        | .ok sig => (StdEncoding.encode sig, none)) := by
    rcases hsig : L.SignPKCS1v15 rnd priv 5 (L.Sum256 data) with err | sig <;>
      simp only [SHA256WithRSABase64, SHA256WithRSA, hpriv, cryptoSHA256, hsig,
        Bool.false_eq_true, if_false]
  have hver : ∀ origin sig : Bytes,
      VerifySHA256WithRSABase64 L origin (StdEncoding.encode sig) pubPem
        = L.VerifyPKCS1v15 priv.PublicKey 5 (L.Sum256 origin) sig := by
    intro origin sig
    unfold VerifySHA256WithRSABase64
    rw [hpubk]
    simp only [std_decode_encode, cryptoSHA256]
  refine ⟨hsign, hver, ?_, ?_⟩
  · intro origin s hs
    unfold VerifySHA256WithRSABase64
    rw [hpubk]
    rcases hd : StdEncoding.decode s with ⟨v, e⟩
    rw [hd] at hs
    cases e with
    | none => exact absurd rfl hs
    | some err => rfl
  · intro hL s hs
    rw [hsign] at hs
    rcases hsig : L.SignPKCS1v15 rnd priv 5 (L.Sum256 data) with err | sig
    · rw [hsig] at hs
      simp at hs
    · rw [hsig] at hs
      simp only [Prod.mk.injEq, and_true] at hs
      subst hs
      rw [hver]
      exact hL rnd priv _ _ sig hsig

set_option maxRecDepth 20000 in
/-- The two PEM labels of private keys and the label of public keys hold no line end and
no colon. -/
theorem key_labels_plain (T : Bytes)
    (h : T = ascii "RSA PRIVATE KEY" ∨ T = ascii "PRIVATE KEY" ∨ T = ascii "PUBLIC KEY") :
    ∀ c ∈ T, c ≠ 10 ∧ c ≠ 13 ∧ c ≠ 58 := by
  rcases h with rfl | rfl | rfl <;> decide

/-- Witness of `sign_verify_roundtrip`: a PKCS#1 key and its public key in the toy
library; the signature of `data` is accepted for `data` and refused for `datb`. -/
theorem sign_verify_roundtrip_witness :
    VerifySHA256WithRSABase64 demoSignLib (ascii "data")
        (StdEncoding.encode (ascii "data" ++ [5, 6]))
        (pemEncode { Typ := ascii "PUBLIC KEY", Bytes := [7, 3] }) = none
      ∧ VerifySHA256WithRSABase64 demoSignLib (ascii "datb")
        (StdEncoding.encode (ascii "data" ++ [5, 6]))
        (pemEncode { Typ := ascii "PUBLIC KEY", Bytes := [7, 3] }) = some (.library 2) := by
  have h := sign_verify_roundtrip demoSignLib [] (ascii "data")
    (pemEncode { Typ := ascii "RSA PRIVATE KEY", Bytes := [7, 3, 6] })
    (pemEncode { Typ := ascii "PUBLIC KEY", Bytes := [7, 3] })
    { Typ := ascii "RSA PRIVATE KEY", Bytes := [7, 3, 6] }
    { Typ := ascii "PUBLIC KEY", Bytes := [7, 3] }
    ⟨⟨7, 3⟩, 6⟩
    (pemDecode_pemEncode _ _ (key_labels_plain _ (Or.inl rfl)))
    (Or.inl rfl)
    (pemDecode_pemEncode _ _ (key_labels_plain _ (Or.inr (Or.inr rfl))))
    rfl
  refine ⟨h.2.2.2 demoSignLib_lawful _ (by rw [h.1]; rfl), ?_⟩
  rw [h.2.1]
  decide

/-! ### Decimal numerals -/

theorem decimalDigits_fuel (n : Nat) : ∀ f, n < f → decimalDigits f n = dec n := by
  induction n using Nat.strong_induction_on with
  | _ n ih =>
    intro f hf
    obtain ⟨g, rfl⟩ : ∃ g, f = g + 1 := ⟨f - 1, by omega⟩
    unfold dec
    by_cases h : n < 10
    · simp only [decimalDigits, if_pos h]
    · simp only [decimalDigits, if_neg h]
      rw [ih (n / 10) (by omega) g (by omega), ih (n / 10) (by omega) n (by omega)]

theorem dec_small (n : Nat) (h : n < 10) : dec n = [toByte (48 + n)] := by
  simp only [dec, decimalDigits, if_pos h]

theorem dec_step (n : Nat) (h : 10 ≤ n) : dec n = dec (n / 10) ++ [toByte (48 + n % 10)] := by
  have h2 : ¬ n < 10 := by omega
  show decimalDigits (n + 1) n = _
  simp only [decimalDigits, if_neg h2]
  rw [decimalDigits_fuel (n / 10) n (by omega)]

theorem dec_ne_nil (n : Nat) : dec n ≠ [] := by
  by_cases h : n < 10
  · rw [dec_small n h]; simp
  · rw [dec_step n (by omega)]; simp

theorem toByte_digit_val (d : Nat) (h : d < 10) : (toByte (48 + d)).val = 48 + d := by
  exact toByte_val_of_lt (by omega)

theorem digitsValue_append (a b : Bytes) : ∀ acc,
    digitsValue (a ++ b) acc = (digitsValue a acc).bind (fun v => digitsValue b v) := by
  induction a with
  | nil => intro acc; rfl
  | cons c a ih =>
    intro acc
    by_cases h : 48 ≤ c.val ∧ c.val ≤ 57
    · rw [List.cons_append]
      simp only [digitsValue, if_pos h]
      exact ih _
    · rw [List.cons_append]
      simp only [digitsValue, if_neg h]
      rfl

theorem digitsValue_digit (d acc : Nat) (h : d < 10) :
    digitsValue [toByte (48 + d)] acc = some (acc * 10 + d) := by
  have hv := toByte_digit_val d h
  have hr : 48 ≤ (toByte (48 + d)).val ∧ (toByte (48 + d)).val ≤ 57 := by omega
  show (if 48 ≤ (toByte (48 + d)).val ∧ (toByte (48 + d)).val ≤ 57 then
      digitsValue [] (acc * 10 + ((toByte (48 + d)).val - 48)) else none) = _
  rw [if_pos hr, hv]
  show some _ = some _
  congr 1
  omega

theorem digitsValue_zeros (k : Nat) : ∀ acc,
    digitsValue (List.replicate k (48 : Byte)) acc = some (acc * 10 ^ k) := by
  induction k with
  | zero => intro acc; simp [digitsValue]
  | succ k ih =>
    intro acc
    have hr : 48 ≤ (48 : Byte).val ∧ (48 : Byte).val ≤ 57 := by decide
    have hv : (48 : Byte).val - 48 = 0 := by decide
    simp only [List.replicate_succ, digitsValue, if_pos hr, hv, ih, Nat.add_zero]
    congr 1
    ring

theorem digitsValue_dec (n : Nat) : ∀ acc,
    digitsValue (dec n) acc = some (acc * 10 ^ (dec n).length + n) := by
  induction n using Nat.strong_induction_on with
  | _ n ih =>
    intro acc
    by_cases h : n < 10
    · rw [dec_small n h, digitsValue_digit n acc h]
      simp
    · rw [dec_step n (by omega), digitsValue_append, ih (n / 10) (by omega)]
      simp only [Option.some_bind, Option.bind]
      rw [digitsValue_digit _ _ (Nat.mod_lt _ (by decide))]
      simp only [List.length_append, List.length_cons, List.length_nil]
      congr 1
      have := Nat.div_add_mod n 10
      rw [pow_succ]
      nlinarith [Nat.div_add_mod n 10]

/-- The two-digit fields of `time.Format`. -/
theorem appendInt_two (n : Nat) (h : n < 100) :
    appendInt (n : Int) 2 = [toByte (48 + n / 10), toByte (48 + n % 10)] := by
  have hneg : ¬ (n : Int) < 0 := by omega
  unfold appendInt
  rw [if_neg hneg, Int.natAbs_ofNat]
  by_cases h10 : n < 10
  · rw [dec_small n h10]
    have e1 : n / 10 = 0 := by omega
    have e2 : n % 10 = n := by omega
    rw [e1, e2]
    rfl
  · rw [dec_step n (by omega), dec_small (n / 10) (by omega)]
    rfl

theorem digitsValue_two (n acc : Nat) (h : n < 100) :
    digitsValue (appendInt (n : Int) 2) acc = some (acc * 100 + n) := by
  rw [appendInt_two n h]
  have e : [toByte (48 + n / 10), toByte (48 + n % 10)]
      = [toByte (48 + n / 10)] ++ [toByte (48 + n % 10)] := rfl
  rw [e, digitsValue_append, digitsValue_digit _ _ (by omega)]
  simp only [Option.some_bind, Option.bind]
  rw [digitsValue_digit _ _ (by omega)]
  congr 1
  omega

/-- A number followed by a two-digit field. -/
theorem dec_two (a b : Nat) (ha : 0 < a) (hb : b < 100) :
    dec (a * 100 + b) = dec a ++ appendInt (b : Int) 2 := by
  rw [appendInt_two b hb, dec_step (a * 100 + b) (by omega)]
  have e1 : (a * 100 + b) / 10 = a * 10 + b / 10 := by omega
  have e2 : (a * 100 + b) % 10 = b % 10 := by omega
  rw [e1, e2, dec_step (a * 10 + b / 10) (by omega)]
  have e3 : (a * 10 + b / 10) / 10 = a := by omega
  have e4 : (a * 10 + b / 10) % 10 = b / 10 := by omega
  rw [e3, e4]
  simp

theorem dec_length_four (n : Nat) (h : 1000 ≤ n) : 4 ≤ (dec n).length := by
  rw [dec_step n (by omega), dec_step (n / 10) (by omega), dec_step (n / 10 / 10) (by omega)]
  have := dec_ne_nil (n / 10 / 10 / 10)
  have : 0 < (dec (n / 10 / 10 / 10)).length := List.length_pos.2 this
  simp only [List.length_append, List.length_cons, List.length_nil]
  omega
/-- A string of digits that `digitsValue` accepts is accepted by `SetString`. -/
theorem bigSetString_digits (s : Bytes) (v : Nat) (hs : s ≠ [])
    (h : digitsValue s 0 = some v) : bigSetString s = some (v : Int) := by
  cases s with
  | nil => exact absurd rfl hs
  | cons c rest =>
    have hr : 48 ≤ c.val ∧ c.val ≤ 57 := by
      by_contra hn
      simp only [digitsValue, if_neg hn] at h
      cases h
    have h45 : c ≠ 45 := by
      intro e; subst e; revert hr; decide
    have h43 : c ≠ 43 := by
      intro e; subst e; revert hr; decide
    simp only [bigSetString, if_neg h45, if_neg h43, h]
    rfl

theorem bigSetString_minus (s : Bytes) (v : Nat) (hs : s ≠ [])
    (h : digitsValue s 0 = some v) : bigSetString (45 :: s) = some (-(v : Int)) := by
  simp only [bigSetString, if_neg hs, h, if_true]
  rfl

/-- The five two-digit fields that follow the year. -/
theorem serial_fields (m d h mi s : Nat) (hm : m < 100) (hd : d < 100) (hh : h < 100)
    (hmi : mi < 100) (hs : s < 100) (acc : Nat) :
    digitsValue (appendInt (m : Int) 2 ++ appendInt (d : Int) 2 ++ appendInt (h : Int) 2 ++
        appendInt (mi : Int) 2 ++ appendInt (s : Int) 2) acc
      = some (acc * 10 ^ 10 + (m * 10 ^ 8 + d * 10 ^ 6 + h * 10 ^ 4 + mi * 10 ^ 2 + s)) := by
  simp only [digitsValue_append, digitsValue_two _ _ hm, digitsValue_two _ _ hd,
    digitsValue_two _ _ hh, digitsValue_two _ _ hmi, digitsValue_two _ _ hs,
    Option.some_bind, Option.bind]
  congr 1
  ring

/-- The digits of the year, without the sign. -/
theorem year_digits (y w acc : Nat) :
    digitsValue (List.replicate (w - (dec y).length) 48 ++ dec y) acc
      = some (acc * 10 ^ ((w - (dec y).length) + (dec y).length) + y) := by
  rw [digitsValue_append, digitsValue_zeros, Option.some_bind, digitsValue_dec]
  congr 1
  ring

theorem formatSerial_split (t : Time) :
    formatSerial t = (if t.Year < 0 then [45] else []) ++
      ((List.replicate (4 - (dec t.Year.natAbs).length) 48 ++ dec t.Year.natAbs) ++
        (appendInt (t.Month : Int) 2 ++ appendInt (t.Day : Int) 2 ++ appendInt (t.Hour : Int) 2
          ++ appendInt (t.Minute : Int) 2 ++ appendInt (t.Second : Int) 2)) := by
  simp only [formatSerial, appendInt, List.append_assoc]

/-- The serial number: the text `now.Format("20060102150405")` always converts, to the
number whose digits are those of year, month, day, hour, minute and second. -/
theorem serial_value (t : Time) (hw : t.wellFormed) :
    bigSetString (formatSerial t)
      = some ((if t.Year < 0 then -1 else 1) *
          ((t.Year.natAbs * 10 ^ 10 + (t.Month * 10 ^ 8 + t.Day * 10 ^ 6 + t.Hour * 10 ^ 4
            + t.Minute * 10 ^ 2 + t.Second) : Nat) : Int)) := by
  obtain ⟨_, h2, _, h4, h5, h6, h7, _⟩ := hw
  have hv : digitsValue
      ((List.replicate (4 - (dec t.Year.natAbs).length) 48 ++ dec t.Year.natAbs) ++
        (appendInt (t.Month : Int) 2 ++ appendInt (t.Day : Int) 2 ++ appendInt (t.Hour : Int) 2
          ++ appendInt (t.Minute : Int) 2 ++ appendInt (t.Second : Int) 2)) 0
      = some (t.Year.natAbs * 10 ^ 10 + (t.Month * 10 ^ 8 + t.Day * 10 ^ 6 + t.Hour * 10 ^ 4
            + t.Minute * 10 ^ 2 + t.Second)) := by
    rw [digitsValue_append, year_digits, Option.some_bind,
      serial_fields _ _ _ _ _ (by omega) (by omega) (by omega) (by omega) (by omega)]
    simp
  have hne : (List.replicate (4 - (dec t.Year.natAbs).length) 48 ++ dec t.Year.natAbs) ++
        (appendInt (t.Month : Int) 2 ++ appendInt (t.Day : Int) 2 ++ appendInt (t.Hour : Int) 2
          ++ appendInt (t.Minute : Int) 2 ++ appendInt (t.Second : Int) 2) ≠ [] := by
    have := dec_ne_nil t.Year.natAbs
    simp [this]
  rw [formatSerial_split]
  by_cases hy : t.Year < 0
  · rw [if_pos hy, if_pos hy, List.singleton_append, bigSetString_minus _ _ hne hv]
    simp
  · rw [if_neg hy, if_neg hy, List.nil_append, bigSetString_digits _ _ hne hv]
    simp

/-- From year 1000 on the decimal text of the serial number is the formatted time. -/
theorem serial_text (t : Time) (hw : t.wellFormed) (hy : 1000 ≤ t.Year) :
    bigString (((t.Year.natAbs * 10 ^ 10 + (t.Month * 10 ^ 8 + t.Day * 10 ^ 6 + t.Hour * 10 ^ 4
        + t.Minute * 10 ^ 2 + t.Second) : Nat) : Int)) = formatSerial t := by
  obtain ⟨_, h2, _, h4, h5, h6, h7, _⟩ := hw
  have hneg : ¬ (((t.Year.natAbs * 10 ^ 10 + (t.Month * 10 ^ 8 + t.Day * 10 ^ 6
      + t.Hour * 10 ^ 4 + t.Minute * 10 ^ 2 + t.Second) : Nat) : Int)) < 0 := by omega
  have hyn : 1000 ≤ t.Year.natAbs := by omega
  have hy0 : ¬ t.Year < 0 := by omega
  have e : t.Year.natAbs * 10 ^ 10 + (t.Month * 10 ^ 8 + t.Day * 10 ^ 6 + t.Hour * 10 ^ 4
      + t.Minute * 10 ^ 2 + t.Second)
      = ((((t.Year.natAbs * 100 + t.Month) * 100 + t.Day) * 100 + t.Hour) * 100 + t.Minute) * 100
        + t.Second := by ring
  have hl := dec_length_four _ hyn
  have hz : 4 - (dec t.Year.natAbs).length = 0 := by omega
  rw [formatSerial_split, if_neg hy0, hz]
  unfold bigString
  rw [if_neg hneg, Int.natAbs_ofNat, e, dec_two _ _ (by omega) (by omega),
    dec_two _ _ (by omega) (by omega), dec_two _ _ (by omega) (by omega),
    dec_two _ _ (by omega) (by omega), dec_two _ _ (by omega) (by omega)]
  simp only [List.replicate_zero, List.nil_append, List.append_assoc]
/-- C22: For every reading `now` of the clock and every expiry `d`, the text
`now.Format("20060102150405")` converts to a serial number, and the template that
`CreatCertificateDer` passes to `x509.CreateCertificate`, both as template and as parent
(so that the issuer is the subject CN/Shanghai/Cardinfolink/everonet.com), has that serial
number, `NotBefore` 5 minutes before `now` and `NotAfter = NotBefore + d`. The serial number
is the number written by the digits of year, month, day, hour, minute and second; the
`certID` returned with the certificate is its decimal text, which from year 1000 on is the
formatted time itself. -/
theorem certificate_template (L : KeyLib) (now : Time) (rnd : Bytes) (priKey : RSAPrivateKey)
    (expiry : Int) (hw : now.wellFormed) :
    ∃ serial : Int,
      bigSetString (formatSerial now) = some serial
      ∧ serial = (if now.Year < 0 then -1 else 1) *
          ((now.Year.natAbs * 10 ^ 10 + (now.Month * 10 ^ 8 + now.Day * 10 ^ 6
            + now.Hour * 10 ^ 4 + now.Minute * 10 ^ 2 + now.Second) : Nat) : Int)
      ∧ (1000 ≤ now.Year → bigString serial = formatSerial now)
      ∧ (certTemplate serial now expiry).SerialNumber = serial
      ∧ (certTemplate serial now expiry).NotBefore = now.UnixNano - 5 * 60 * 10 ^ 9
      ∧ (certTemplate serial now expiry).NotAfter
          = (certTemplate serial now expiry).NotBefore + expiry
      ∧ (certTemplate serial now expiry).NotAfter - (certTemplate serial now expiry).NotBefore
          = expiry
      ∧ (certTemplate serial now expiry).Subject
          = { Country := [ascii "CN"], Province := [ascii "Shanghai"],
              Organization := [ascii "Cardinfolink"], CommonName := ascii "everonet.com" }
      ∧ CreatCertificateDer L now rnd priKey expiry
          = (match L.CreateCertificate rnd (certTemplate serial now expiry)
                (certTemplate serial now expiry) priKey.PublicKey priKey with
            | .error err => (none, [], some err)
            | .ok certDer => (some certDer, bigString serial, none)) := by
  refine ⟨_, serial_value now hw, rfl, ?_, rfl, ?_, rfl, ?_, rfl, ?_⟩
  · intro hy
    have hy0 : ¬ now.Year < 0 := by omega
    rw [if_neg hy0, one_mul]
    exact serial_text now hw hy
  · simp only [certTemplate]
    ring
  · simp only [certTemplate]
    ring
  · simp only [CreatCertificateDer, serial_value now hw]

/-- Witness of `certificate_template`: the reading 2023-11-14 22:13:20 and an expiry of
one hour. -/
theorem certificate_template_witness :
    Time.wellFormed ⟨1700000000 * 10 ^ 9, 2023, 11, 14, 22, 13, 20, 0⟩
      ∧ ∃ serial : Int,
        bigSetString (formatSerial ⟨1700000000 * 10 ^ 9, 2023, 11, 14, 22, 13, 20, 0⟩)
            = some serial
          ∧ serial = 20231114221320
          ∧ bigString serial = ascii "20231114221320"
          ∧ (certTemplate serial ⟨1700000000 * 10 ^ 9, 2023, 11, 14, 22, 13, 20, 0⟩
              (3600 * 10 ^ 9)).NotBefore = 1699999700 * 10 ^ 9
          ∧ (certTemplate serial ⟨1700000000 * 10 ^ 9, 2023, 11, 14, 22, 13, 20, 0⟩
              (3600 * 10 ^ 9)).NotAfter = 1700003300 * 10 ^ 9 := by
  refine ⟨by decide, ?_⟩
  obtain ⟨serial, h1, h2, _, _, h5, h6, _⟩ :=
    certificate_template ⟨fun _ _ => .error (.library 0), fun _ => none, fun _ => [],
        fun _ => .ok [], fun _ _ _ _ _ => .ok []⟩
      ⟨1700000000 * 10 ^ 9, 2023, 11, 14, 22, 13, 20, 0⟩ [] ⟨⟨7, 3⟩, 6⟩ (3600 * 10 ^ 9)
      (by decide)
  have hs : serial = 20231114221320 := by rw [h2]; decide
  refine ⟨serial, h1, hs, ?_, ?_, ?_⟩
  · rw [hs]; decide
  · rw [h5]; decide
  · rw [h6, h5]; decide
theorem derElement_length (tag : Byte) (content : Bytes) :
    content.length + 2 ≤ (derElement tag content).length := by
  unfold derElement derLength
  by_cases h : content.length < 128
  · simp [if_pos h]
  · simp only [if_neg h, List.length_cons, List.length_append]
    omega

/-- The structure `MarshalPKCS8PrivateKey` builds wraps the PKCS#1 text: it is longer. -/
theorem MarshalPKCS8PrivateKey_length (L : KeyLib) (key : RSAPrivateKey) :
    (L.MarshalPKCS1PrivateKey key).length + 20 ≤ (MarshalPKCS8PrivateKey L key).length := by
  unfold MarshalPKCS8PrivateKey
  have h1 := derElement_length 0x04 (L.MarshalPKCS1PrivateKey key)
  have h2 := derElement_length 0x30 ([0x02, 0x01, 0x00] ++ rsaAlgorithm ++
    derElement 0x04 (L.MarshalPKCS1PrivateKey key))
  have h3 : ([0x02, 0x01, 0x00] ++ rsaAlgorithm ++
      derElement 0x04 (L.MarshalPKCS1PrivateKey key)).length
      = 16 + (derElement 0x04 (L.MarshalPKCS1PrivateKey key)).length := by
    simp [rsaAlgorithm]
    omega
  omega

/-- C23: The private-key PEM that `GenerateRSAKeysPem` returns for a generated key `priv`
has the header `RSA PRIVATE KEY`, and what it carries is the custom PKCS#8 structure of
`MarshalPKCS8PrivateKey`, which is not the PKCS#1 text of the key: label and content do
not match. -/
theorem rsa_private_key_label_mismatch (L : KeyLib) (rnd pubDer : Bytes) (priv : RSAPrivateKey)
    (hg : L.GenerateKey rnd 2048 = .ok priv) (hv : L.Validate priv = none)
    (hp : L.MarshalPKIXPublicKey priv.PublicKey = .ok pubDer) :
    ∃ privPem pubPem, GenerateRSAKeysPem L rnd = .ok (privPem, pubPem)
      ∧ pemDecode privPem
          = some { Typ := ascii "RSA PRIVATE KEY", Bytes := MarshalPKCS8PrivateKey L priv }
      ∧ MarshalPKCS8PrivateKey L priv ≠ L.MarshalPKCS1PrivateKey priv := by
  refine ⟨pemEncode { Typ := ascii "RSA PRIVATE KEY", Bytes := MarshalPKCS8PrivateKey L priv },
    pemEncode { Typ := ascii "PUBLIC KEY", Bytes := pubDer }, ?_, ?_, ?_⟩
  · simp only [GenerateRSAKeysPem, GenerateRSAKeyDer, hg, hv, hp]
  · exact pemDecode_pemEncode _ _ (key_labels_plain _ (Or.inl rfl))
  · intro h
    have := MarshalPKCS8PrivateKey_length L priv
    rw [h] at this
    omega

/-- Witness of `rsa_private_key_label_mismatch`: the toy library and three random bytes. -/
theorem rsa_private_key_label_mismatch_witness :
    ∃ privPem pubPem, GenerateRSAKeysPem demoKeyLib [7, 3, 6] = .ok (privPem, pubPem)
      ∧ pemDecode privPem
          = some { Typ := ascii "RSA PRIVATE KEY",
                   Bytes := MarshalPKCS8PrivateKey demoKeyLib ⟨⟨7, 3⟩, 6⟩ }
      ∧ MarshalPKCS8PrivateKey demoKeyLib ⟨⟨7, 3⟩, 6⟩
          ≠ demoKeyLib.MarshalPKCS1PrivateKey ⟨⟨7, 3⟩, 6⟩ :=
  rsa_private_key_label_mismatch demoKeyLib [7, 3, 6] [7, 3] ⟨⟨7, 3⟩, 6⟩ rfl rfl rfl

/-- The private-key PEM of `GenerateRSACertPem` has the header `PRIVATE KEY` and carries
the PKCS#8 structure: here label and content match. -/
theorem GenerateRSACertPem_label (L : KeyLib) (now : Time) (rnd rnd2 : Bytes) (expiry : Int)
    (priv : RSAPrivateKey) (hg : L.GenerateKey rnd 2048 = .ok priv)
    (hv : L.Validate priv = none)
    (hc : (CreatCertificateDer L now rnd2 priv expiry).2.2 = none) :
    pemDecode (GenerateRSACertPem L now rnd rnd2 expiry).1
        = some { Typ := ascii "PRIVATE KEY", Bytes := MarshalPKCS8PrivateKey L priv }
      ∧ (GenerateRSACertPem L now rnd rnd2 expiry).2.2.2 = none := by
  have e : GenerateRSACertDer L now rnd rnd2 expiry
      = (some (MarshalPKCS8PrivateKey L priv), (CreatCertificateDer L now rnd2 priv expiry).1,
          (CreatCertificateDer L now rnd2 priv expiry).2.1, none) := by
    simp only [GenerateRSACertDer, hg, hv, hc]
  unfold GenerateRSACertPem
  rw [e]
  exact ⟨pemDecode_pemEncode _ _ (key_labels_plain _ (Or.inr (Or.inl rfl))), rfl⟩
/-! ### Text and time -/

/-- The four-digit year of `time.Format`, for the years 0 to 9999. -/
theorem appendInt_four (y : Nat) (h : y < 10000) :
    appendInt (y : Int) 4 = [toByte (48 + y / 1000), toByte (48 + y / 100 % 10),
      toByte (48 + y / 10 % 10), toByte (48 + y % 10)] := by
  have hneg : ¬ (y : Int) < 0 := by omega
  unfold appendInt
  rw [if_neg hneg, Int.natAbs_ofNat]
  by_cases h1 : y < 10
  · rw [dec_small y h1]
    have e1 : y / 1000 = 0 := by omega
    have e2 : y / 100 % 10 = 0 := by omega
    have e3 : y / 10 % 10 = 0 := by omega
    have e4 : y % 10 = y := by omega
    rw [e1, e2, e3, e4]
    rfl
  · by_cases h2 : y < 100
    · rw [dec_step y (by omega), dec_small (y / 10) (by omega)]
      have e1 : y / 1000 = 0 := by omega
      have e2 : y / 100 % 10 = 0 := by omega
      have e3 : y / 10 % 10 = y / 10 := by omega
      rw [e1, e2, e3]
      rfl
    · by_cases h3 : y < 1000
      · rw [dec_step y (by omega), dec_step (y / 10) (by omega),
          dec_small (y / 10 / 10) (by omega)]
        have e1 : y / 1000 = 0 := by omega
        have e2 : y / 100 % 10 = y / 10 / 10 := by omega
        rw [e1, e2]
        rfl
      · rw [dec_step y (by omega), dec_step (y / 10) (by omega),
          dec_step (y / 10 / 10) (by omega), dec_small (y / 10 / 10 / 10) (by omega)]
        have e1 : y / 1000 = y / 10 / 10 / 10 := by omega
        have e2 : y / 100 % 10 = y / 10 / 10 % 10 := by omega
        rw [e1, e2]
        rfl

theorem isDigit_zero (d : Nat) (r : Bytes) (h : d < 10) :
    isDigit (toByte (48 + d) :: r) 0 = true := by
  have hv := toByte_digit_val d h
  simp only [isDigit, List.get?_cons_zero, decide_eq_true_eq]
  omega

theorem isDigit_one (c : Byte) (d : Nat) (r : Bytes) (h : d < 10) :
    isDigit (c :: toByte (48 + d) :: r) 1 = true := by
  have hv := toByte_digit_val d h
  simp only [isDigit, List.get?_cons_succ, List.get?_cons_zero, decide_eq_true_eq]
  omega

theorem getnum_two (a b : Nat) (r : Bytes) (fixed : Bool) (ha : a < 10) (hb : b < 10) :
    getnum (toByte (48 + a) :: toByte (48 + b) :: r) fixed = some (a * 10 + b, r) := by
  unfold getnum
  rw [isDigit_zero a _ ha, isDigit_one _ b _ hb]
  simp only [Bool.not_true, Bool.false_eq_true, if_false, List.getD_cons_zero,
    List.getD_cons_succ, toByte_digit_val a ha, toByte_digit_val b hb, List.drop_succ_cons,
    List.drop_zero, Nat.add_sub_cancel_left]

theorem skipChar_same (c : Byte) (r : Bytes) : skipChar (c :: r) c = some r := by
  simp only [skipChar, if_true]

theorem digit_ne_space (d : Nat) (h : d < 10) : toByte (48 + d) ≠ 32 := by
  intro e
  have hv := toByte_digit_val d h
  rw [e] at hv
  have : (32 : Byte).val = 32 := rfl
  omega

theorem skipSpace_digit (d : Nat) (r : Bytes) (h : d < 10) :
    skipSpace (32 :: toByte (48 + d) :: r) = some (toByte (48 + d) :: r) := by
  have hne := digit_ne_space d h
  simp only [skipSpace, ne_eq, not_true_eq_false, if_false, cutspace, if_true, if_neg hne]

theorem digitsValue_four (a b c d : Nat) (ha : a < 10) (hb : b < 10) (hc : c < 10)
    (hd : d < 10) :
    digitsValue [toByte (48 + a), toByte (48 + b), toByte (48 + c), toByte (48 + d)] 0
      = some (a * 1000 + b * 100 + c * 10 + d) := by
  have e : [toByte (48 + a), toByte (48 + b), toByte (48 + c), toByte (48 + d)]
      = [toByte (48 + a)] ++ ([toByte (48 + b)] ++ ([toByte (48 + c)] ++ [toByte (48 + d)])) :=
    rfl
  rw [e, digitsValue_append, digitsValue_digit a 0 ha, Option.some_bind, digitsValue_append,
    digitsValue_digit b _ hb, Option.some_bind, digitsValue_append, digitsValue_digit c _ hc,
    Option.some_bind, digitsValue_digit d _ hd]
  congr 1
  omega

/-- Parsing a text of the shape `YYYY-MM-DD hh:mm:ss` made of digits. -/
theorem parseLayout_digits (y3 y2 y1 y0 m1 m0 d1 d0 h1 h0 i1 i0 s1 s0 : Nat)
    (hy3 : y3 < 10) (hy2 : y2 < 10) (hy1 : y1 < 10) (hy0 : y0 < 10) (hm1 : m1 < 10)
    (hm0 : m0 < 10) (hd1 : d1 < 10) (hd0 : d0 < 10) (hh1 : h1 < 10) (hh0 : h0 < 10)
    (hi1 : i1 < 10) (hi0 : i0 < 10) (hs1 : s1 < 10) (hs0 : s0 < 10)
    (hmonth : 1 ≤ m1 * 10 + m0 ∧ m1 * 10 + m0 ≤ 12) (hhour : h1 * 10 + h0 < 24)
    (hmin : i1 * 10 + i0 < 60) (hsec : s1 * 10 + s0 < 60)
    (hday : 1 ≤ d1 * 10 + d0 ∧ d1 * 10 + d0 ≤ 28) :
    parseLayout (toByte (48 + y3) :: toByte (48 + y2) :: toByte (48 + y1) :: toByte (48 + y0)
        :: 45 :: toByte (48 + m1) :: toByte (48 + m0) :: 45 :: toByte (48 + d1)
        :: toByte (48 + d0) :: 32 :: toByte (48 + h1) :: toByte (48 + h0) :: 58
        :: toByte (48 + i1) :: toByte (48 + i0) :: 58 :: toByte (48 + s1)
        :: [toByte (48 + s0)])
      = some (Int.ofNat (y3 * 1000 + y2 * 100 + y1 * 10 + y0), m1 * 10 + m0, d1 * 10 + d0,
          h1 * 10 + h0, i1 * 10 + i0, s1 * 10 + s0, 0) := by
  have hlen : ¬ ((toByte (48 + y3) :: toByte (48 + y2) :: toByte (48 + y1) :: toByte (48 + y0)
        :: 45 :: toByte (48 + m1) :: toByte (48 + m0) :: 45 :: toByte (48 + d1)
        :: toByte (48 + d0) :: 32 :: toByte (48 + h1) :: toByte (48 + h0) :: 58
        :: toByte (48 + i1) :: toByte (48 + i0) :: 58 :: toByte (48 + s1)
        :: [toByte (48 + s0)]).length < 4 ∨ (!isDigit (toByte (48 + y3) :: toByte (48 + y2) :: toByte (48 + y1) :: toByte (48 + y0)
        :: 45 :: toByte (48 + m1) :: toByte (48 + m0) :: 45 :: toByte (48 + d1)
        :: toByte (48 + d0) :: 32 :: toByte (48 + h1) :: toByte (48 + h0) :: 58
        :: toByte (48 + i1) :: toByte (48 + i0) :: 58 :: toByte (48 + s1)
        :: [toByte (48 + s0)]) 0) = true) := by
    rw [isDigit_zero y3 _ hy3]
    simp
  have hmo : ¬ (m1 * 10 + m0 = 0 ∨ 12 < m1 * 10 + m0) := by omega
  have hho : ¬ 24 ≤ h1 * 10 + h0 := by omega
  have hmi : ¬ 60 ≤ i1 * 10 + i0 := by omega
  have hse : ¬ 60 ≤ s1 * 10 + s0 := by omega
  have hdi : 28 ≤ daysIn (m1 * 10 + m0) (Int.ofNat (y3 * 1000 + y2 * 100 + y1 * 10 + y0)) := by
    unfold daysIn
    split_ifs <;> omega
  have hda : ¬ (d1 * 10 + d0 < 1 ∨
      daysIn (m1 * 10 + m0) (Int.ofNat (y3 * 1000 + y2 * 100 + y1 * 10 + y0)) < d1 * 10 + d0) := by
    omega
  unfold parseLayout
  rw [if_neg hlen]
  simp only [List.take_succ_cons, List.take_zero, List.drop_succ_cons, List.drop_zero,
    digitsValue_four y3 y2 y1 y0 hy3 hy2 hy1 hy0, skipChar_same,
    getnum_two m1 m0 _ _ hm1 hm0, if_neg hmo, getnum_two d1 d0 _ _ hd1 hd0,
    skipSpace_digit h1 _ hh1, getnum_two h1 h0 _ _ hh1 hh0, if_neg hho,
    getnum_two i1 i0 _ _ hi1 hi0, if_neg hmi, getnum_two s1 s0 _ _ hs1 hs0, if_neg hse,
    parseFraction, ne_eq, not_true_eq_false, if_false, if_neg hda]
/-- The text of `Time2Str` when the zone keeps the reading of `t`: year, month, month,
hour, minute and second of `t`. -/
theorem Time2Str_text (Z : Zone) (t : Time)
    (hk : Z.keeps t.Year t.Month t.Day t.Hour t.Minute t.Second t.Nanosecond) :
    Time2Str Z t = appendInt t.Year 4 ++ [45] ++ appendInt t.Month 2 ++ [45] ++
      appendInt t.Month 2 ++ [32] ++ appendInt t.Hour 2 ++ [58] ++ appendInt t.Minute 2 ++
      [58] ++ appendInt t.Second 2 := by
  obtain ⟨h1, h2, _, h4, h5, h6, _⟩ := hk
  simp only [Time2Str, formatShort, h1, h2, h4, h5, h6]

/-- Reading back the text of `Time2Str`: the second month field is taken for the day. -/
theorem Str2Time_Time2Str (Z : Zone) (t : Time)
    (hk : Z.keeps t.Year t.Month t.Day t.Hour t.Minute t.Second t.Nanosecond)
    (hw : t.wellFormed) (hy0 : 0 ≤ t.Year) (hy1 : t.Year ≤ 9999) :
    Str2Time Z (Time2Str Z t) = Z.Date t.Year t.Month t.Month t.Hour t.Minute t.Second 0 := by
  obtain ⟨w1, w2, _, _, w5, w6, w7, _⟩ := hw
  obtain ⟨y, hy⟩ : ∃ y : Nat, t.Year = (y : Int) := ⟨t.Year.toNat, by omega⟩
  have hy9 : y < 10000 := by omega
  rw [Time2Str_text Z t hk, hy, appendInt_four y hy9, appendInt_two t.Month (by omega),
    appendInt_two t.Hour (by omega), appendInt_two t.Minute (by omega),
    appendInt_two t.Second (by omega)]
  simp only [List.cons_append, List.nil_append, List.append_assoc]
  unfold Str2Time
  rw [parseLayout_digits (y / 1000) (y / 100 % 10) (y / 10 % 10) (y % 10) (t.Month / 10)
    (t.Month % 10) (t.Month / 10) (t.Month % 10) (t.Hour / 10) (t.Hour % 10) (t.Minute / 10)
    (t.Minute % 10) (t.Second / 10) (t.Second % 10) (by omega) (by omega) (by omega) (by omega)
    (by omega) (by omega) (by omega) (by omega) (by omega) (by omega) (by omega) (by omega)
    (by omega) (by omega) (by omega) (by omega) (by omega) (by omega) (by omega)]
  have e1 : Int.ofNat (y / 1000 * 1000 + y / 100 % 10 * 100 + y / 10 % 10 * 10 + y % 10)
      = (y : Int) := by
    show ((y / 1000 * 1000 + y / 100 % 10 * 100 + y / 10 % 10 * 10 + y % 10 : Nat) : Int) = y
    congr 1
    omega
  have e2 : t.Month / 10 * 10 + t.Month % 10 = t.Month := by omega
  have e3 : t.Hour / 10 * 10 + t.Hour % 10 = t.Hour := by omega
  have e4 : t.Minute / 10 * 10 + t.Minute % 10 = t.Minute := by omega
  have e5 : t.Second / 10 * 10 + t.Second % 10 = t.Second := by omega
  simp only [e1, e2, e3, e4, e5]

/-- C30, amended: When the local zone keeps the readings of two times that agree on year,
month, hour, minute and second, `Time2Str` returns the same text for both, whatever their
days: the text is year-month-month hour:minute:second; `Time2StrPointer` returns the same
text for a time that is not zero. When the year is between 0 and 9999 and the zone keeps
the reading that `Str2Time` parses, `Str2Time(Time2Str(t))` has the month number of `t` as
its day of month (and as its month). -/
theorem time2str_month_twice (Z : Zone) (t1 t2 : Time)
    (hk1 : Z.keeps t1.Year t1.Month t1.Day t1.Hour t1.Minute t1.Second t1.Nanosecond)
    (hk2 : Z.keeps t2.Year t2.Month t2.Day t2.Hour t2.Minute t2.Second t2.Nanosecond)
    (hy : t1.Year = t2.Year) (hm : t1.Month = t2.Month) (hh : t1.Hour = t2.Hour)
    (hmi : t1.Minute = t2.Minute) (hs : t1.Second = t2.Second) :
    Time2Str Z t1 = Time2Str Z t2
      ∧ Time2Str Z t1 = appendInt t1.Year 4 ++ [45] ++ appendInt t1.Month 2 ++ [45] ++
          appendInt t1.Month 2 ++ [32] ++ appendInt t1.Hour 2 ++ [58] ++
          appendInt t1.Minute 2 ++ [58] ++ appendInt t1.Second 2
      ∧ Time2StrPointer Z (some t1) = (if t1.IsZero then [] else Time2Str Z t1)
      ∧ (t1.wellFormed → 0 ≤ t1.Year → t1.Year ≤ 9999 →
          Z.keeps t1.Year t1.Month t1.Month t1.Hour t1.Minute t1.Second 0 →
          (Str2Time Z (Time2Str Z t1)).Day = t1.Month
            ∧ (Str2Time Z (Time2Str Z t1)).Month = t1.Month) := by
  refine ⟨?_, Time2Str_text Z t1 hk1, rfl, ?_⟩
  · rw [Time2Str_text Z t1 hk1, Time2Str_text Z t2 hk2, hy, hm, hh, hmi, hs]
  · intro hw hy0 hy1 hk3
    rw [Str2Time_Time2Str Z t1 hk1 hw hy0 hy1]
    exact ⟨hk3.2.2.1, hk3.2.1⟩

set_option maxRecDepth 20000 in
/-- Witness of `time2str_month_twice`: 10:07:09 on May 20 and May 21 of 2024, in UTC. -/
theorem time2str_month_twice_witness :
    Time2Str utcZone ⟨1716199629 * 10 ^ 9, 2024, 5, 20, 10, 7, 9, 0⟩
        = Time2Str utcZone ⟨1716286029 * 10 ^ 9, 2024, 5, 21, 10, 7, 9, 0⟩
      ∧ (Str2Time utcZone (Time2Str utcZone ⟨1716199629 * 10 ^ 9, 2024, 5, 20, 10, 7, 9, 0⟩)).Day
        = 5 := by
  have h := time2str_month_twice utcZone ⟨1716199629 * 10 ^ 9, 2024, 5, 20, 10, 7, 9, 0⟩
    ⟨1716286029 * 10 ^ 9, 2024, 5, 21, 10, 7, 9, 0⟩ (by decide) (by decide) rfl rfl rfl rfl rfl
  exact ⟨h.1, (h.2.2.2 (by decide) (by decide) (by decide) (by decide)).1⟩

set_option maxRecDepth 20000 in
/-- Counterexample to C30 as stated: for a time in year 10000 the text has a five-digit
year, `Str2Time` fails on it and returns the zero time, whose day is 1 and not the month
5; and in a zone that skips 02:30 on 2024-03-10 two times that differ only in the day get
different texts. -/
theorem time2str_counterexample :
    Time2Str utcZone ⟨253414432800 * 10 ^ 9, 10000, 5, 20, 10, 0, 0, 0⟩
        = ascii "10000-05-05 10:00:00"
      ∧ Str2Time utcZone (Time2Str utcZone ⟨253414432800 * 10 ^ 9, 10000, 5, 20, 10, 0, 0, 0⟩)
        = zeroTime
      ∧ (Str2Time utcZone
          (Time2Str utcZone ⟨253414432800 * 10 ^ 9, 10000, 5, 20, 10, 0, 0, 0⟩)).Day ≠ 5
      ∧ Time2Str gapZone ⟨1710037800 * 10 ^ 9, 2024, 3, 10, 2, 30, 0, 0⟩
        = ascii "2024-03-03 01:30:00"
      ∧ Time2Str gapZone ⟨1710124200 * 10 ^ 9, 2024, 3, 11, 2, 30, 0, 0⟩
        = ascii "2024-03-03 02:30:00" := by
  refine ⟨by decide, by decide, by decide, by decide, by decide⟩

end Security
